import Mathlib

/-!
# Verification of the JSON-Schema normalizer

A shallow embedding of `src-tauri/src/proxy/common/json_schema.rs`:
the functions `clean_json_schema`, `flatten_refs`,
`clean_json_schema_recursive`, `merge_all_of`, `score_schema_option`,
`extract_best_type_from_union` and `extract_type_from_union`, together
with theorems checking the stated properties of the normalizer.

JSON values are modelled by the inductive type `JValue`; objects are
association lists kept in strictly increasing key order, mirroring the
`serde_json` `Map` backed by a `BTreeMap` (iteration in sorted key
order, `insert` replacing in place, `remove` deleting the key).
Numbers are modelled as integers; the claims under study never depend
on non-integer numerics.  The recursive pass is written with an
explicit fuel parameter (the Rust recursion is structural on the tree,
but moves subtrees around via `merge_all_of`, so Lean needs a measure);
`cleanRoot` supplies `sizeOf`-based fuel, which is proved sufficient.
-/

set_option maxHeartbeats 1000000

inductive JValue where
  | null : JValue
  | bool : Bool → JValue
  | num : Int → JValue
  | str : String → JValue
  | arr : List JValue → JValue
  | obj : List (String × JValue) → JValue
  deriving Repr

abbrev JObj := List (String × JValue)

/-- `BTreeMap::get`: first entry with the given key. -/
def findKey (k : String) : JObj → Option JValue
  | [] => none
  | (k', v) :: rest => if k' = k then some v else findKey k rest

/-- `BTreeMap::remove`: delete the key (all occurrences; canonical maps
have at most one). -/
def eraseKey (k : String) : JObj → JObj
  | [] => []
  | (k', v') :: rest => if k' = k then eraseKey k rest else (k', v') :: eraseKey k rest

/-- Lexicographic order on character lists by codepoint; on UTF-8
strings this coincides with the byte order `BTreeMap<String, _>` sorts
by. -/
def charListLt : List Char → List Char → Bool
  | [], [] => false
  | [], _ :: _ => true
  | _ :: _, [] => false
  | c :: cs, d :: ds =>
    if c.toNat < d.toNat then true
    else if d.toNat < c.toNat then false
    else charListLt cs ds

def strLtB (a b : String) : Bool := charListLt a.data b.data

/-- `BTreeMap::insert`: replace in place if present, otherwise insert at
the sorted position. -/
def insertKey (k : String) (v : JValue) : JObj → JObj
  | [] => [(k, v)]
  | (k', v') :: rest =>
    if strLtB k k' then (k, v) :: (k', v') :: rest
    else if k = k' then (k, v) :: rest
    else (k', v') :: insertKey k v rest

mutual
def jsize : JValue → Nat
  | .null => 1
  | .bool _ => 1
  | .num _ => 1
  | .str _ => 1
  | .arr xs => 1 + jsizeL xs
  | .obj xs => 1 + jsizeO xs
def jsizeL : List JValue → Nat
  | [] => 0
  | x :: xs => jsize x + jsizeL xs
def jsizeO : List (String × JValue) → Nat
  | [] => 0
  | kv :: xs => jsize kv.2 + jsizeO xs
end

/-! ## String helpers (Rust `str::contains`, `str::to_lowercase` on ASCII,
`str::split`) -/

/-- ASCII lowercasing of one character (`str::to_lowercase`; the schemas
under study are ASCII). -/
def lowerChar (c : Char) : Char :=
  if 65 ≤ c.toNat ∧ c.toNat ≤ 90 then Char.ofNat (c.toNat + 32) else c

/-- ASCII lowercasing of a string. -/
def lowerStr (s : String) : String := ⟨s.data.map lowerChar⟩

/-- Split a character list at `/` (Rust `str::split('/')`). -/
def splitSlashAux : List Char → List Char → List String
  | [], acc => [⟨acc.reverse⟩]
  | c :: rest, acc =>
    if c = '/' then ⟨acc.reverse⟩ :: splitSlashAux rest []
    else splitSlashAux rest (c :: acc)

/-- The fragment after the last `/` (`ref_path.split('/').last()`). -/
def refFragment (s : String) : String :=
  ((splitSlashAux s.data []).getLast?).getD s

/-- `p` is a prefix of `l` (character lists). -/
def startsWithChars : List Char → List Char → Bool
  | _, [] => true
  | [], _ :: _ => false
  | c :: cs, d :: ds => c = d && startsWithChars cs ds

/-- `p` occurs contiguously inside `l`. -/
def hasSubSeq : List Char → List Char → Bool
  | [], p => p.isEmpty
  | c :: rest, p => startsWithChars (c :: rest) p || hasSubSeq rest p

/-- Rust `str::contains` for a literal pattern. -/
def strContains (s pat : String) : Bool := hasSubSeq s.data pat.data

/-! ## A minimal JSON serializer (`serde_json::Value::to_string`),
used only by the enum coercer on non-scalar enum members. -/

def hexDigitChar (n : Nat) : Char :=
  if n < 10 then Char.ofNat (48 + n) else Char.ofNat (87 + n)

def escapeJsonChar (c : Char) : String :=
  if c = '"' then "\\\""
  else if c = '\\' then "\\\\"
  else if c = '\n' then "\\n"
  else if c = '\r' then "\\r"
  else if c = '\t' then "\\t"
  else if c.toNat = 8 then "\\b"
  else if c.toNat = 12 then "\\f"
  else if c.toNat < 32 then
    "\\u00" ++ String.singleton (hexDigitChar (c.toNat / 16)) ++
      String.singleton (hexDigitChar (c.toNat % 16))
  else String.singleton c

def jstrQuote (s : String) : String :=
  "\"" ++ String.join (s.data.map escapeJsonChar) ++ "\""

/-- Compact JSON text of a value (fuel-bounded recursion). -/
def jser : Nat → JValue → String
  | 0, _ => ""
  | fuel + 1, v =>
    match v with
    | .null => "null"
    | .bool b => if b then "true" else "false"
    | .num n => toString n
    | .str s => jstrQuote s
    | .arr xs => "[" ++ String.intercalate "," (xs.map (jser fuel)) ++ "]"
    | .obj m =>
      "\x7b" ++
        String.intercalate "," (m.map (fun kv => jstrQuote kv.1 ++ ":" ++ jser fuel kv.2)) ++
      "\x7d"

/-! ## The normalizer's tables (lines 108-120 and 165-192 of the source) -/

/-- The eleven validation keywords and their hint labels. -/
def validationFields : List (String × String) :=
  [("pattern", "pattern"), ("minLength", "minLen"), ("maxLength", "maxLen"),
   ("minimum", "min"), ("maximum", "max"), ("minItems", "minItems"),
   ("maxItems", "maxItems"), ("exclusiveMinimum", "exclMin"),
   ("exclusiveMaximum", "exclMax"), ("multipleOf", "multipleOf"),
   ("format", "format")]

/-- The 26 unconditionally removed keys. -/
def hardRemoveFields : List String :=
  ["$schema", "$id", "additionalProperties", "enumCaseInsensitive",
   "enumNormalizeWhitespace", "uniqueItems", "default", "const", "examples",
   "propertyNames", "anyOf", "oneOf", "allOf", "not", "if", "then", "else",
   "dependencies", "dependentSchemas", "dependentRequired", "cache_control",
   "contentEncoding", "contentMediaType", "deprecated", "readOnly", "writeOnly"]

/-! ## `score_schema_option` / `extract_*_from_union` (lines 374-422) -/

def typeAsStr (o : JObj) : Option String :=
  match findKey "type" o with
  | some (.str s) => some s
  | _ => none

def scoreSchemaOption (v : JValue) : Int :=
  match v with
  | .obj o =>
    if (findKey "properties" o).isSome ∨ typeAsStr o = some "object" then 3
    else if (findKey "items" o).isSome ∨ typeAsStr o = some "array" then 2
    else
      match typeAsStr o with
      | some t => if t ≠ "null" then 1 else 0
      | none => 0
  | _ => 0

def bstStep (acc : Option JValue × Int) (item : JValue) : Option JValue × Int :=
  if scoreSchemaOption item > acc.2 then (some item, scoreSchemaOption item) else acc

def extractBestTypeFromUnion (l : List JValue) : Option JValue :=
  (l.foldl bstStep (none, -1)).1

def extractTypeFromUnion (l : List JValue) : Option String :=
  match extractBestTypeFromUnion l with
  | some (.obj o) =>
    match findKey "type" o with
    | some (.str s) =>
      if s ≠ "null" then some (lowerStr s)
      else if (findKey "properties" o).isSome then some "object" else none
    | _ => if (findKey "properties" o).isSome then some "object" else none
  | _ => none

/-! ## `merge_all_of` (lines 309-370) -/

def mergeBranchProps (acc : JObj) (subMap : JObj) : JObj :=
  match findKey "properties" subMap with
  | some (.obj props) => props.foldl (fun a kv => insertKey kv.1 kv.2 a) acc
  | _ => acc

def mergeBranchRequired (acc : List String) (subMap : JObj) : List String :=
  match findKey "required" subMap with
  | some (.arr reqs) =>
    reqs.foldl (fun a r =>
      match r with
      | .str s => if a.contains s then a else a ++ [s]
      | _ => a) acc
  | _ => acc

def mergeBranchOther (acc : JObj) (subMap : JObj) : JObj :=
  subMap.foldl (fun a kv =>
    if kv.1 ≠ "properties" ∧ kv.1 ≠ "required" ∧ kv.1 ≠ "allOf" ∧ (findKey kv.1 a).isNone
    then insertKey kv.1 kv.2 a else a) acc

/-- `entry(k).or_insert(v)`-style accumulation: first write wins. -/
def orInsertAll (dst : JObj) (src : JObj) : JObj :=
  src.foldl (fun a kv =>
    if (findKey kv.1 a).isSome then a else insertKey kv.1 kv.2 a) dst

/-- Append merged `required` strings, skipping those already present. -/
def appendRequired (mergedReq : List String) (current : List String)
    (reqArr : List JValue) : List JValue :=
  (mergedReq.foldl (fun (acc : List String × List JValue) req =>
    if acc.1.contains req then acc else (acc.1 ++ [req], acc.2 ++ [.str req]))
    (current, reqArr)).2

/-- The accumulated `properties` of all branches (later branches win). -/
def mergedPropsOf (allOfArr : List JValue) : JObj :=
  allOfArr.foldl (fun acc sub =>
    match sub with
    | .obj subMap => mergeBranchProps acc subMap
    | _ => acc) []

/-- The accumulated `required` strings of all branches (deduplicated). -/
def mergedReqOf (allOfArr : List JValue) : List String :=
  allOfArr.foldl (fun acc sub =>
    match sub with
    | .obj subMap => mergeBranchRequired acc subMap
    | _ => acc) []

/-- The accumulated other fields of all branches (first branch wins). -/
def mergedOtherOf (allOfArr : List JValue) : JObj :=
  allOfArr.foldl (fun acc sub =>
    match sub with
    | .obj subMap => mergeBranchOther acc subMap
    | _ => acc) []

/-- Apply the merged properties to the node (the node's own property
definitions win). -/
def applyMergedProps (mergedProps : JObj) (m : JObj) : JObj :=
  if mergedProps.isEmpty then m
  else
    match findKey "properties" m with
    | some (.obj ex) => insertKey "properties" (.obj (orInsertAll ex mergedProps)) m
    | some _ => m
    | none => insertKey "properties" (.obj (orInsertAll [] mergedProps)) m

/-- Apply the merged required strings to the node (append, skipping
those already present). -/
def applyMergedReq (mergedReq : List String) (m : JObj) : JObj :=
  if mergedReq.isEmpty then m
  else
    match findKey "required" m with
    | some (.arr reqArr) =>
      let current := reqArr.filterMap (fun v =>
        match v with
        | .str s => some s
        | _ => none)
      insertKey "required" (.arr (appendRequired mergedReq current reqArr)) m
    | some _ => m
    | none => insertKey "required" (.arr (appendRequired mergedReq [] [])) m

def mergeAllOf (m : JObj) : JObj :=
  match findKey "allOf" m with
  | some (.arr allOfArr) =>
    applyMergedReq (mergedReqOf allOfArr)
      (applyMergedProps (mergedPropsOf allOfArr)
        (orInsertAll (eraseKey "allOf" m) (mergedOtherOf allOfArr)))
  | _ => m

/-! ## The per-node passes of `clean_json_schema_recursive` (lines 70-306) -/

/-- Strike nullable property keys from the parent's `required` (lines 87-97). -/
def retractFilter (nullableKeys : List String) (req : List JValue) : List JValue :=
  req.filter (fun r =>
    match r with
    | .str s => ¬ nullableKeys.contains s
    | _ => true)

def retractRequired (nullableKeys : List String) (m : JObj) : JObj :=
  if nullableKeys.isEmpty then m
  else
    match findKey "required" m with
    | some (.arr req) =>
      if (retractFilter nullableKeys req).isEmpty then eraseKey "required" m
      else insertKey "required" (.arr (retractFilter nullableKeys req)) m
    | _ => m

/-- The hint text of a scalar constraint value, `label: value` (lines 124-130). -/
def scalarHint (label : String) (v : JValue) : Option String :=
  match v with
  | .str s => some (label ++ ": " ++ s)
  | .num n => some (label ++ ": " ++ toString n)
  | .bool b => some (label ++ ": " ++ toString b)
  | _ => none

/-- One step of the migration scan over a single validation field
(lines 104-146). -/
def migrateStep (acc : JObj × List String) (fl : String × String) :
    JObj × List String :=
  match findKey fl.1 acc.1 with
  | some val =>
    match scalarHint fl.2 val with
    | some hint => (eraseKey fl.1 acc.1, acc.2 ++ [hint])
    | none => (insertKey fl.1 val (eraseKey fl.1 acc.1), acc.2)
  | none => acc

def migrateScan (fields : List (String × String)) (acc : JObj × List String) :
    JObj × List String :=
  fields.foldl migrateStep acc

/-- `Vec::join(", ")`. -/
def joinComma : List String → String
  | [] => ""
  | [x] => x
  | x :: xs => x ++ ", " ++ joinComma xs

/-- The description suffix built from the hint list (line 139). -/
def constraintSuffix (hints : List String) : String :=
  " [Constraint: " ++ joinComma hints ++ "]"

/-- Append the collected constraint hints to the description
(lines 137-146). -/
def applyHints (hints : List String) (m : JObj) : JObj :=
  if hints.isEmpty then m
  else
    match findKey "description" m with
    | some (.str s) => insertKey "description" (.str (s ++ constraintSuffix hints)) m
    | some _ => m
    | none => insertKey "description" (.str (constraintSuffix hints)) m

def migrateConstraints (m : JObj) : JObj :=
  applyHints (migrateScan validationFields (m, [])).2
    (migrateScan validationFields (m, [])).1

/-- One union-resolution attempt against the named key. -/
def unionAssign (key : String) (m : JObj) : JObj :=
  match findKey key m with
  | some (.arr l) =>
    match extractTypeFromUnion l with
    | some t => insertKey "type" (.str t) m
    | none => m
  | _ => m

/-- `anyOf`/`oneOf` union resolution (lines 148-162). -/
def resolveUnion (m : JObj) : JObj :=
  if (findKey "type" m).isNone then
    let m1 := unionAssign "anyOf" m
    if (findKey "type" m1).isNone then unionAssign "oneOf" m1 else m1
  else m

/-- The hard-remove pass (lines 164-195). -/
def hardRemoveStep (m : JObj) : JObj :=
  hardRemoveFields.foldl (fun a f => eraseKey f a) m

/-- The synthetic `reason` property injected into empty object schemas. -/
def reasonProp : JObj :=
  [("description", .str "Reason for calling this tool"), ("type", .str "string")]

/-- Does the node have a non-empty `properties` object? -/
def hasNonEmptyProps (m : JObj) : Bool :=
  match findKey "properties" m with
  | some (.obj p) => !p.isEmpty
  | _ => false

/-- Empty-object placeholder (lines 197-209). -/
def placeholderStep (m : JObj) : JObj :=
  match findKey "type" m with
  | some (.str t) =>
    if t = "object" then
      if hasNonEmptyProps m then m
      else
        insertKey "required" (.arr [.str "reason"])
          (insertKey "properties" (.obj [("reason", .obj reasonProp)]) m)
    else m
  | _ => m

/-- The set of valid property keys (`valid_prop_keys`, lines 214-217). -/
def validPropKeys (m : JObj) : Option (List String) :=
  match findKey "properties" m with
  | some (.obj p) => some (p.map (·.1))
  | _ => none

/-- Filter a `required` array against the valid property keys: without
`properties` the array is cleared (lines 219-233). -/
def filterRequired (vk : Option (List String)) (req : List JValue) : List JValue :=
  match vk with
  | some keys => req.filter (fun r =>
      match r with
      | .str s => keys.contains s
      | _ => false)
  | none => []

/-- `required` ⊆ `properties` reconciliation (lines 211-234). -/
def requiredFilterStep (m : JObj) : JObj :=
  match findKey "required" m with
  | some (.arr req) => insertKey "required" (.arr (filterRequired (validPropKeys m) req)) m
  | _ => m

/-- Collapse of a `type` array: last non-`"null"` string (lowercased) wins,
default `"string"`; nullable if any element is `"null"` (lines 244-256). -/
def typeSelStep (acc : String × Bool) (it : JValue) : String × Bool :=
  match it with
  | .str s => if s ≠ "null" then (lowerStr s, acc.2) else (acc.1, true)
  | _ => acc

def selectFromTypeArray (items : List JValue) : String × Bool :=
  items.foldl typeSelStep ("string", false)

/-- Type normalization; the returned flag is `is_effectively_nullable`
(lines 236-259). -/
def typeStep (m : JObj) : JObj × Bool :=
  match findKey "type" m with
  | some (.str s) =>
    let lower := lowerStr s
    (insertKey "type" (.str lower) m, lower = "null")
  | some (.arr items) =>
    let sel := selectFromTypeArray items
    (insertKey "type" (.str sel.1) m, sel.2)
  | _ => (m, false)

/-- Append the `(nullable)` marker to the description (lines 261-269). -/
def nullableDescStep (nullable : Bool) (m : JObj) : JObj :=
  if nullable then
    match findKey "description" m with
    | some (.str s) =>
      if strContains s "nullable" then m
      else if s.data.isEmpty then insertKey "description" (.str "(nullable)") m
      else insertKey "description" (.str (s ++ " (nullable)")) m
    | some _ => m
    | none => insertKey "description" (.str "(nullable)") m
  else m

/-- String coercion of one `enum` member (lines 277-292). -/
def enumElemToString (fuel : Nat) (v : JValue) : JValue :=
  match v with
  | .str s => .str s
  | .num n => .str (toString n)
  | .bool b => .str (toString b)
  | .null => .str "null"
  | other => .str (jser fuel other)

/-- Enum coercion (lines 271-295). -/
def enumStep (fuel : Nat) (m : JObj) : JObj :=
  match findKey "enum" m with
  | some (.arr items) => insertKey "enum" (.arr (items.map (enumElemToString fuel))) m
  | _ => m

/-- `clean_json_schema_recursive`, with explicit fuel; the returned flag is
`is_effectively_nullable` (lines 70-306). -/
def cleanFuel : Nat → JValue → JValue × Bool
  | 0, v => (v, false)
  | fuel + 1, v =>
    match v with
    | .obj m =>
      let m1 := mergeAllOf m
      let m2 :=
        match findKey "properties" m1 with
        | some (.obj props) =>
          let cleaned := props.map (fun kv => (kv.1, cleanFuel fuel kv.2))
          let nullableKeys := (cleaned.filter (fun kv => kv.2.2)).map (·.1)
          let propsNew := cleaned.map (fun kv => (kv.1, kv.2.1))
          retractRequired nullableKeys (insertKey "properties" (.obj propsNew) m1)
        | _ => m1.map (fun kv => (kv.1, (cleanFuel fuel kv.2).1))
      let m3 := migrateConstraints m2
      let m4 := resolveUnion m3
      let m5 := hardRemoveStep m4
      let m6 := placeholderStep m5
      let m7 := requiredFilterStep m6
      let tr := typeStep m7
      let m9 := nullableDescStep tr.2 tr.1
      let m10 := enumStep fuel m9
      (.obj m10, tr.2)
    | .arr xs => (.arr (xs.map (fun x => (cleanFuel fuel x).1)), false)
    | other => (other, false)

/-! ## `flatten_refs` (lines 34-68), with explicit fuel: the Rust function
has no cycle guard and diverges on cyclic definitions (a documented,
accepted risk); the model bounds the `$ref` unfolding by fuel. -/

/-- The child traversal of `flatten_refs` (lines 56-67): descend into
object values and into objects inside array values. -/
def flattenChildWith (rec : JObj → JObj) (v : JValue) : JValue :=
  match v with
  | .obj cm => .obj (rec cm)
  | .arr xs => .arr (xs.map (fun item =>
      match item with
      | .obj im => JValue.obj (rec im)
      | other => other))
  | other => other

/-- The `$ref` substitution at the node itself (lines 35-54). -/
def flattenSelf (rec : JObj → JObj) (defs m : JObj) : JObj :=
  match findKey "$ref" m with
  | some (.str refPath) =>
    match findKey (refFragment refPath) defs with
    | some (.obj defMap) => rec (orInsertAll (eraseKey "$ref" m) defMap)
    | _ => eraseKey "$ref" m
  | some _ => eraseKey "$ref" m
  | none => m

def flattenFuel : Nat → JObj → JObj → JObj
  | 0, _, m => m
  | fuel + 1, defs, m =>
    (flattenSelf (flattenFuel fuel defs) defs m).map
      (fun kv => (kv.1, flattenChildWith (flattenFuel fuel defs) kv.2))

/-! `clean_json_schema` (lines 11-31): harvest `$defs`/`definitions`,
flatten references when the table is non-empty, then run the recursive
pass with sufficient fuel. -/

/-- The `$defs` entries harvested at the root. -/
def rootDefs1 (m : JObj) : JObj :=
  match findKey "$defs" m with
  | some (.obj dm) => dm
  | _ => []

/-- The harvested definitions table: `$defs` extended by `definitions`
(`definitions` entries win on collision). -/
def rootDefs (m : JObj) : JObj :=
  match findKey "definitions" (eraseKey "$defs" m) with
  | some (.obj dm) => dm.foldl (fun a kv => insertKey kv.1 kv.2 a) (rootDefs1 m)
  | _ => rootDefs1 m

/-- The root object with `$defs` and `definitions` removed. -/
def rootStripped (m : JObj) : JObj := eraseKey "definitions" (eraseKey "$defs" m)

/-- The root after the (conditional) flatten pre-pass. -/
def rootFlattened (m : JObj) : JObj :=
  if (rootDefs m).isEmpty then rootStripped m
  else flattenFuel (jsize (JValue.obj (rootStripped m))) (rootDefs m) (rootStripped m)

def cleanRoot (v : JValue) : JValue :=
  match v with
  | .obj m =>
    (cleanFuel (jsize (JValue.obj (rootFlattened m)) + 1) (.obj (rootFlattened m))).1
  | other => (cleanFuel (jsize other + 1) other).1

/-! ## Claim-side predicates: properties of every object node reachable
from the root (through any object key or array element), phrased as
fuel-bounded boolean checks so concrete outputs can be evaluated. -/

/-- `p` holds on every object node reachable from `v` (fuel-bounded). -/
def allNodesB (p : JObj → Bool) : Nat → JValue → Bool
  | 0, _ => true
  | fuel + 1, v =>
    match v with
    | .obj m => p m && m.all (fun kv => allNodesB p fuel kv.2)
    | .arr xs => xs.all (allNodesB p fuel)
    | _ => true

/-- The full forbidden-key list of claim C1 (§3 of the spec). -/
def forbiddenKeysC1 : List String :=
  ["$ref", "$defs", "definitions", "$schema", "$id", "additionalProperties",
   "anyOf", "oneOf", "allOf", "not", "if", "then", "else", "dependencies",
   "dependentSchemas", "dependentRequired", "cache_control", "contentEncoding",
   "contentMediaType", "deprecated", "readOnly", "writeOnly", "uniqueItems",
   "default", "const", "examples", "propertyNames"] ++ validationFields.map (·.1)

def noForbiddenKeysB (m : JObj) : Bool :=
  m.all (fun kv => !(forbiddenKeysC1.contains kv.1))

/-- The required/properties consistency of claim C2 at one node. -/
def reqSubsetPropsB (m : JObj) : Bool :=
  match findKey "required" m with
  | none => true
  | some (.arr req) =>
    match findKey "properties" m with
    | some (.obj p) => req.all (fun r =>
        match r with
        | .str s => (findKey s p).isSome
        | _ => false)
    | _ => req.isEmpty
  | some _ => true

/-- The `type == "object"` non-empty-properties condition of claim C3 at
one node. -/
def typeObjectHasPropsB (m : JObj) : Bool :=
  match findKey "type" m with
  | some (.str t) =>
    if t = "object" then
      match findKey "properties" m with
      | some (.obj p) => !p.isEmpty
      | _ => false
    else true
  | _ => true

/-- Reading a top-level key of a value that may or may not be an object. -/
def getKey (v : JValue) (k : String) : Option JValue :=
  match v with
  | .obj m => findKey k m
  | _ => none

/-! ## Counterexample inputs -/

/-- A bare unresolvable reference: no `$defs`/`definitions` at the root,
so `flatten_refs` is never invoked and the `$ref` key survives. -/
def refOnlyInput : JValue := .obj [("$ref", .str "#/x")]

/-- A node with `properties` and a sibling `items` subtree: the recursive
pass only descends into `properties` values here, so the `items` subtree
is never visited. -/
def itemsSiblingInput : JValue :=
  .obj [("items", .obj [("required", .arr [.str "x"])]),
        ("properties", .obj [("a", .bool true)])]

/-- Mixed-case `"Object"`: the placeholder pass compares against the
exact string `"object"` before lowercasing happens. -/
def mixedCaseObjectInput : JValue := .obj [("type", .str "Object")]

/-- A `type` array whose only element is the mixed-case `"NULL"`: it is
not recognized as null (case-sensitive comparison), so the selected type
becomes the lowercased `"null"` without the nullable marking. -/
def nullCaseArrayInput : JValue := .obj [("type", .arr [.str "NULL"])]

/-- The claim C5 scenario input. -/
def stringNullArrayInput : JValue := .obj [("type", .arr [.str "string", .str "null"])]

/-- A scalar `minimum` next to a non-string `description`: the keyword is
removed but the hint cannot be appended. -/
def numericDescInput : JValue := .obj [("description", .num 5), ("minimum", .num 3)]

/-- Option alternative, first operand wins. -/
def orElseO (a b : Option JValue) : Option JValue :=
  match a with
  | some v => some v
  | none => b


/-- The nullable property keys reported by the child recursion. -/
def nullableKeysOf (cleaned : List (String × (JValue × Bool))) : List String :=
  (cleaned.filter (fun kv => kv.2.2)).map (·.1)

/-- The child-recursion stage: descend into `properties` values when
`properties` is an object, otherwise into every value (lines 78-102). -/
def childStage (fuel : Nat) (m1 : JObj) : JObj :=
  match findKey "properties" m1 with
  | some (.obj props) =>
    retractRequired (nullableKeysOf (props.map (fun kv => (kv.1, cleanFuel fuel kv.2))))
      (insertKey "properties"
        (.obj ((props.map (fun kv => (kv.1, cleanFuel fuel kv.2))).map
          (fun kv => (kv.1, kv.2.1)))) m1)
  | _ => m1.map (fun kv => (kv.1, (cleanFuel fuel kv.2).1))

/-- The node-local passes applied after the child recursion
(lines 104-295). -/
def finishNode (fuel : Nat) (m2 : JObj) : JObj × Bool :=
  (enumStep fuel
    (nullableDescStep
      (typeStep (requiredFilterStep (placeholderStep (hardRemoveStep
        (resolveUnion (migrateConstraints m2)))))).2
      (typeStep (requiredFilterStep (placeholderStep (hardRemoveStep
        (resolveUnion (migrateConstraints m2)))))).1),
   (typeStep (requiredFilterStep (placeholderStep (hardRemoveStep
     (resolveUnion (migrateConstraints m2)))))).2)


/-- A non-`"null"` string element (the elements the scan remembers). -/
def isNonNullStr (t : JValue) : Bool :=
  match t with
  | .str s => decide (s ≠ "null")
  | _ => false

/-- The claim's wording of the selection: the lowercased last
non-`"null"` string element scanned left to right, defaulting to
`"string"`. -/
def selectTypeSpec (ts : List JValue) : String :=
  match ts.reverse.find? isNonNullStr with
  | some (.str s) => lowerStr s
  | _ => "string"

/-- Some element is literally the string `"null"`. -/
def typeArrayNullable (ts : List JValue) : Bool :=
  ts.any (fun t =>
    match t with
    | .str s => decide (s = "null")
    | _ => false)


/-- The selection recursion: keep the incumbent unless a strictly
higher-scoring branch appears. -/
def chooseFrom (p : JValue) : List JValue → JValue
  | [] => p
  | x :: xs =>
    if scoreSchemaOption x > scoreSchemaOption p then chooseFrom x xs
    else chooseFrom p xs

/-- The first branch whose score is maximal over the whole array: the
claim's "first-seen highest-scoring branch". -/
def firstMaxBranch (branches : List JValue) : Option JValue :=
  branches.find? (fun b =>
    decide (∀ b' ∈ branches, scoreSchemaOption b' ≤ scoreSchemaOption b))

/-- The claim's wording of the whole union-type extraction. -/
def unionTypeSpec (branches : List JValue) : Option String :=
  match firstMaxBranch branches with
  | some (.obj o) =>
    match findKey "type" o with
    | some (.str s) =>
      if s ≠ "null" then some (lowerStr s)
      else if (findKey "properties" o).isSome then some "object" else none
    | _ => if (findKey "properties" o).isSome then some "object" else none
  | _ => none


/-- First-wins alternative on optional extracted types. -/
def orElseS (a b : Option String) : Option String :=
  match a with
  | some t => some t
  | none => b

/-- The claim-side union extraction read off the node's `key` (`anyOf`
or `oneOf`): the spec's selection applied when that key holds an array,
nothing otherwise. -/
def unionSpecAt (key : String) (m : JObj) : Option String :=
  match findKey key m with
  | some (.arr l) => unionTypeSpec l
  | _ => none

/-- A node whose single `anyOf` branch carries `type: "null"` together
with `properties`. -/
def nullPropsUnionInput : JObj :=
  [("anyOf", .arr [.obj
    [("properties", .obj [("a", .obj [("type", .str "string")])]),
     ("type", .str "null")]])]

/-- The last branch that defines the property `k` (the claim's
"last branch winning"); within one branch, the last entry of its
`properties` list. -/
def branchPropLookup (k : String) (b : JValue) : Option JValue :=
  match b with
  | .obj sub =>
    match findKey "properties" sub with
    | some (.obj props) => findKey k props.reverse
    | _ => none
  | _ => none

def lastBranchProp (branches : List JValue) (k : String) : Option JValue :=
  branches.reverse.findSome? (branchPropLookup k)

/-- The first branch that defines the field `k` (the claim's
"first branch winning"). -/
def branchFieldLookup (k : String) (b : JValue) : Option JValue :=
  match b with
  | .obj sub => findKey k sub
  | _ => none

def firstBranchField (branches : List JValue) (k : String) : Option JValue :=
  branches.findSome? (branchFieldLookup k)


/-- The new `required` entries the merge appends: each merged string not
already present, in order, each added at most once. -/
def appendTail : List String → List String → List JValue
  | [], _ => []
  | r :: rest, current =>
    if current.contains r then appendTail rest current
    else .str r :: appendTail rest (current ++ [r])


/-- `filter_map(|v| v.as_str())` on a `required` array. -/
def strListOf (l : List JValue) : List String :=
  l.filterMap (fun v =>
    match v with
    | .str s => some s
    | _ => none)

/-- Look a property key up through the node's `properties` object. -/
def propLookup (m : JObj) (k : String) : Option JValue :=
  match findKey "properties" m with
  | some (.obj p) => findKey k p
  | _ => none

def c7b1 : JValue :=
  .obj [("properties", .obj [("a", .str "A1")]),
        ("required", .arr [.str "a"]),
        ("x", .str "X1")]

def c7b2 : JValue :=
  .obj [("properties", .obj [("a", .str "A2"), ("b", .str "B")]),
        ("required", .arr [.str "b"]),
        ("x", .str "X2")]

def c7m : JObj :=
  [("allOf", .arr [c7b1, c7b2]),
   ("required", .arr [.str "a"]),
   ("x", .str "OWNX")]

def visitedOkB (p : JObj → Bool) : Nat → JValue → Bool
  | 0, _ => true
  | fuel + 1, v =>
    match v with
    | .obj m =>
      p m &&
      (match findKey "properties" m with
       | some (.obj props) => props.all (fun kv => visitedOkB p fuel kv.2)
       | _ => m.all (fun kv => visitedOkB p fuel kv.2))
    | .arr xs => xs.all (fun x => visitedOkB p fuel x)
    | _ => true


/-- No key of the hard-remove list survives at a node. -/
def noHardKeysB (m : JObj) : Bool :=
  m.all (fun kv => !(hardRemoveFields.contains kv.1))


/-- The fuel `clean_json_schema` hands to the recursive pass. -/
def rootFuelOf : JValue → Nat
  | .obj m => jsize (JValue.obj (rootFlattened m)) + 1
  | other => jsize other + 1

/-- The required/properties consistency at one node: if `required` is an
array, its elements are strings naming property keys; without a
`properties` object the array is empty. -/
def reqConsistentB (m : JObj) : Bool :=
  match findKey "required" m with
  | some (.arr req) =>
    match validPropKeys m with
    | some keys => req.all (fun r =>
        match r with
        | .str s => keys.contains s
        | _ => false)
    | none => req.isEmpty
  | _ => true

def c2scenario : JValue :=
  .obj [("type", .str "object"),
        ("properties", .obj [("existing", .obj [("type", .str "string")])]),
        ("required", .arr [.str "existing", .str "missing"])]

/-- The keys are strictly ascending in byte order (`BTreeMap` iteration
order). -/
def sortedKeysB : JObj → Bool
  | [] => true
  | [_] => true
  | (k1, _) :: (k2, v2) :: rest => strLtB k1 k2 && sortedKeysB ((k2, v2) :: rest)

def isStrB : JValue → Bool
  | .str _ => true
  | _ => false

/-- No hard-removed key and no validation keyword is present. -/
def stableKeysAbsentB (m : JObj) : Bool :=
  (hardRemoveFields ++ validationFields.map (·.1)).all (fun k => (findKey k m).isNone)

/-- The `type` field is a lowercase non-`"null"` string (or absent, or a
non-string non-array), and an empty object schema is not typed `"object"`. -/
def stableTypeB (m : JObj) : Bool :=
  match findKey "type" m with
  | some (.str s) =>
    decide (lowerStr s = s) && !(decide (s = "null")) &&
      (if s = "object" then hasNonEmptyProps m else true)
  | some (.arr _) => false
  | _ => true

/-- Every `enum` member is already a string. -/
def stableEnumB (m : JObj) : Bool :=
  match findKey "enum" m with
  | some (.arr items) => items.all isStrB
  | _ => true

/-- The node-local normal form: sorted keys, no removable keys, normalized
`type`, consistent `required`, string `enum`. -/
def stableNode (m : JObj) : Bool :=
  sortedKeysB m && stableKeysAbsentB m && stableTypeB m && reqConsistentB m &&
    stableEnumB m

/-- The whole-tree normal form along the pass's own traversal. -/
def stableB : Nat → JValue → Bool
  | 0, _ => true
  | f + 1, v =>
    match v with
    | .obj m =>
      stableNode m &&
      (match findKey "properties" m with
       | some (.obj props) => props.all (fun kv => stableB f kv.2)
       | _ => m.all (fun kv => stableB f kv.2))
    | .arr xs => xs.all (fun x => stableB f x)
    | _ => true


/-- The root-level normal form: no `$defs`/`definitions` table to harvest,
so the flatten pre-pass does not run. -/
def stableRootB : JValue → Bool
  | .obj m => (findKey "$defs" m).isNone && (findKey "definitions" m).isNone
  | _ => true

def c4in : JValue :=
  .obj [("properties", .obj [("a", .obj [("type", .str "string")])]),
        ("required", .arr [.str "a"]),
        ("type", .str "object")]


/-! ## Theorems -/
theorem charListLt_irrefl (l : List Char) : charListLt l l = false := by
  induction l with
  | nil => rfl
  | cons c cs ih => simp [charListLt, ih]

theorem strLtB_irrefl (a : String) : strLtB a a = false := charListLt_irrefl _

theorem findKey_insertKey_self (k : String) (v : JValue) (m : JObj) :
    findKey k (insertKey k v m) = some v := by
  induction m with
  | nil => simp [insertKey, findKey]
  | cons hd tl ih =>
    obtain ⟨k', v'⟩ := hd
    cases h1 : strLtB k k'
    · by_cases h2 : k = k'
      · simp [insertKey, findKey, h1, h2, strLtB_irrefl]
      · simp [insertKey, findKey, h1, h2, Ne.symm h2, ih]
    · simp [insertKey, findKey, h1]

theorem findKey_insertKey_ne (k j : String) (v : JValue) (m : JObj) (hne : j ≠ k) :
    findKey j (insertKey k v m) = findKey j m := by
  induction m with
  | nil => simp [insertKey, findKey, Ne.symm hne]
  | cons hd tl ih =>
    obtain ⟨k', v'⟩ := hd
    cases h1 : strLtB k k'
    · by_cases h2 : k = k'
      · subst h2
        simp [insertKey, findKey, h1, Ne.symm hne, strLtB_irrefl]
      · simp only [insertKey, h1, Bool.false_eq_true, if_false, if_neg h2]
        by_cases h3 : k' = j
        · simp [findKey, h3]
        · simp [findKey, h3, ih]
    · simp [insertKey, findKey, h1, Ne.symm hne]

theorem findKey_eraseKey_self (k : String) (m : JObj) :
    findKey k (eraseKey k m) = none := by
  induction m with
  | nil => rfl
  | cons hd tl ih =>
    obtain ⟨k', v'⟩ := hd
    by_cases h : k' = k
    · simp [eraseKey, h, ih]
    · simp [eraseKey, h, findKey, ih]

theorem findKey_eraseKey_ne (k j : String) (m : JObj) (hne : j ≠ k) :
    findKey j (eraseKey k m) = findKey j m := by
  induction m with
  | nil => rfl
  | cons hd tl ih =>
    obtain ⟨k', v'⟩ := hd
    by_cases h : k' = k
    · subst h
      simp [eraseKey, findKey, Ne.symm hne, ih]
    · simp only [eraseKey, if_neg h]
      by_cases h2 : k' = j
      · subst h2
        simp [findKey]
      · simp [findKey, h2, ih]

theorem mem_insertKey {kv : String × JValue} {k : String} {v : JValue} {m : JObj}
    (h : kv ∈ insertKey k v m) : kv = (k, v) ∨ kv ∈ m := by
  induction m with
  | nil => simp [insertKey] at h; simp [h]
  | cons hd tl ih =>
    obtain ⟨k', v'⟩ := hd
    cases h1 : strLtB k k' with
    | true =>
      simp only [insertKey, h1, if_true] at h
      rcases List.mem_cons.mp h with h' | h'
      · exact Or.inl h'
      · exact Or.inr h'
    | false =>
      by_cases h2 : k = k'
      · simp only [insertKey, h1, Bool.false_eq_true, if_false, if_pos h2] at h
        rcases List.mem_cons.mp h with h' | h'
        · exact Or.inl h'
        · exact Or.inr (List.mem_cons.mpr (Or.inr h'))
      · simp only [insertKey, h1, Bool.false_eq_true, if_false, if_neg h2] at h
        rcases List.mem_cons.mp h with h' | h'
        · exact Or.inr (List.mem_cons.mpr (Or.inl h'))
        · rcases ih h' with h'' | h''
          · exact Or.inl h''
          · exact Or.inr (List.mem_cons.mpr (Or.inr h''))

theorem mem_eraseKey {kv : String × JValue} {k : String} {m : JObj}
    (h : kv ∈ eraseKey k m) : kv ∈ m ∧ kv.1 ≠ k := by
  induction m with
  | nil => simp [eraseKey] at h
  | cons hd tl ih =>
    obtain ⟨k', v'⟩ := hd
    by_cases hk : k' = k
    · simp only [eraseKey, if_pos hk] at h
      rcases ih h with ⟨h1, h2⟩
      exact ⟨List.mem_cons.mpr (Or.inr h1), h2⟩
    · simp only [eraseKey, if_neg hk] at h
      rcases List.mem_cons.mp h with h' | h'
      · subst h'
        exact ⟨List.mem_cons.mpr (Or.inl rfl), hk⟩
      · rcases ih h' with ⟨h1, h2⟩
        exact ⟨List.mem_cons.mpr (Or.inr h1), h2⟩

/-- `find` over a value-mapped object. -/
theorem findKey_map_values (k : String) (f : JValue → JValue) (m : JObj) :
    findKey k (m.map (fun kv => (kv.1, f kv.2))) = (findKey k m).map f := by
  induction m with
  | nil => rfl
  | cons hd tl ih =>
    obtain ⟨k', v'⟩ := hd
    by_cases h : k' = k
    · simp [findKey, h]
    · simp [findKey, h, ih]

/-! ## A computable size measure on JSON trees, used to pick sufficient
fuel for the recursive passes. -/


/-- C1 as stated is false: cleaning `{"$ref": "#/x"}` leaves the `$ref`
key on the root, a reachable object node. -/
theorem C1_counterexample :
    allNodesB noForbiddenKeysB (jsize (cleanRoot refOnlyInput) + 1)
      (cleanRoot refOnlyInput) = false := by
  rfl

/-- C2 as stated is false: cleaning `itemsSiblingInput` leaves the
`items` object node (reachable from the root) with `required == ["x"]`
and no `properties`. -/
theorem C2_counterexample :
    allNodesB reqSubsetPropsB (jsize (cleanRoot itemsSiblingInput) + 1)
      (cleanRoot itemsSiblingInput) = false := by
  rfl

/-- C3 as stated is false: cleaning `{"type": "Object"}` produces
`{"type": "object"}` with no `properties` key at all. -/
theorem C3_counterexample :
    allNodesB typeObjectHasPropsB (jsize (cleanRoot mixedCaseObjectInput) + 1)
      (cleanRoot mixedCaseObjectInput) = false := by
  rfl

/-- C4 as stated is false: `{"type": ["NULL"]}` cleans to
`{"type": "null"}`, and a second cleaning adds a `(nullable)`
description, so `clean (clean v) ≠ clean v`. -/
theorem C4_counterexample :
    cleanRoot (cleanRoot nullCaseArrayInput) ≠ cleanRoot nullCaseArrayInput := by
  intro h
  exact Option.noConfusion (congrArg (fun t => getKey t "description") h)

/-- C5's scenario as stated is false: the output of cleaning
`{"type": ["string","null"]}` also carries `description: "(nullable)"`,
so it is not exactly `{"type": "string"}`. -/
theorem C5_counterexample :
    cleanRoot stringNullArrayInput ≠ JValue.obj [("type", .str "string")] := by
  intro h
  exact Option.noConfusion (congrArg (fun t => getKey t "description") h)

/-- C8 as stated is false: with an empty definitions table the flatten
pass never runs, so the unresolvable `$ref` key is NOT removed. -/
theorem C8_counterexample :
    getKey (cleanRoot refOnlyInput) "$ref" = some (.str "#/x") := by
  rfl

/-- C10 as stated is false: on `{"description": 5, "minimum": 3}` the
scalar `minimum` is removed but the hint is dropped because the existing
description is not a string — the constraint's information is lost. -/
theorem C10_counterexample :
    cleanRoot numericDescInput = JValue.obj [("description", .num 5)] := by
  rfl

/-! ## Plumbing lemmas: how each pass treats keys it does not own -/
theorem cleanFuel_null (f : Nat) : cleanFuel f .null = (.null, false) := by
  cases f <;> rfl

theorem cleanFuel_bool (f : Nat) (b : Bool) : cleanFuel f (.bool b) = (.bool b, false) := by
  cases f <;> rfl

theorem cleanFuel_num (f : Nat) (n : Int) : cleanFuel f (.num n) = (.num n, false) := by
  cases f <;> rfl

theorem cleanFuel_str (f : Nat) (s : String) : cleanFuel f (.str s) = (.str s, false) := by
  cases f <;> rfl

theorem findKey_orInsertAll (k : String) (src dst : JObj) :
    findKey k (orInsertAll dst src) = orElseO (findKey k dst) (findKey k src) := by
  induction src generalizing dst with
  | nil =>
    simp only [orInsertAll, List.foldl, findKey]
    cases findKey k dst <;> rfl
  | cons hd tl ih =>
    simp only [orInsertAll, List.foldl] at ih ⊢
    rw [ih]
    by_cases hk : hd.1 = k
    · subst hk
      cases hd2 : findKey hd.1 dst with
      | some w => simp [hd2, findKey, orElseO]
      | none =>
        simp [hd2, findKey, orElseO, findKey_insertKey_self]
    · cases hd2 : findKey hd.1 dst with
      | some w => simp [hd2, findKey, hk, orElseO]
      | none =>
        simp [hd2, findKey, hk, orElseO,
          findKey_insertKey_ne hd.1 k hd.2 dst (fun he => hk he.symm)]

theorem findKey_orInsertAll_of_some {k : String} {v : JValue} (src dst : JObj)
    (h : findKey k dst = some v) : findKey k (orInsertAll dst src) = some v := by
  rw [findKey_orInsertAll, h]
  rfl

theorem findKey_applyMergedProps_ne {k : String} (mp m : JObj)
    (hk : k ≠ "properties") : findKey k (applyMergedProps mp m) = findKey k m := by
  unfold applyMergedProps
  split
  · rfl
  · split
    · rw [findKey_insertKey_ne _ _ _ _ hk]
    · rfl
    · rw [findKey_insertKey_ne _ _ _ _ hk]

theorem findKey_applyMergedReq_ne {k : String} (mr : List String) (m : JObj)
    (hk : k ≠ "required") : findKey k (applyMergedReq mr m) = findKey k m := by
  unfold applyMergedReq
  split
  · rfl
  · split
    · rw [findKey_insertKey_ne _ _ _ _ hk]
    · rfl
    · rw [findKey_insertKey_ne _ _ _ _ hk]

/-- `merge_all_of` never changes an existing key other than
`allOf`/`properties`/`required`. -/
theorem mergeAllOf_findKey_of_some {k : String} {v : JValue} {m : JObj}
    (hk1 : k ≠ "allOf") (hk2 : k ≠ "properties") (hk3 : k ≠ "required")
    (h : findKey k m = some v) : findKey k (mergeAllOf m) = some v := by
  unfold mergeAllOf
  split
  · rw [findKey_applyMergedReq_ne _ _ hk3, findKey_applyMergedProps_ne _ _ hk2,
      findKey_orInsertAll, findKey_eraseKey_ne _ _ _ hk1, h]
    rfl
  · exact h

/-- The migration scan only touches the listed field names. -/
theorem findKey_migrateScan_ne {k : String} (fields : List (String × String))
    (acc : JObj × List String) (hk : ∀ fl ∈ fields, k ≠ fl.1) :
    findKey k (migrateScan fields acc).1 = findKey k acc.1 := by
  induction fields generalizing acc with
  | nil => rfl
  | cons fl tl ih =>
    have hkfl : k ≠ fl.1 := hk fl (List.mem_cons.mpr (Or.inl rfl))
    have hktl : ∀ f ∈ tl, k ≠ f.1 := fun f hf => hk f (List.mem_cons.mpr (Or.inr hf))
    simp only [migrateScan, List.foldl] at ih ⊢
    rw [ih _ hktl]
    unfold migrateStep
    cases hffl : findKey fl.1 acc.1 with
    | none => rfl
    | some val =>
      cases hsc : scalarHint fl.2 val with
      | some hint =>
        simp [hsc, findKey_eraseKey_ne _ _ _ hkfl]
      | none =>
        simp [hsc, findKey_insertKey_ne _ _ _ _ hkfl, findKey_eraseKey_ne _ _ _ hkfl]

theorem findKey_applyHints_ne {k : String} (hints : List String) (m : JObj)
    (hk : k ≠ "description") : findKey k (applyHints hints m) = findKey k m := by
  unfold applyHints
  split
  · rfl
  · split
    · rw [findKey_insertKey_ne _ _ _ _ hk]
    · rfl
    · rw [findKey_insertKey_ne _ _ _ _ hk]

theorem findKey_migrate_ne {k : String} (m : JObj)
    (hk : ∀ fl ∈ validationFields, k ≠ fl.1) (hd : k ≠ "description") :
    findKey k (migrateConstraints m) = findKey k m := by
  unfold migrateConstraints
  rw [findKey_applyHints_ne _ _ hd, findKey_migrateScan_ne _ _ hk]

theorem resolveUnion_of_type_some {m : JObj} {v : JValue}
    (h : findKey "type" m = some v) : resolveUnion m = m := by
  unfold resolveUnion
  rw [h]
  rfl

theorem findKey_unionAssign_ne {k : String} (key : String) (m : JObj)
    (hk : k ≠ "type") : findKey k (unionAssign key m) = findKey k m := by
  unfold unionAssign
  split
  · split
    · rw [findKey_insertKey_ne _ _ _ _ hk]
    · rfl
  · rfl

theorem findKey_resolveUnion_ne {k : String} (m : JObj) (hk : k ≠ "type") :
    findKey k (resolveUnion m) = findKey k m := by
  unfold resolveUnion
  cases ht : (findKey "type" m).isNone with
  | false => simp [ht]
  | true =>
    simp only [ht, if_true]
    cases ht2 : (findKey "type" (unionAssign "anyOf" m)).isNone with
    | false => simp [ht2, findKey_unionAssign_ne _ _ hk]
    | true =>
      simp only [ht2, if_true]
      rw [findKey_unionAssign_ne _ _ hk, findKey_unionAssign_ne _ _ hk]

theorem findKey_none_eraseKey (k j : String) (m : JObj) (h : findKey k m = none) :
    findKey k (eraseKey j m) = none := by
  by_cases hkj : k = j
  · subst hkj; exact findKey_eraseKey_self _ _
  · rw [findKey_eraseKey_ne _ _ _ hkj]; exact h

theorem findKey_eraseFold_ne {k : String} (fs : List String) (m : JObj)
    (hk : ¬ k ∈ fs) : findKey k (fs.foldl (fun a f => eraseKey f a) m) = findKey k m := by
  induction fs generalizing m with
  | nil => rfl
  | cons f tl ih =>
    have hkf : k ≠ f := fun he => hk (he ▸ List.mem_cons.mpr (Or.inl rfl))
    have hktl : ¬ k ∈ tl := fun hm => hk (List.mem_cons.mpr (Or.inr hm))
    simp only [List.foldl]
    rw [ih _ hktl, findKey_eraseKey_ne _ _ _ hkf]

theorem findKey_eraseFold_none {k : String} (fs : List String) (m : JObj)
    (h : findKey k m = none) :
    findKey k (fs.foldl (fun a f => eraseKey f a) m) = none := by
  induction fs generalizing m with
  | nil => exact h
  | cons f tl ih =>
    simp only [List.foldl]
    exact ih _ (findKey_none_eraseKey _ _ _ h)

theorem findKey_eraseFold_mem {k : String} (fs : List String) (m : JObj)
    (hk : k ∈ fs) : findKey k (fs.foldl (fun a f => eraseKey f a) m) = none := by
  induction fs generalizing m with
  | nil => cases hk
  | cons f tl ih =>
    simp only [List.foldl]
    by_cases hkt : k ∈ tl
    · exact ih _ hkt
    · have hkf : k = f := by
        rcases List.mem_cons.mp hk with h | h
        · exact h
        · exact absurd h hkt
      subst hkf
      exact findKey_eraseFold_none _ _ (findKey_eraseKey_self _ _)

theorem findKey_hardRemove_ne {k : String} (m : JObj) (hk : ¬ k ∈ hardRemoveFields) :
    findKey k (hardRemoveStep m) = findKey k m :=
  findKey_eraseFold_ne _ _ hk

theorem findKey_hardRemove_mem {k : String} (m : JObj) (hk : k ∈ hardRemoveFields) :
    findKey k (hardRemoveStep m) = none :=
  findKey_eraseFold_mem _ _ hk

theorem findKey_placeholder_ne {k : String} (m : JObj)
    (h1 : k ≠ "properties") (h2 : k ≠ "required") :
    findKey k (placeholderStep m) = findKey k m := by
  unfold placeholderStep
  split
  · split
    · split
      · rfl
      · rw [findKey_insertKey_ne _ _ _ _ h2, findKey_insertKey_ne _ _ _ _ h1]
    · rfl
  · rfl

theorem findKey_requiredFilter_ne {k : String} (m : JObj) (hk : k ≠ "required") :
    findKey k (requiredFilterStep m) = findKey k m := by
  unfold requiredFilterStep
  split
  · rw [findKey_insertKey_ne _ _ _ _ hk]
  · rfl

theorem findKey_typeStep_ne {k : String} (m : JObj) (hk : k ≠ "type") :
    findKey k (typeStep m).1 = findKey k m := by
  unfold typeStep
  split
  · rw [findKey_insertKey_ne _ _ _ _ hk]
  · rw [findKey_insertKey_ne _ _ _ _ hk]
  · rfl

theorem findKey_nullableDesc_ne {k : String} (b : Bool) (m : JObj)
    (hk : k ≠ "description") : findKey k (nullableDescStep b m) = findKey k m := by
  unfold nullableDescStep
  split
  · split
    · split
      · rfl
      · split
        · rw [findKey_insertKey_ne _ _ _ _ hk]
        · rw [findKey_insertKey_ne _ _ _ _ hk]
    · rfl
    · rw [findKey_insertKey_ne _ _ _ _ hk]
  · rfl

theorem findKey_enumStep_ne {k : String} (f : Nat) (m : JObj) (hk : k ≠ "enum") :
    findKey k (enumStep f m) = findKey k m := by
  unfold enumStep
  split
  · rw [findKey_insertKey_ne _ _ _ _ hk]
  · rfl

theorem findKey_retractRequired_ne {k : String} (nk : List String) (m : JObj)
    (hk : k ≠ "required") : findKey k (retractRequired nk m) = findKey k m := by
  unfold retractRequired
  split
  · rfl
  · split
    · split
      · rw [findKey_eraseKey_ne _ _ _ hk]
      · rw [findKey_insertKey_ne _ _ _ _ hk]
    · rfl

/-! ## Named stages of the object branch of the recursive pass -/
theorem cleanFuel_obj_eq (fuel : Nat) (m : JObj) :
    cleanFuel (fuel + 1) (.obj m) =
      (JValue.obj (finishNode fuel (childStage fuel (mergeAllOf m))).1,
       (finishNode fuel (childStage fuel (mergeAllOf m))).2) := by
  simp only [cleanFuel, childStage, finishNode, nullableKeysOf]

theorem cleanFuel_arr_eq (fuel : Nat) (xs : List JValue) :
    cleanFuel (fuel + 1) (.arr xs) =
      (.arr (xs.map (fun x => (cleanFuel fuel x).1)), false) := rfl

/-! ## The type-object / placeholder guarantee (claim C3) -/

/-- The child-recursion stage preserves string-valued keys other than
`properties`/`required`. -/
theorem childStage_findKey_str {k s : String} (fuel : Nat) (m1 : JObj)
    (h1 : k ≠ "properties") (h2 : k ≠ "required")
    (h : findKey k m1 = some (.str s)) :
    findKey k (childStage fuel m1) = some (.str s) := by
  unfold childStage
  split
  · rw [findKey_retractRequired_ne _ _ h2, findKey_insertKey_ne _ _ _ _ h1]
    exact h
  · have := findKey_map_values k (fun v => (cleanFuel fuel v).1) m1
    rw [this, h]
    simp [cleanFuel_str]

/-- If the node reaches the placeholder with `type` equal to the exact
string `"object"`, the output has a non-empty `properties` object. -/
theorem placeholderStep_props {m : JObj}
    (h : findKey "type" m = some (.str "object")) :
    ∃ p, findKey "properties" (placeholderStep m) = some (.obj p) ∧ p ≠ [] := by
  unfold placeholderStep
  rw [h]
  simp only [if_pos rfl]
  cases hp : hasNonEmptyProps m with
  | true =>
    simp only [if_pos rfl]
    unfold hasNonEmptyProps at hp
    cases hfp : findKey "properties" m with
    | none => rw [hfp] at hp; cases hp
    | some w =>
      cases w with
      | obj p =>
        refine ⟨p, hfp, ?_⟩
        rw [hfp] at hp
        simp only [Bool.not_eq_true'] at hp
        intro hnil
        subst hnil
        simp at hp
      | null => rw [hfp] at hp; cases hp
      | bool b => rw [hfp] at hp; cases hp
      | num n => rw [hfp] at hp; cases hp
      | str s => rw [hfp] at hp; cases hp
      | arr l => rw [hfp] at hp; cases hp
  | false =>
    simp only [hp, Bool.false_eq_true, if_false, if_true]
    refine ⟨[("reason", .obj reasonProp)], ?_, by simp⟩
    rw [findKey_insertKey_ne "required" "properties" _ _ (by decide),
      findKey_insertKey_self]

/-- Chaining the node-local passes: with `type` the exact string
`"object"` going in, the finished node has non-empty `properties`. -/
theorem finishNode_typeObject (fuel : Nat) (m2 : JObj)
    (h : findKey "type" m2 = some (.str "object")) :
    ∃ p, findKey "properties" (finishNode fuel m2).1 = some (.obj p) ∧ p ≠ [] := by
  have h3 : findKey "type" (migrateConstraints m2) = some (.str "object") := by
    rw [findKey_migrate_ne _ (by decide) (by decide)]
    exact h
  have hres : resolveUnion (migrateConstraints m2) = migrateConstraints m2 :=
    resolveUnion_of_type_some h3
  have h5 : findKey "type" (hardRemoveStep (migrateConstraints m2)) =
      some (.str "object") := by
    rw [findKey_hardRemove_ne _ (by decide)]
    exact h3
  obtain ⟨p, hp, hpne⟩ := placeholderStep_props h5
  refine ⟨p, ?_, hpne⟩
  unfold finishNode
  rw [hres]
  rw [findKey_enumStep_ne _ _ (by decide), findKey_nullableDesc_ne _ _ (by decide),
    findKey_typeStep_ne _ (by decide), findKey_requiredFilter_ne _ (by decide)]
  exact hp

theorem cleanFuel_typeObject (fuel : Nat) (m : JObj)
    (h : findKey "type" m = some (.str "object")) :
    ∃ p, getKey (cleanFuel (fuel + 1) (.obj m)).1 "properties" = some (.obj p) ∧ p ≠ [] := by
  have h1 : findKey "type" (mergeAllOf m) = some (.str "object") :=
    mergeAllOf_findKey_of_some (by decide) (by decide) (by decide) h
  have h2 : findKey "type" (childStage fuel (mergeAllOf m)) = some (.str "object") :=
    childStage_findKey_str fuel _ (by decide) (by decide) h1
  have h4 := finishNode_typeObject fuel _ h2
  rw [cleanFuel_obj_eq]
  exact h4

/-- Reference flattening preserves string-valued keys other than
`$ref` (substitution only fills in missing keys, children rewriting
leaves scalars alone). -/
theorem flattenFuel_findKey_str {k s : String} (fuel : Nat) (defs m : JObj)
    (hk : k ≠ "$ref") (h : findKey k m = some (.str s)) :
    findKey k (flattenFuel fuel defs m) = some (.str s) := by
  induction fuel generalizing m with
  | zero => exact h
  | succ n ih =>
    simp only [flattenFuel]
    rw [findKey_map_values k (flattenChildWith (flattenFuel n defs)) _]
    have hself : findKey k (flattenSelf (flattenFuel n defs) defs m) = some (.str s) := by
      unfold flattenSelf
      split
      · split
        · apply ih
          exact findKey_orInsertAll_of_some _ _
            (by rw [findKey_eraseKey_ne _ _ _ hk]; exact h)
        · rw [findKey_eraseKey_ne _ _ _ hk]; exact h
      · rw [findKey_eraseKey_ne _ _ _ hk]; exact h
      · exact h
    rw [hself]
    rfl

/-- The root pre-pass preserves string-valued keys other than
`$defs`/`definitions`/`$ref`. -/
theorem rootFlattened_findKey_str {k s : String} (m : JObj)
    (h1 : k ≠ "$defs") (h2 : k ≠ "definitions") (h3 : k ≠ "$ref")
    (h : findKey k m = some (.str s)) :
    findKey k (rootFlattened m) = some (.str s) := by
  have hstr : findKey k (rootStripped m) = some (.str s) := by
    unfold rootStripped
    rw [findKey_eraseKey_ne _ _ _ h2, findKey_eraseKey_ne _ _ _ h1]
    exact h
  unfold rootFlattened
  split
  · exact hstr
  · exact flattenFuel_findKey_str _ _ _ h3 hstr

/-- C3, amended: the whole-tree invariant fails (see the counterexample:
a node whose `type` becomes `"object"` only via later lowercasing gets
no placeholder), but on every object node whose `type` is the exact
string `"object"` the cleaned output has a non-empty `properties`
object; and the spec's scenario `{"type": "object"}` gains exactly the
synthetic `reason` property and `required == ["reason"]`. -/
theorem C3_theorem :
    (∀ m : JObj, findKey "type" m = some (.str "object") →
      ∃ p, getKey (cleanRoot (.obj m)) "properties" = some (.obj p) ∧ p ≠ []) ∧
    cleanRoot (.obj [("type", .str "object")]) =
      .obj [("properties", .obj [("reason", .obj reasonProp)]),
            ("required", .arr [.str "reason"]), ("type", .str "object")] := by
  constructor
  · intro m h
    have hf : findKey "type" (rootFlattened m) = some (.str "object") :=
      rootFlattened_findKey_str m (by decide) (by decide) (by decide) h
    exact cleanFuel_typeObject _ _ hf
  · rfl

/-- Witness for C3: the concrete scenario instantiates the amended
theorem's hypotheses. -/
theorem C3_witness :
    findKey "type" [("type", JValue.str "object")] = some (.str "object") ∧
    ∃ p, getKey (cleanRoot (.obj [("type", .str "object")])) "properties" =
      some (.obj p) ∧ p ≠ [] :=
  ⟨rfl, C3_theorem.1 [("type", JValue.str "object")] rfl⟩

/-! ## Substring machinery for the constraint-migration theorem (C10) -/

theorem strData_append (a b : String) : (a ++ b).data = a.data ++ b.data := by
  obtain ⟨as⟩ := a
  obtain ⟨bs⟩ := b
  rfl

theorem startsWithChars_self_append (p rest : List Char) :
    startsWithChars (p ++ rest) p = true := by
  induction p with
  | nil => simp [startsWithChars]
  | cons c cs ih => simp [startsWithChars, ih]

theorem hasSubSeq_of_startsWith {l p : List Char} (h : startsWithChars l p = true) :
    hasSubSeq l p = true := by
  cases l with
  | nil =>
    cases p with
    | nil => rfl
    | cons d ds => cases h
  | cons c cs => simp [hasSubSeq, h]

theorem hasSubSeq_append_left {l p : List Char} (x : List Char)
    (h : hasSubSeq l p = true) : hasSubSeq (x ++ l) p = true := by
  induction x with
  | nil => exact h
  | cons c cs ih => simp [hasSubSeq, ih]

/-- A pattern occurs in any list of the form `a ++ (p ++ b)`. -/
theorem hasSubSeq_occurs (a b p : List Char) :
    hasSubSeq (a ++ (p ++ b)) p = true :=
  hasSubSeq_append_left a
    (hasSubSeq_of_startsWith (startsWithChars_self_append p b))

/-- Every hint occurs contiguously in the comma join. -/
theorem joinComma_mem_split {h : String} {hints : List String} (hm : h ∈ hints) :
    ∃ a b : List Char, (joinComma hints).data = a ++ (h.data ++ b) := by
  induction hints with
  | nil => cases hm
  | cons x xs ih =>
    cases xs with
    | nil =>
      rcases List.mem_cons.mp hm with he | he
      · subst he
        exact ⟨[], [], by simp [joinComma]⟩
      · cases he
    | cons y ys =>
      rcases List.mem_cons.mp hm with he | he
      · subst he
        refine ⟨[], (", " ++ joinComma (y :: ys)).data, ?_⟩
        show (h ++ ", " ++ joinComma (y :: ys)).data = _
        rw [strData_append, strData_append, strData_append]
        simp
      · obtain ⟨a, b, hab⟩ := ih he
        refine ⟨(x ++ ", ").data ++ a, b, ?_⟩
        show (x ++ ", " ++ joinComma (y :: ys)).data = _
        rw [strData_append, hab]
        simp

/-- Every hint occurs contiguously in the constraint suffix. -/
theorem constraintSuffix_contains {h : String} {hints : List String}
    (hm : h ∈ hints) :
    ∃ a b : List Char, (constraintSuffix hints).data = a ++ (h.data ++ b) := by
  obtain ⟨a, b, hab⟩ := joinComma_mem_split hm
  refine ⟨" [Constraint: ".data ++ a, b ++ "]".data, ?_⟩
  unfold constraintSuffix
  rw [strData_append, strData_append, hab]
  simp

/-! ## The migration scan characterized (claim C10) -/

theorem migrateScan_cons (g : String × String) (tl : List (String × String))
    (acc : JObj × List String) :
    migrateScan (g :: tl) acc = migrateScan tl (migrateStep acc g) := by
  simp only [migrateScan, List.foldl_cons]

theorem migrateScan_cs_mono (fields : List (String × String))
    (acc : JObj × List String) :
    ∃ suf, (migrateScan fields acc).2 = acc.2 ++ suf := by
  induction fields generalizing acc with
  | nil => exact ⟨[], by simp [migrateScan]⟩
  | cons g tl ih =>
    rw [migrateScan_cons]
    cases hg : findKey g.1 acc.1 with
    | none =>
      have hstep : migrateStep acc g = acc := by
        simp [migrateStep, hg]
      rw [hstep]
      exact ih acc
    | some val =>
      cases hs : scalarHint g.2 val with
      | some hint =>
        have hstep : migrateStep acc g = (eraseKey g.1 acc.1, acc.2 ++ [hint]) := by
          simp [migrateStep, hg, hs]
        rw [hstep]
        obtain ⟨suf, hsuf⟩ := ih (eraseKey g.1 acc.1, acc.2 ++ [hint])
        exact ⟨[hint] ++ suf, by rw [hsuf]; simp⟩
      | none =>
        have hstep : migrateStep acc g =
            (insertKey g.1 val (eraseKey g.1 acc.1), acc.2) := by
          simp [migrateStep, hg, hs]
        rw [hstep]
        exact ih _

theorem migrateScan_field (fields : List (String × String))
    (hpw : List.Pairwise (fun a b => a.1 ≠ b.1) fields) :
    ∀ (acc : JObj × List String) (fl : String × String) (v : JValue),
      fl ∈ fields → findKey fl.1 acc.1 = some v →
      (∀ h, scalarHint fl.2 v = some h →
        findKey fl.1 (migrateScan fields acc).1 = none ∧
        h ∈ (migrateScan fields acc).2) ∧
      (scalarHint fl.2 v = none →
        findKey fl.1 (migrateScan fields acc).1 = some v) := by
  induction fields with
  | nil => intro acc fl v hmem; cases hmem
  | cons g tl ih =>
    intro acc fl v hmem hfind
    have hg : ∀ b ∈ tl, g.1 ≠ b.1 := (List.pairwise_cons.mp hpw).1
    have hptl : List.Pairwise (fun a b => a.1 ≠ b.1) tl := (List.pairwise_cons.mp hpw).2
    rw [migrateScan_cons]
    rcases List.mem_cons.mp hmem with he | he
    · subst he
      have hscan_ne : ∀ (acc' : JObj × List String),
          findKey fl.1 (migrateScan tl acc').1 = findKey fl.1 acc'.1 :=
        fun acc' => findKey_migrateScan_ne tl acc' (fun b hb => hg b hb)
      constructor
      · intro h hs
        have hstep : migrateStep acc fl = (eraseKey fl.1 acc.1, acc.2 ++ [h]) := by
          simp [migrateStep, hfind, hs]
        rw [hstep]
        constructor
        · rw [hscan_ne]
          exact findKey_eraseKey_self _ _
        · obtain ⟨suf, hsuf⟩ := migrateScan_cs_mono tl (eraseKey fl.1 acc.1, acc.2 ++ [h])
          rw [hsuf]
          simp
      · intro hs
        have hstep : migrateStep acc fl =
            (insertKey fl.1 v (eraseKey fl.1 acc.1), acc.2) := by
          simp [migrateStep, hfind, hs]
        rw [hstep, hscan_ne]
        exact findKey_insertKey_self _ _ _
    · have hne : g.1 ≠ fl.1 := hg fl he
      have hfind' : findKey fl.1 (migrateStep acc g).1 = some v := by
        unfold migrateStep
        cases hgf : findKey g.1 acc.1 with
        | none => exact hfind
        | some val =>
          cases hs : scalarHint g.2 val with
          | some hint =>
            simp [hs, findKey_eraseKey_ne _ _ _ (fun hx => hne hx.symm)]
            exact hfind
          | none =>
            simp [hs, findKey_insertKey_ne _ _ _ _ (fun hx => hne hx.symm),
              findKey_eraseKey_ne _ _ _ (fun hx => hne hx.symm)]
            exact hfind
      exact ih hptl (migrateStep acc g) fl v he hfind'

/-- C10, amended: on every object node, a validation keyword present
with a scalar value is removed by the migration pass and its
`label: value` hint appears verbatim inside the resulting description,
provided the node's `description` is absent or a string (with a
non-string `description` the keyword is still removed but the hint is
discarded — see the counterexample); a keyword with a non-scalar value
is left in place untouched. -/
theorem C10_theorem :
    ∀ (m : JObj) (fl : String × String) (v : JValue),
      fl ∈ validationFields → findKey fl.1 m = some v →
      (∀ h, scalarHint fl.2 v = some h →
        (findKey "description" m = none ∨
          ∃ d, findKey "description" m = some (.str d)) →
        findKey fl.1 (migrateConstraints m) = none ∧
        ∃ d', findKey "description" (migrateConstraints m) = some (.str d') ∧
          hasSubSeq d'.data h.data = true) ∧
      (scalarHint fl.2 v = none →
        findKey fl.1 (migrateConstraints m) = some v) := by
  intro m fl v hmem hfind
  have hpw : List.Pairwise (fun a b => a.1 ≠ b.1) validationFields := by decide
  have hmain := migrateScan_field validationFields hpw (m, []) fl v hmem hfind
  have hfl_ne_desc : fl.1 ≠ "description" := by
    have hall : ∀ x ∈ validationFields, x.1 ≠ "description" := by decide
    exact hall fl hmem
  have hdesc_pres : findKey "description" (migrateScan validationFields (m, [])).1 =
      findKey "description" m := by
    apply findKey_migrateScan_ne
    intro fl' hfl'
    have hall : ∀ x ∈ validationFields, x.1 ≠ "description" := by decide
    exact fun he => hall fl' hfl' he.symm
  constructor
  · intro h hs hdesc
    obtain ⟨hnone, hmemh⟩ := hmain.1 h hs
    have hne : ¬ (migrateScan validationFields (m, [])).2.isEmpty := by
      intro he
      rw [List.isEmpty_iff] at he
      rw [he] at hmemh
      cases hmemh
    constructor
    · unfold migrateConstraints
      rw [findKey_applyHints_ne _ _ hfl_ne_desc]
      exact hnone
    · unfold migrateConstraints applyHints
      rw [if_neg (by simpa using hne)]
      obtain ⟨a, b, hab⟩ := constraintSuffix_contains hmemh
      rcases hdesc with hd | ⟨d, hd⟩
      · rw [hdesc_pres, hd]
        refine ⟨constraintSuffix (migrateScan validationFields (m, [])).2,
          findKey_insertKey_self _ _ _, ?_⟩
        rw [hab]
        exact hasSubSeq_occurs a b h.data
      · rw [hdesc_pres, hd]
        refine ⟨d ++ constraintSuffix (migrateScan validationFields (m, [])).2,
          findKey_insertKey_self _ _ _, ?_⟩
        rw [strData_append, hab, ← List.append_assoc]
        exact hasSubSeq_occurs (d.data ++ a) b h.data
  · intro hs
    unfold migrateConstraints
    rw [findKey_applyHints_ne _ _ hfl_ne_desc]
    exact hmain.2 hs

/-- Witness for C10: the scalar `minLength: 1` on a node without a
description is migrated into the hint `minLen: 1`. -/
theorem C10_witness :
    findKey "minLength" (migrateConstraints [("minLength", JValue.num 1)]) = none ∧
    ∃ d', findKey "description" (migrateConstraints [("minLength", JValue.num 1)]) =
      some (.str d') ∧ hasSubSeq d'.data ("minLen: 1").data = true :=
  (C10_theorem [("minLength", JValue.num 1)] ("minLength", "minLen") (JValue.num 1)
    (by decide) rfl).1 "minLen: 1" rfl (Or.inl rfl)

/-- C8, amended: when the flatten pass actually runs (the harvested
definitions table at the root is non-empty), a node whose `$ref`
fragment is absent from the table loses exactly the `$ref` key — nothing
is substituted, every other key is kept (its value child-flattened), and
no error is raised; when the table is empty the flatten pass is skipped
entirely and `$ref` keys survive (see the counterexample). -/
theorem C8_theorem :
    ∀ (fuel : Nat) (defs m : JObj) (refPath : String),
      findKey "$ref" m = some (.str refPath) →
      findKey (refFragment refPath) defs = none →
      flattenFuel (fuel + 1) defs m =
        (eraseKey "$ref" m).map
          (fun kv => (kv.1, flattenChildWith (flattenFuel fuel defs) kv.2)) ∧
      findKey "$ref" (flattenFuel (fuel + 1) defs m) = none := by
  intro fuel defs m refPath h1 h2
  have hself : flattenSelf (flattenFuel fuel defs) defs m = eraseKey "$ref" m := by
    simp [flattenSelf, h1, h2]
  constructor
  · simp only [flattenFuel, hself]
  · simp only [flattenFuel, hself]
    rw [findKey_map_values, findKey_eraseKey_self]
    rfl

/-- Witness for C8: a `$ref` to a missing definition next to a `title`
key is dropped while `title` is preserved. -/
theorem C8_witness :
    flattenFuel 1 [("Address", JValue.obj [("type", .str "object")])]
        [("$ref", .str "#/$defs/Missing"), ("title", .str "t")] =
      [("title", .str "t")] ∧
    findKey "$ref" (flattenFuel 1 [("Address", JValue.obj [("type", .str "object")])]
        [("$ref", .str "#/$defs/Missing"), ("title", .str "t")]) = none := by
  have h := C8_theorem 0 [("Address", JValue.obj [("type", .str "object")])]
    [("$ref", .str "#/$defs/Missing"), ("title", .str "t")] "#/$defs/Missing" rfl rfl
  refine ⟨?_, h.2⟩
  rw [h.1]
  rfl

/-! ## Property-name collision safety (claim C9) -/

theorem findKey_ne_nil {k : String} {v : JValue} {l : JObj}
    (h : findKey k l = some v) : l ≠ [] := by
  intro he
  subst he
  cases h

/-- `merge_all_of` keeps every existing property definition. -/
theorem mergeAllOf_props_preserved {m p : JObj}
    (hp : findKey "properties" m = some (.obj p)) :
    ∃ p', findKey "properties" (mergeAllOf m) = some (.obj p') ∧
      ∀ k v, findKey k p = some v → findKey k p' = some v := by
  unfold mergeAllOf
  split
  · rename_i allOfArr heq
    have hp2 : findKey "properties"
        (orInsertAll (eraseKey "allOf" m) (mergedOtherOf allOfArr)) = some (.obj p) := by
      apply findKey_orInsertAll_of_some
      rw [findKey_eraseKey_ne _ _ _ (by decide)]
      exact hp
    by_cases hmp : (mergedPropsOf allOfArr).isEmpty
    · refine ⟨p, ?_, fun k v hkv => hkv⟩
      rw [findKey_applyMergedReq_ne _ _ (by decide)]
      unfold applyMergedProps
      rw [if_pos hmp]
      exact hp2
    · refine ⟨orInsertAll p (mergedPropsOf allOfArr), ?_, ?_⟩
      · rw [findKey_applyMergedReq_ne _ _ (by decide)]
        unfold applyMergedProps
        rw [if_neg hmp]
        simp only [hp2]
        exact findKey_insertKey_self _ _ _
      · intro k v hkv
        exact findKey_orInsertAll_of_some _ _ hkv
  · exact ⟨p, hp, fun k v hkv => hkv⟩

/-- The cleaned form of an object node is an object node. -/
theorem cleanFuel_obj_shape (fuel : Nat) (q : JObj) :
    ∃ q', (cleanFuel fuel (.obj q)).1 = .obj q' := by
  cases fuel with
  | zero => exact ⟨q, rfl⟩
  | succ n =>
    rw [cleanFuel_obj_eq]
    exact ⟨_, rfl⟩

/-- Looking up a property key after the child recursion. -/
theorem findKey_childProps (fuel : Nat) (p' : JObj) (name : String) :
    findKey name ((p'.map (fun kv => (kv.1, cleanFuel fuel kv.2))).map
        (fun kv => (kv.1, kv.2.1))) =
      (findKey name p').map (fun v => (cleanFuel fuel v).1) := by
  rw [List.map_map]
  exact findKey_map_values name (fun v => (cleanFuel fuel v).1) p'

/-- The placeholder leaves a non-empty `properties` object alone. -/
theorem placeholderStep_props_nonempty {m : JObj} {pr : JObj}
    (h : findKey "properties" m = some (.obj pr)) (hne : pr ≠ []) :
    findKey "properties" (placeholderStep m) = some (.obj pr) := by
  unfold placeholderStep
  split
  · split
    · have : hasNonEmptyProps m = true := by
        unfold hasNonEmptyProps
        rw [h]
        simpa using hne
      rw [if_pos this]
      exact h
    · exact h
  · exact h

/-- `finishNode` keeps a non-empty `properties` object unchanged. -/
theorem finishNode_props_nonempty (fuel : Nat) {m2 pr : JObj}
    (h : findKey "properties" m2 = some (.obj pr)) (hne : pr ≠ []) :
    findKey "properties" (finishNode fuel m2).1 = some (.obj pr) := by
  have h3 : findKey "properties" (migrateConstraints m2) = some (.obj pr) := by
    rw [findKey_migrate_ne _ (by decide) (by decide)]
    exact h
  have h4 : findKey "properties" (resolveUnion (migrateConstraints m2)) =
      some (.obj pr) := by
    rw [findKey_resolveUnion_ne _ (by decide)]
    exact h3
  have h5 : findKey "properties" (hardRemoveStep (resolveUnion
      (migrateConstraints m2))) = some (.obj pr) := by
    rw [findKey_hardRemove_ne _ (by decide)]
    exact h4
  have h6 := placeholderStep_props_nonempty h5 hne
  unfold finishNode
  rw [findKey_enumStep_ne _ _ (by decide), findKey_nullableDesc_ne _ _ (by decide),
    findKey_typeStep_ne _ (by decide), findKey_requiredFilter_ne _ (by decide)]
  exact h6

/-- C9, confirmed: a property literally named like a validation keyword
(`pattern`, `format`, `minimum`, ...) whose value is an object schema is
preserved as that property in the output — it is recursively cleaned as
a schema, never consumed as a validation keyword of its parent. -/
theorem C9_theorem :
    ∀ (fuel : Nat) (m p q : JObj) (name : String),
      name ∈ validationFields.map (·.1) →
      findKey "properties" m = some (.obj p) →
      findKey name p = some (.obj q) →
      ∃ pr, getKey (cleanFuel (fuel + 1) (.obj m)).1 "properties" = some (.obj pr) ∧
        ∃ q', findKey name pr = some (.obj q') ∧
          JValue.obj q' = (cleanFuel fuel (.obj q)).1 := by
  intro fuel m p q name hname hp hq
  obtain ⟨p', hp', hpres⟩ := mergeAllOf_props_preserved hp
  have hq' : findKey name p' = some (.obj q) := hpres name _ hq
  -- the child stage takes the properties branch
  have hchild : childStage fuel (mergeAllOf m) =
      retractRequired (nullableKeysOf (p'.map (fun kv => (kv.1, cleanFuel fuel kv.2))))
        (insertKey "properties"
          (.obj ((p'.map (fun kv => (kv.1, cleanFuel fuel kv.2))).map
            (fun kv => (kv.1, kv.2.1)))) (mergeAllOf m)) := by
    unfold childStage
    rw [hp']
  have hlook : findKey name ((p'.map (fun kv => (kv.1, cleanFuel fuel kv.2))).map
      (fun kv => (kv.1, kv.2.1))) = some (cleanFuel fuel (.obj q)).1 := by
    rw [findKey_childProps, hq']
    rfl
  obtain ⟨q', hq'eq⟩ := cleanFuel_obj_shape fuel q
  have hprops2 : findKey "properties" (childStage fuel (mergeAllOf m)) =
      some (.obj ((p'.map (fun kv => (kv.1, cleanFuel fuel kv.2))).map
        (fun kv => (kv.1, kv.2.1)))) := by
    rw [hchild, findKey_retractRequired_ne _ _ (by decide)]
    exact findKey_insertKey_self _ _ _
  have hnonempty : ((p'.map (fun kv => (kv.1, cleanFuel fuel kv.2))).map
      (fun kv => (kv.1, kv.2.1))) ≠ [] := findKey_ne_nil hlook
  have hfin := finishNode_props_nonempty fuel hprops2 hnonempty
  rw [cleanFuel_obj_eq]
  refine ⟨_, hfin, q', ?_, hq'eq.symm⟩
  rw [hlook, hq'eq]

/-- Witness for C9: a property named `pattern` holding an object schema
survives cleaning (and is itself cleaned, here gaining the placeholder). -/
theorem C9_witness :
    ∃ pr, getKey (cleanFuel 2 (.obj [("properties",
        .obj [("pattern", .obj [("type", .str "object")])])])).1 "properties" =
      some (.obj pr) ∧
    ∃ q', findKey "pattern" pr = some (.obj q') ∧
      JValue.obj q' = (cleanFuel 1 (.obj [("type", .str "object")])).1 :=
  C9_theorem 1 [("properties", .obj [("pattern", .obj [("type", .str "object")])])]
    [("pattern", .obj [("type", .str "object")])] [("type", .str "object")]
    "pattern" (by decide) rfl rfl

/-! ## The type-array collapse characterized (claim C5) -/
theorem selectFold_spec (ts : List JValue) : ∀ acc : String × Bool,
    ts.foldl typeSelStep acc =
      ((match ts.reverse.find? isNonNullStr with
        | some (.str s) => lowerStr s
        | _ => acc.1), acc.2 || typeArrayNullable ts) := by
  induction ts using List.reverseRecOn with
  | nil =>
    intro acc
    simp [typeArrayNullable, List.find?]
  | append_singleton ts t ih =>
    intro acc
    rw [List.foldl_append, ih acc]
    cases t with
    | str s =>
      by_cases hs : s = "null"
      · subst hs
        simp [typeSelStep, isNonNullStr, typeArrayNullable, List.find?]
      · simp [typeSelStep, isNonNullStr, typeArrayNullable, hs, List.find?]
    | null => simp [typeSelStep, isNonNullStr, typeArrayNullable, List.find?]
    | bool b => simp [typeSelStep, isNonNullStr, typeArrayNullable, List.find?]
    | num n => simp [typeSelStep, isNonNullStr, typeArrayNullable, List.find?]
    | arr l => simp [typeSelStep, isNonNullStr, typeArrayNullable, List.find?]
    | obj o => simp [typeSelStep, isNonNullStr, typeArrayNullable, List.find?]

/-- The code's scan agrees with the claim's description of it. -/
theorem selectFromTypeArray_eq (ts : List JValue) :
    selectFromTypeArray ts = (selectTypeSpec ts, typeArrayNullable ts) := by
  have h := selectFold_spec ts ("string", false)
  simpa [selectFromTypeArray, selectTypeSpec] using h

/-- Cleaning never turns a non-string value into a string, and leaves
strings unchanged. -/
theorem cleanFuel_str_iff (fuel : Nat) (v : JValue) (s : String) :
    (cleanFuel fuel v).1 = .str s ↔ v = .str s := by
  constructor
  · intro h
    cases v with
    | str s' => rw [cleanFuel_str] at h; exact h
    | null => rw [cleanFuel_null] at h; cases h
    | bool b => rw [cleanFuel_bool] at h; cases h
    | num n => rw [cleanFuel_num] at h; cases h
    | arr xs =>
      cases fuel with
      | zero => cases h
      | succ n => rw [cleanFuel_arr_eq] at h; cases h
    | obj m =>
      obtain ⟨q', hq'⟩ := cleanFuel_obj_shape fuel m
      rw [hq'] at h
      cases h
  · intro h
    subst h
    rw [cleanFuel_str]

/-- The scan ignores whatever cleaning does to non-string elements. -/
theorem selectFold_map_clean (fuel : Nat) (ts : List JValue) :
    ∀ acc, (ts.map (fun x => (cleanFuel fuel x).1)).foldl typeSelStep acc =
      ts.foldl typeSelStep acc := by
  induction ts with
  | nil => intro acc; rfl
  | cons t tl ih =>
    intro acc
    simp only [List.map_cons, List.foldl_cons]
    rw [show typeSelStep acc (cleanFuel fuel t).1 = typeSelStep acc t from ?_, ih]
    cases t with
    | str s => rw [cleanFuel_str]
    | null => rw [cleanFuel_null]
    | bool b => rw [cleanFuel_bool]
    | num n => rw [cleanFuel_num]
    | arr xs =>
      cases fuel with
      | zero => rfl
      | succ n =>
        rw [cleanFuel_arr_eq]
        rfl
    | obj m =>
      obtain ⟨q', hq'⟩ := cleanFuel_obj_shape fuel m
      rw [hq']
      rfl

theorem selectFromTypeArray_map_clean (fuel : Nat) (ts : List JValue) :
    selectFromTypeArray (ts.map (fun x => (cleanFuel fuel x).1)) =
      selectFromTypeArray ts :=
  selectFold_map_clean fuel ts _

/-- The child stage keeps an array-valued `type`, up to a rewriting of
the array that the scan cannot observe. -/
theorem childStage_type_arr {ts : List JValue} (fuel : Nat) (m1 : JObj)
    (h : findKey "type" m1 = some (.arr ts)) :
    ∃ ts', findKey "type" (childStage fuel m1) = some (.arr ts') ∧
      selectFromTypeArray ts' = selectFromTypeArray ts := by
  unfold childStage
  split
  · refine ⟨ts, ?_, rfl⟩
    rw [findKey_retractRequired_ne _ _ (by decide),
      findKey_insertKey_ne _ _ _ _ (by decide)]
    exact h
  · rw [findKey_map_values _ (fun v => (cleanFuel fuel v).1) m1, h]
    cases fuel with
    | zero => exact ⟨ts, rfl, rfl⟩
    | succ n =>
      refine ⟨ts.map (fun x => (cleanFuel n x).1), ?_, selectFromTypeArray_map_clean n ts⟩
      simp [cleanFuel_arr_eq]

/-- The placeholder ignores an array-valued `type`. -/
theorem placeholderStep_type_arr {ts : List JValue} {m : JObj}
    (h : findKey "type" m = some (.arr ts)) : placeholderStep m = m := by
  simp [placeholderStep, h]

/-- The type pass on an array-valued `type`. -/
theorem typeStep_arr {ts : List JValue} {m : JObj}
    (h : findKey "type" m = some (.arr ts)) :
    typeStep m = (insertKey "type" (.str (selectFromTypeArray ts).1) m,
      (selectFromTypeArray ts).2) := by
  simp [typeStep, h]

/-- After a nullable marking, the description is a string containing
`nullable`, or was present and not a string. -/
theorem nullableDescStep_marks (m : JObj) :
    (∃ d, findKey "description" (nullableDescStep true m) = some (.str d) ∧
      hasSubSeq d.data "nullable".data = true) ∨
    (∃ w, findKey "description" (nullableDescStep true m) = some w ∧
      ∀ s, w ≠ .str s) := by
  unfold nullableDescStep
  split
  case isFalse h => exact absurd rfl h
  case isTrue =>
    split
    · rename_i s heq
      cases hc : strContains s "nullable" with
      | true =>
        simp only [hc, if_true]
        left
        exact ⟨s, heq, hc⟩
      | false =>
        simp only [hc, Bool.false_eq_true, if_false]
        left
        cases he : s.data.isEmpty with
        | true =>
          simp only [he, if_true]
          exact ⟨"(nullable)", findKey_insertKey_self _ _ _, by decide⟩
        | false =>
          simp only [he, Bool.false_eq_true, if_false]
          refine ⟨s ++ " (nullable)", findKey_insertKey_self _ _ _, ?_⟩
          rw [strData_append]
          exact hasSubSeq_append_left s.data (by decide)
    · rename_i w hns heq
      right
      exact ⟨w, heq, fun s he => hns s he⟩
    · left
      exact ⟨"(nullable)", findKey_insertKey_self _ _ _, by decide⟩

/-- C5, amended: an array-valued `type` is replaced by the single
lowercased last non-`"null"` string element (default `"string"`); if any
element equals `"null"` the node is marked nullable and the resulting
description contains `nullable` — the marker `"(nullable)"` is appended
(with a separating space when the description is non-empty) unless the
description already contains `"nullable"`, and a non-string description
is left alone; the scenario input `{"type": ["string","null"]}` produces
`{"description": "(nullable)", "type": "string"}`, not bare
`{"type": "string"}`. -/
theorem C5_theorem :
    (∀ (fuel : Nat) (m : JObj) (ts : List JValue),
      findKey "type" m = some (.arr ts) →
      getKey (cleanFuel (fuel + 1) (.obj m)).1 "type" =
        some (.str (selectTypeSpec ts)) ∧
      (typeArrayNullable ts = true →
        (∃ d, getKey (cleanFuel (fuel + 1) (.obj m)).1 "description" =
          some (.str d) ∧ hasSubSeq d.data "nullable".data = true) ∨
        (∃ w, getKey (cleanFuel (fuel + 1) (.obj m)).1 "description" = some w ∧
          ∀ s, w ≠ .str s))) ∧
    cleanRoot stringNullArrayInput =
      .obj [("description", .str "(nullable)"), ("type", .str "string")] := by
  constructor
  · intro fuel m ts h
    have h1 : findKey "type" (mergeAllOf m) = some (.arr ts) :=
      mergeAllOf_findKey_of_some (by decide) (by decide) (by decide) h
    obtain ⟨ts', h2, hsel⟩ := childStage_type_arr fuel (mergeAllOf m) h1
    have h3 : findKey "type" (migrateConstraints (childStage fuel (mergeAllOf m))) =
        some (.arr ts') := by
      rw [findKey_migrate_ne _ (by decide) (by decide)]
      exact h2
    have hres : resolveUnion (migrateConstraints (childStage fuel (mergeAllOf m))) =
        migrateConstraints (childStage fuel (mergeAllOf m)) :=
      resolveUnion_of_type_some h3
    have h5 : findKey "type" (hardRemoveStep (migrateConstraints
        (childStage fuel (mergeAllOf m)))) = some (.arr ts') := by
      rw [findKey_hardRemove_ne _ (by decide)]
      exact h3
    have hph : placeholderStep (hardRemoveStep (migrateConstraints
        (childStage fuel (mergeAllOf m)))) =
        hardRemoveStep (migrateConstraints (childStage fuel (mergeAllOf m))) :=
      placeholderStep_type_arr h5
    have h7 : findKey "type" (requiredFilterStep (hardRemoveStep
        (migrateConstraints (childStage fuel (mergeAllOf m))))) = some (.arr ts') := by
      rw [findKey_requiredFilter_ne _ (by decide)]
      exact h5
    have hts := typeStep_arr h7
    have hfin : finishNode fuel (childStage fuel (mergeAllOf m)) =
        (enumStep fuel (nullableDescStep (selectFromTypeArray ts').2
          (insertKey "type" (.str (selectFromTypeArray ts').1)
            (requiredFilterStep (hardRemoveStep (migrateConstraints
              (childStage fuel (mergeAllOf m))))))),
         (selectFromTypeArray ts').2) := by
      unfold finishNode
      rw [hres, hph, hts]
    have hsel1 : (selectFromTypeArray ts').1 = selectTypeSpec ts := by
      rw [hsel, selectFromTypeArray_eq]
    rw [cleanFuel_obj_eq]
    constructor
    · show findKey "type" (finishNode fuel (childStage fuel (mergeAllOf m))).1 = _
      rw [hfin]
      show findKey "type" (enumStep _ _) = _
      rw [findKey_enumStep_ne _ _ (by decide),
        findKey_nullableDesc_ne _ _ (by decide), findKey_insertKey_self, hsel1]
    · intro hnull
      have hflag : (selectFromTypeArray ts').2 = true := by
        rw [hsel, selectFromTypeArray_eq]
        exact hnull
      have hm := nullableDescStep_marks
        (insertKey "type" (.str (selectFromTypeArray ts').1)
          (requiredFilterStep (hardRemoveStep (migrateConstraints
            (childStage fuel (mergeAllOf m))))))
      rcases hm with ⟨d, hd, hsub⟩ | ⟨w, hw, hns⟩
      · left
        refine ⟨d, ?_, hsub⟩
        show findKey "description" (finishNode fuel (childStage fuel (mergeAllOf m))).1 = _
        rw [hfin]
        show findKey "description" (enumStep _ _) = _
        rw [findKey_enumStep_ne _ _ (by decide), hflag]
        exact hd
      · right
        refine ⟨w, ?_, hns⟩
        show findKey "description" (finishNode fuel (childStage fuel (mergeAllOf m))).1 = _
        rw [hfin]
        show findKey "description" (enumStep _ _) = _
        rw [findKey_enumStep_ne _ _ (by decide), hflag]
        exact hw
  · rfl

/-- Witness for C5: the scenario `{"type": ["string","null"]}`. -/
theorem C5_witness :
    getKey (cleanFuel 1 (.obj [("type", .arr [.str "string", .str "null"])])).1 "type" =
      some (.str (selectTypeSpec [.str "string", .str "null"])) :=
  ((C5_theorem.1 0 [("type", .arr [.str "string", .str "null"])]
    [.str "string", .str "null"] rfl)).1

/-! ## Branch selection: the fold picks the first-seen highest-scoring
branch (claim C6) -/
theorem scoreSchemaOption_nonneg (v : JValue) : 0 ≤ scoreSchemaOption v := by
  unfold scoreSchemaOption
  split
  · split
    · norm_num
    · split
      · norm_num
      · split
        · split <;> norm_num
        · norm_num
  · norm_num

theorem foldl_bstStep_some (l : List JValue) : ∀ p,
    l.foldl bstStep (some p, scoreSchemaOption p) =
      (some (chooseFrom p l), scoreSchemaOption (chooseFrom p l)) := by
  induction l with
  | nil => intro p; rfl
  | cons x xs ih =>
    intro p
    simp only [List.foldl_cons]
    by_cases hx : scoreSchemaOption x > scoreSchemaOption p
    · rw [show bstStep (some p, scoreSchemaOption p) x =
        (some x, scoreSchemaOption x) from by simp [bstStep, hx]]
      rw [ih x]
      simp [chooseFrom, hx]
    · rw [show bstStep (some p, scoreSchemaOption p) x =
        (some p, scoreSchemaOption p) from by simp [bstStep, hx]]
      rw [ih p]
      simp [chooseFrom, hx]

/-- The chosen branch's score dominates the candidate and the list. -/
theorem chooseFrom_ge (l : List JValue) : ∀ p,
    scoreSchemaOption p ≤ scoreSchemaOption (chooseFrom p l) ∧
    ∀ b ∈ l, scoreSchemaOption b ≤ scoreSchemaOption (chooseFrom p l) := by
  induction l with
  | nil => intro p; exact ⟨le_refl _, fun b hb => absurd hb (List.not_mem_nil b)⟩
  | cons x xs ih =>
    intro p
    by_cases hx : scoreSchemaOption x > scoreSchemaOption p
    · simp only [chooseFrom, if_pos hx]
      obtain ⟨h1, h2⟩ := ih x
      refine ⟨le_trans (le_of_lt hx) h1, fun b hb => ?_⟩
      rcases List.mem_cons.mp hb with he | he
      · subst he; exact h1
      · exact h2 b he
    · simp only [chooseFrom, if_neg hx]
      obtain ⟨h1, h2⟩ := ih p
      refine ⟨h1, fun b hb => ?_⟩
      rcases List.mem_cons.mp hb with he | he
      · subst he; exact le_trans (le_of_not_lt hx) h1
      · exact h2 b he

/-- The chosen branch splits the list with strictly smaller scores
before it. -/
theorem chooseFrom_split (l : List JValue) : ∀ p, ∃ A B,
    p :: l = A ++ chooseFrom p l :: B ∧
    (∀ a ∈ A, scoreSchemaOption a < scoreSchemaOption (chooseFrom p l)) := by
  induction l with
  | nil => intro p; exact ⟨[], [], rfl, by simp⟩
  | cons x xs ih =>
    intro p
    by_cases hx : scoreSchemaOption x > scoreSchemaOption p
    · simp only [chooseFrom, if_pos hx]
      obtain ⟨A, B, hsplit, hlt⟩ := ih x
      refine ⟨p :: A, B, by rw [List.cons_append, ← hsplit], fun a ha => ?_⟩
      rcases List.mem_cons.mp ha with he | he
      · subst he
        exact lt_of_lt_of_le hx (chooseFrom_ge xs x).1
      · exact hlt a he
    · simp only [chooseFrom, if_neg hx]
      obtain ⟨A, B, hsplit, hlt⟩ := ih p
      cases A with
      | nil =>
        rw [List.nil_append] at hsplit
        injection hsplit with hc hb
        refine ⟨[], x :: B, ?_, by simp⟩
        rw [List.nil_append, ← hc, hb]
      | cons a A' =>
        rw [List.cons_append] at hsplit
        injection hsplit with hpa hxs
        subst hpa
        refine ⟨p :: x :: A', B, ?_, fun y hy => ?_⟩
        · rw [List.cons_append, List.cons_append, ← hxs]
        · have hpc : scoreSchemaOption p < scoreSchemaOption (chooseFrom p xs) :=
            hlt p (List.mem_cons.mpr (Or.inl rfl))
          rcases List.mem_cons.mp hy with he | he
          · subst he
            exact hpc
          · rcases List.mem_cons.mp he with he' | he'
            · subst he'
              exact lt_of_le_of_lt (le_of_not_lt hx) hpc
            · exact hlt y (List.mem_cons.mpr (Or.inr he'))

/-- `find?` returns the first element satisfying the predicate. -/
theorem find?_first (p : JValue → Bool) :
    ∀ (A B : List JValue) (c : JValue), (∀ a ∈ A, p a = false) → p c = true →
      (A ++ c :: B).find? p = some c := by
  intro A
  induction A with
  | nil =>
    intro B c _ hc
    rw [List.nil_append]
    exact List.find?_cons_of_pos _ hc
  | cons a A' ih =>
    intro B c hA hc
    rw [List.cons_append, List.find?_cons_of_neg]
    · exact ih B c (fun x hx => hA x (List.mem_cons.mpr (Or.inr hx))) hc
    · rw [hA a (List.mem_cons.mpr (Or.inl rfl))]
      simp

/-- The fold's incumbent is the first-seen highest-scoring branch. -/
theorem firstMaxBranch_eq_chooseFrom (p : JValue) (l : List JValue) :
    firstMaxBranch (p :: l) = some (chooseFrom p l) := by
  obtain ⟨A, B, hsplit, hlt⟩ := chooseFrom_split l p
  have hmem : ∀ b ∈ p :: l,
      scoreSchemaOption b ≤ scoreSchemaOption (chooseFrom p l) := by
    intro b hb
    rcases List.mem_cons.mp hb with he | he
    · subst he
      exact (chooseFrom_ge l b).1
    · exact (chooseFrom_ge l p).2 b he
  unfold firstMaxBranch
  rw [hsplit]
  apply find?_first
  · intro a ha
    simp only [decide_eq_false_iff_not]
    intro hall
    have hc : chooseFrom p l ∈ A ++ chooseFrom p l :: B := by
      simp
    exact absurd (hall (chooseFrom p l) hc) (not_le_of_lt (hlt a ha))
  · simp only [decide_eq_true_eq]
    intro b' hb'
    apply hmem
    rw [hsplit]
    exact hb'

/-- The code's branch selection is the claim's "first-seen
highest-scoring branch". -/
theorem extractBest_eq_firstMax (l : List JValue) :
    extractBestTypeFromUnion l = firstMaxBranch l := by
  cases l with
  | nil => rfl
  | cons x xs =>
    unfold extractBestTypeFromUnion
    rw [List.foldl_cons]
    have h1 : bstStep (none, -1) x = (some x, scoreSchemaOption x) := by
      have : (-1 : Int) < scoreSchemaOption x :=
        lt_of_lt_of_le (by norm_num) (scoreSchemaOption_nonneg x)
      simp [bstStep, this]
    rw [h1, foldl_bstStep_some, firstMaxBranch_eq_chooseFrom]

/-- The full extraction agrees with its claim-side description. -/
theorem extractTypeFromUnion_eq_spec (l : List JValue) :
    extractTypeFromUnion l = unionTypeSpec l := by
  unfold extractTypeFromUnion unionTypeSpec
  rw [extractBest_eq_firstMax]

/-- A hard-removed key that no later pass reinserts is absent from the
finished node. -/
theorem finishNode_hard_none (fuel : Nat) (m2 : JObj) (k : String)
    (hmem : k ∈ hardRemoveFields) (h1 : k ≠ "properties") (h2 : k ≠ "required")
    (h3 : k ≠ "type") (h4 : k ≠ "description") (h5 : k ≠ "enum") :
    findKey k (finishNode fuel m2).1 = none := by
  unfold finishNode
  rw [findKey_enumStep_ne _ _ h5, findKey_nullableDesc_ne _ _ h4,
    findKey_typeStep_ne _ h3, findKey_requiredFilter_ne _ h2,
    findKey_placeholder_ne _ h1 h2]
  exact findKey_hardRemove_mem _ hmem

/-- One union-resolution attempt equals the claim-side per-key spec. -/
theorem unionAssign_eq_spec (key : String) (m : JObj) :
    unionAssign key m =
      (match unionSpecAt key m with
       | some t => insertKey "type" (.str t) m
       | none => m) := by
  cases hk : findKey key m with
  | none =>
    have h1 : unionAssign key m = m := by simp [unionAssign, hk]
    have h2 : unionSpecAt key m = none := by simp [unionSpecAt, hk]
    rw [h1, h2]
  | some w =>
    cases w with
    | arr l =>
      have h1 : unionAssign key m =
          (match extractTypeFromUnion l with
           | some t => insertKey "type" (.str t) m
           | none => m) := by
        simp [unionAssign, hk]
      have h2 : unionSpecAt key m = unionTypeSpec l := by simp [unionSpecAt, hk]
      rw [h1, h2, extractTypeFromUnion_eq_spec]
    | null =>
      have h1 : unionAssign key m = m := by simp [unionAssign, hk]
      have h2 : unionSpecAt key m = none := by simp [unionSpecAt, hk]
      rw [h1, h2]
    | bool b =>
      have h1 : unionAssign key m = m := by simp [unionAssign, hk]
      have h2 : unionSpecAt key m = none := by simp [unionSpecAt, hk]
      rw [h1, h2]
    | num n =>
      have h1 : unionAssign key m = m := by simp [unionAssign, hk]
      have h2 : unionSpecAt key m = none := by simp [unionSpecAt, hk]
      rw [h1, h2]
    | str t =>
      have h1 : unionAssign key m = m := by simp [unionAssign, hk]
      have h2 : unionSpecAt key m = none := by simp [unionSpecAt, hk]
      rw [h1, h2]
    | obj o =>
      have h1 : unionAssign key m = m := by simp [unionAssign, hk]
      have h2 : unionSpecAt key m = none := by simp [unionSpecAt, hk]
      rw [h1, h2]

/-- C6 as stated is false: on a node whose single `anyOf` branch carries
`type: "null"` together with `properties`, the claim predicts that no
branch yields a usable type (the branch is not typeless, and its type is
`"null"`), so `type` should remain absent — but the extractor falls
through to the `properties` check even when the selected branch has a
`"null"` type, and sets `type: "object"`. -/
theorem C6_counterexample :
    findKey "type" nullPropsUnionInput = none ∧
    findKey "type" (resolveUnion nullPropsUnionInput) = some (.str "object") :=
  ⟨rfl, rfl⟩

/-- C6 (amended): on every object node with no `type`, the resolver
scores the `anyOf` branches (if `anyOf` is an array), selects the
first-seen highest-scoring one and copies its lowercased string type
unless it is `"null"`; when the selected branch's type is `"null"`,
missing, or not a string, the node's type becomes `"object"` if that
branch has `properties` (not only when it is typeless, as the claim
said); if `anyOf` yields no type the same selection runs on the `oneOf`
array; otherwise `type` stays absent. The `anyOf`/`oneOf` keys are
always deleted from the cleaned node. -/
theorem C6_theorem :
    (∀ m : JObj, findKey "type" m = none →
      findKey "type" (resolveUnion m) =
        Option.map JValue.str
          (orElseS (unionSpecAt "anyOf" m) (unionSpecAt "oneOf" m))) ∧
    (∀ (fuel : Nat) (m : JObj),
      getKey (cleanFuel (fuel + 1) (.obj m)).1 "anyOf" = none ∧
      getKey (cleanFuel (fuel + 1) (.obj m)).1 "oneOf" = none) := by
  constructor
  · intro m htype
    unfold resolveUnion
    simp only [htype, Option.isNone_none, if_true]
    cases hspec : unionSpecAt "anyOf" m with
    | some t =>
      have hm1 : unionAssign "anyOf" m = insertKey "type" (.str t) m := by
        rw [unionAssign_eq_spec, hspec]
      rw [hm1]
      simp only [findKey_insertKey_self, Option.isNone_some, Bool.false_eq_true,
        if_false]
      rfl
    | none =>
      have hm1 : unionAssign "anyOf" m = m := by rw [unionAssign_eq_spec, hspec]
      rw [hm1]
      simp only [htype, Option.isNone_none, if_true]
      cases hspec2 : unionSpecAt "oneOf" m with
      | some t =>
        have hm2 : unionAssign "oneOf" m = insertKey "type" (.str t) m := by
          rw [unionAssign_eq_spec, hspec2]
        rw [hm2, findKey_insertKey_self]
        rfl
      | none =>
        have hm2 : unionAssign "oneOf" m = m := by rw [unionAssign_eq_spec, hspec2]
        rw [hm2, htype]
        rfl
  · intro fuel m
    rw [cleanFuel_obj_eq]
    constructor
    · show findKey "anyOf" (finishNode fuel (childStage fuel (mergeAllOf m))).1 = none
      exact finishNode_hard_none _ _ _ (by decide) (by decide) (by decide)
        (by decide) (by decide) (by decide)
    · show findKey "oneOf" (finishNode fuel (childStage fuel (mergeAllOf m))).1 = none
      exact finishNode_hard_none _ _ _ (by decide) (by decide) (by decide)
        (by decide) (by decide) (by decide)

/-- Witness for C6: `anyOf: [{"type":"string"},{"type":"null"}]` on a
node without `type` resolves to type `"string"`; a node carrying only
`oneOf: [{"type":"INTEGER"}]` resolves to type `"integer"`; and `anyOf`
is deleted by cleaning. -/
theorem C6_witness :
    findKey "type" (resolveUnion [("anyOf",
        .arr [.obj [("type", .str "string")], .obj [("type", .str "null")]])]) =
      some (.str "string") ∧
    findKey "type" (resolveUnion [("oneOf",
        .arr [.obj [("type", .str "INTEGER")]])]) = some (.str "integer") ∧
    getKey (cleanFuel 1 (.obj [("anyOf",
        .arr [.obj [("type", .str "string")], .obj [("type", .str "null")]])])).1
      "anyOf" = none := by
  refine ⟨?_, ?_, (C6_theorem.2 0 [("anyOf",
    .arr [.obj [("type", .str "string")], .obj [("type", .str "null")]])]).1⟩
  · rw [C6_theorem.1 [("anyOf",
      .arr [.obj [("type", .str "string")], .obj [("type", .str "null")]])] rfl]
    rfl
  · rw [C6_theorem.1 [("oneOf", .arr [.obj [("type", .str "INTEGER")]])] rfl]
    rfl

/-! ## The allOf merge characterized (claim C7) -/

theorem orElseO_assoc (a b c : Option JValue) :
    orElseO (orElseO a b) c = orElseO a (orElseO b c) := by
  cases a <;> rfl

theorem findKey_append (k : String) (a b : JObj) :
    findKey k (a ++ b) = orElseO (findKey k a) (findKey k b) := by
  induction a with
  | nil => rfl
  | cons hd tl ih =>
    by_cases h : hd.1 = k
    · obtain ⟨k', v'⟩ := hd
      simp only at h
      simp [findKey, h, orElseO]
    · obtain ⟨k', v'⟩ := hd
      simp only at h
      simp [findKey, h, ih]

/-- Folding `insert` over an entry list: the last write wins, then the
accumulator. -/
theorem foldl_insertKey_entries (e : List (String × JValue)) :
    ∀ (acc : JObj) (k : String),
      findKey k (e.foldl (fun a kv => insertKey kv.1 kv.2 a) acc) =
        orElseO (findKey k e.reverse) (findKey k acc) := by
  induction e with
  | nil => intro acc k; rfl
  | cons hd tl ih =>
    intro acc k
    simp only [List.foldl_cons, List.reverse_cons]
    rw [ih, findKey_append, orElseO_assoc]
    congr 1
    by_cases h : hd.1 = k
    · subst h
      rw [findKey_insertKey_self]
      simp [findKey, orElseO]
    · rw [findKey_insertKey_ne _ _ _ _ (fun he => h he.symm)]
      simp [findKey, h, orElseO]
theorem findSome?_cons_orElseO (f : JValue → Option JValue) (b : JValue)
    (l : List JValue) :
    (b :: l).findSome? f = orElseO (f b) (l.findSome? f) := by
  rw [List.findSome?_cons]
  cases f b <;> rfl

theorem findSome?_append_orElseO (f : JValue → Option JValue) (a b : List JValue) :
    (a ++ b).findSome? f = orElseO (a.findSome? f) (b.findSome? f) := by
  induction a with
  | nil => rfl
  | cons hd tl ih =>
    rw [List.cons_append, findSome?_cons_orElseO, findSome?_cons_orElseO, ih,
      orElseO_assoc]

theorem mergedPropsOf_lookup (branches : List JValue) : ∀ (acc : JObj) (k : String),
    findKey k (branches.foldl (fun acc sub =>
      match sub with
      | .obj subMap => mergeBranchProps acc subMap
      | _ => acc) acc) =
      orElseO (branches.reverse.findSome? (branchPropLookup k)) (findKey k acc) := by
  induction branches with
  | nil => intro acc k; rfl
  | cons b bs ih =>
    intro acc k
    simp only [List.foldl_cons, List.reverse_cons]
    rw [ih, findSome?_append_orElseO, orElseO_assoc]
    congr 1
    cases b with
    | obj sub =>
      cases hps : findKey "properties" sub with
      | none => simp [mergeBranchProps, branchPropLookup, hps, List.findSome?, orElseO]
      | some w =>
        cases w with
        | obj props =>
          simp only [mergeBranchProps, branchPropLookup, hps, foldl_insertKey_entries,
            List.findSome?, orElseO]
          cases findKey k props.reverse <;> rfl
        | null =>
          simp [mergeBranchProps, branchPropLookup, hps, List.findSome?, orElseO]
        | bool x =>
          simp [mergeBranchProps, branchPropLookup, hps, List.findSome?, orElseO]
        | num x =>
          simp [mergeBranchProps, branchPropLookup, hps, List.findSome?, orElseO]
        | str x =>
          simp [mergeBranchProps, branchPropLookup, hps, List.findSome?, orElseO]
        | arr x =>
          simp [mergeBranchProps, branchPropLookup, hps, List.findSome?, orElseO]
    | null => simp [List.findSome?, branchPropLookup, orElseO]
    | bool x => simp [List.findSome?, branchPropLookup, orElseO]
    | num x => simp [List.findSome?, branchPropLookup, orElseO]
    | str x => simp [List.findSome?, branchPropLookup, orElseO]
    | arr x => simp [List.findSome?, branchPropLookup, orElseO]

theorem mergeBranchOther_lookup (k : String)
    (hk1 : k ≠ "properties") (hk2 : k ≠ "required") (hk3 : k ≠ "allOf")
    (sub : JObj) : ∀ acc : JObj,
    findKey k (mergeBranchOther acc sub) = orElseO (findKey k acc) (findKey k sub) := by
  induction sub with
  | nil =>
    intro acc
    cases h : findKey k acc <;> simp [mergeBranchOther, findKey, orElseO, h]
  | cons hd tl ih =>
    obtain ⟨ek, ev⟩ := hd
    intro acc
    have hfold : mergeBranchOther acc ((ek, ev) :: tl) =
        mergeBranchOther (if ek ≠ "properties" ∧ ek ≠ "required" ∧ ek ≠ "allOf" ∧
          (findKey ek acc).isNone then insertKey ek ev acc else acc) tl := rfl
    rw [hfold, ih]
    by_cases hke : ek = k
    · subst hke
      cases ha : findKey ek acc with
      | none =>
        rw [if_pos ⟨hk1, hk2, hk3, rfl⟩, findKey_insertKey_self]
        simp [findKey, orElseO, ha]
      | some w =>
        rw [if_neg (fun hc => by simpa using hc.2.2.2)]
        simp [findKey, orElseO, ha]
    · have hstep : findKey k (if ek ≠ "properties" ∧ ek ≠ "required" ∧ ek ≠ "allOf" ∧
          (findKey ek acc).isNone then insertKey ek ev acc else acc) = findKey k acc := by
        split
        · exact findKey_insertKey_ne _ _ _ _ (fun he => hke he.symm)
        · rfl
      rw [hstep]
      simp [findKey, hke, orElseO]

theorem mergedOtherOf_lookup (k : String)
    (hk1 : k ≠ "properties") (hk2 : k ≠ "required") (hk3 : k ≠ "allOf")
    (branches : List JValue) : ∀ acc : JObj,
    findKey k (branches.foldl (fun acc sub =>
      match sub with
      | .obj subMap => mergeBranchOther acc subMap
      | _ => acc) acc) =
      orElseO (findKey k acc) (branches.findSome? (branchFieldLookup k)) := by
  induction branches with
  | nil =>
    intro acc
    cases h : findKey k acc <;> simp [List.findSome?, orElseO, h]
  | cons b bs ih =>
    intro acc
    simp only [List.foldl_cons]
    rw [ih, findSome?_cons_orElseO, ← orElseO_assoc]
    congr 1
    cases b with
    | obj sub =>
      rw [mergeBranchOther_lookup k hk1 hk2 hk3]
      rfl
    | null => cases findKey k acc <;> rfl
    | bool x => cases findKey k acc <;> rfl
    | num x => cases findKey k acc <;> rfl
    | str x => cases findKey k acc <;> rfl
    | arr x => cases findKey k acc <;> rfl

/-- The `other`-fields accumulator never contains the excluded keys. -/
theorem mergeBranchOther_excluded (k : String)
    (hk : k = "properties" ∨ k = "required" ∨ k = "allOf")
    (sub : JObj) : ∀ acc : JObj, findKey k acc = none →
    findKey k (mergeBranchOther acc sub) = none := by
  induction sub with
  | nil => intro acc ha; simpa [mergeBranchOther] using ha
  | cons hd tl ih =>
    obtain ⟨ek, ev⟩ := hd
    intro acc ha
    have hfold : mergeBranchOther acc ((ek, ev) :: tl) =
        mergeBranchOther (if ek ≠ "properties" ∧ ek ≠ "required" ∧ ek ≠ "allOf" ∧
          (findKey ek acc).isNone then insertKey ek ev acc else acc) tl := rfl
    rw [hfold]
    apply ih
    by_cases hke : ek = k
    · subst hke
      rw [if_neg (fun hc => by
        rcases hk with h | h | h
        · exact hc.1 h
        · exact hc.2.1 h
        · exact hc.2.2.1 h)]
      exact ha
    · have hstep : findKey k (if ek ≠ "properties" ∧ ek ≠ "required" ∧ ek ≠ "allOf" ∧
          (findKey ek acc).isNone then insertKey ek ev acc else acc) = findKey k acc := by
        split
        · exact findKey_insertKey_ne _ _ _ _ (fun he => hke he.symm)
        · rfl
      rw [hstep]
      exact ha

theorem mergedOtherOf_excluded (k : String)
    (hk : k = "properties" ∨ k = "required" ∨ k = "allOf")
    (branches : List JValue) :
    findKey k (mergedOtherOf branches) = none := by
  unfold mergedOtherOf
  suffices h : ∀ acc : JObj, findKey k acc = none →
      findKey k (branches.foldl (fun acc sub =>
        match sub with
        | .obj subMap => mergeBranchOther acc subMap
        | _ => acc) acc) = none by
    exact h [] rfl
  induction branches with
  | nil => intro acc ha; exact ha
  | cons b bs ih =>
    intro acc ha
    simp only [List.foldl_cons]
    apply ih
    cases b with
    | obj sub => exact mergeBranchOther_excluded k hk sub acc ha
    | null => exact ha
    | bool x => exact ha
    | num x => exact ha
    | str x => exact ha
    | arr x => exact ha
theorem appendRequired_eq_appendTail (mergedReq : List String) :
    ∀ (current : List String) (reqArr : List JValue),
    appendRequired mergedReq current reqArr = reqArr ++ appendTail mergedReq current := by
  induction mergedReq with
  | nil => intro current reqArr; simp [appendRequired, appendTail]
  | cons r rest ih =>
    intro current reqArr
    by_cases h : r ∈ current
    · have hb : current.contains r = true := by simpa using h
      have hstep : appendRequired (r :: rest) current reqArr =
          appendRequired rest current reqArr := by
        simp [appendRequired, h]
      rw [hstep, ih, appendTail, if_pos hb]
    · have hb : current.contains r = false := by simpa using h
      have hstep : appendRequired (r :: rest) current reqArr =
          appendRequired rest (current ++ [r]) (reqArr ++ [.str r]) := by
        simp [appendRequired, h]
      rw [hstep, ih, appendTail]
      rw [if_neg (by rw [hb]; exact Bool.noConfusion)]
      simp

theorem contains_append_singleton_false {l : List String} {r s : String}
    (h : (l ++ [r]).contains s = false) : l.contains s = false := by
  simp at h ⊢
  exact h.1

theorem appendTail_mem (mergedReq : List String) :
    ∀ (current : List String) (x : JValue), x ∈ appendTail mergedReq current →
    ∃ s, x = .str s ∧ s ∈ mergedReq ∧ current.contains s = false := by
  induction mergedReq with
  | nil => intro current x hx; exact absurd hx (by simp [appendTail])
  | cons r rest ih =>
    intro current x hx
    by_cases h : current.contains r
    · rw [appendTail, if_pos h] at hx
      obtain ⟨s, hs1, hs2, hs3⟩ := ih current x hx
      exact ⟨s, hs1, List.mem_cons_of_mem _ hs2, hs3⟩
    · rw [appendTail, if_neg h] at hx
      rcases List.mem_cons.mp hx with hx | hx
      · refine ⟨r, hx, List.mem_cons_self _ _, ?_⟩
        cases h2 : current.contains r
        · rfl
        · exact absurd h2 h
      · obtain ⟨s, hs1, hs2, hs3⟩ := ih (current ++ [r]) x hx
        exact ⟨s, hs1, List.mem_cons_of_mem _ hs2,
          contains_append_singleton_false hs3⟩

theorem appendTail_complete (mergedReq : List String) :
    ∀ (current : List String) (s : String), s ∈ mergedReq →
    current.contains s = false → JValue.str s ∈ appendTail mergedReq current := by
  induction mergedReq with
  | nil => intro current s hs _; exact absurd hs (List.not_mem_nil s)
  | cons r rest ih =>
    intro current s hs hcur
    by_cases h : current.contains r
    · rw [appendTail, if_pos h]
      rcases List.mem_cons.mp hs with hs | hs
      · subst hs
        rw [h] at hcur
        exact Bool.noConfusion hcur
      · exact ih current s hs hcur
    · rw [appendTail, if_neg h]
      rcases List.mem_cons.mp hs with hs | hs
      · subst hs
        exact List.mem_cons_self _ _
      · by_cases hsr : s = r
        · subst hsr
          exact List.mem_cons_self _ _
        · refine List.mem_cons_of_mem _ (ih (current ++ [r]) s hs ?_)
          have hm : s ∉ current := by simpa using hcur
          simp [hsr, hm]

theorem orElseO_none_right (a : Option JValue) : orElseO a none = a := by
  cases a <;> rfl
theorem lastBranchProp_eq (branches : List JValue) (k : String) :
    findKey k (mergedPropsOf branches) = lastBranchProp branches k := by
  unfold mergedPropsOf lastBranchProp
  rw [mergedPropsOf_lookup]
  exact orElseO_none_right _

theorem firstBranchField_eq (k : String)
    (hk1 : k ≠ "properties") (hk2 : k ≠ "required") (hk3 : k ≠ "allOf")
    (branches : List JValue) :
    findKey k (mergedOtherOf branches) = firstBranchField branches k := by
  unfold mergedOtherOf firstBranchField
  rw [mergedOtherOf_lookup k hk1 hk2 hk3]
  rfl

theorem findKey_base_props (m : JObj) (branches : List JValue) :
    findKey "properties" (orInsertAll (eraseKey "allOf" m) (mergedOtherOf branches)) =
      findKey "properties" m := by
  rw [findKey_orInsertAll, mergedOtherOf_excluded _ (Or.inl rfl), orElseO_none_right,
    findKey_eraseKey_ne _ _ _ (by decide)]

theorem findKey_base_req (m : JObj) (branches : List JValue) :
    findKey "required" (orInsertAll (eraseKey "allOf" m) (mergedOtherOf branches)) =
      findKey "required" m := by
  rw [findKey_orInsertAll, mergedOtherOf_excluded _ (Or.inr (Or.inl rfl)),
    orElseO_none_right, findKey_eraseKey_ne _ _ _ (by decide)]

theorem propLookup_applyMergedReq (mr : List String) (x : JObj) (k : String) :
    propLookup (applyMergedReq mr x) k = propLookup x k := by
  unfold propLookup
  rw [findKey_applyMergedReq_ne _ _ (by decide)]

theorem propLookup_congr (x y : JObj) (k : String)
    (h : findKey "properties" x = findKey "properties" y) :
    propLookup x k = propLookup y k := by
  unfold propLookup
  rw [h]

theorem propLookup_applyMergedProps (mp : JObj) (x : JObj) (k : String)
    (hprops : findKey "properties" x = none ∨
      ∃ p, findKey "properties" x = some (.obj p)) :
    propLookup (applyMergedProps mp x) k = orElseO (propLookup x k) (findKey k mp) := by
  cases mp with
  | nil => simp [applyMergedProps, propLookup, findKey, orElseO_none_right]
  | cons hd tl =>
    rcases hprops with hp | ⟨p, hp⟩
    · have hA : applyMergedProps (hd :: tl) x =
          insertKey "properties" (.obj (orInsertAll [] (hd :: tl))) x := by
        simp [applyMergedProps, hp]
      rw [hA]
      unfold propLookup
      rw [findKey_insertKey_self, hp]
      show findKey k (orInsertAll [] (hd :: tl)) = orElseO none (findKey k (hd :: tl))
      rw [findKey_orInsertAll]
      rfl
    · have hA : applyMergedProps (hd :: tl) x =
          insertKey "properties" (.obj (orInsertAll p (hd :: tl))) x := by
        simp [applyMergedProps, hp]
      rw [hA]
      unfold propLookup
      rw [findKey_insertKey_self, hp]
      show findKey k (orInsertAll p (hd :: tl)) = orElseO (findKey k p) (findKey k (hd :: tl))
      rw [findKey_orInsertAll]

/-- C7: for every object node with an `allOf` array, the merge removes
`allOf`; `properties` merge with the last branch winning for same-named
property keys (the node's own property definitions winning over merged
ones), all other non-`properties`/`required`/`allOf` fields merge with
the first branch winning (the node's own value winning over merged ones),
and the merged `required` strings are appended to the node's own
`required` array, skipping those already present. -/
theorem C7_theorem (m : JObj) (branches : List JValue)
    (hall : findKey "allOf" m = some (.arr branches)) :
    findKey "allOf" (mergeAllOf m) = none ∧
    ((findKey "properties" m = none ∨ ∃ p, findKey "properties" m = some (.obj p)) →
      ∀ k, propLookup (mergeAllOf m) k =
        orElseO (propLookup m k) (lastBranchProp branches k)) ∧
    (∀ k, k ≠ "properties" → k ≠ "required" → k ≠ "allOf" →
      findKey k (mergeAllOf m) = orElseO (findKey k m) (firstBranchField branches k)) ∧
    (mergedReqOf branches = [] →
      findKey "required" (mergeAllOf m) = findKey "required" m) ∧
    (∀ own, (findKey "required" m = some (.arr own) ∨
        (findKey "required" m = none ∧ own = [])) →
      mergedReqOf branches ≠ [] →
      findKey "required" (mergeAllOf m) =
          some (.arr (own ++ appendTail (mergedReqOf branches) (strListOf own))) ∧
        (∀ x ∈ appendTail (mergedReqOf branches) (strListOf own),
          ∃ s, x = JValue.str s ∧ s ∈ mergedReqOf branches ∧
            (strListOf own).contains s = false) ∧
        (∀ s, s ∈ mergedReqOf branches → (strListOf own).contains s = false →
          JValue.str s ∈ appendTail (mergedReqOf branches) (strListOf own))) := by
  have hm : mergeAllOf m =
      applyMergedReq (mergedReqOf branches)
        (applyMergedProps (mergedPropsOf branches)
          (orInsertAll (eraseKey "allOf" m) (mergedOtherOf branches))) := by
    simp [mergeAllOf, hall]
  have hreqM2 : findKey "required"
      (applyMergedProps (mergedPropsOf branches)
        (orInsertAll (eraseKey "allOf" m) (mergedOtherOf branches))) =
      findKey "required" m := by
    rw [findKey_applyMergedProps_ne _ _ (by decide), findKey_base_req]
  refine ⟨?_, ?_, ?_, ?_, ?_⟩
  · rw [hm, findKey_applyMergedReq_ne _ _ (by decide),
      findKey_applyMergedProps_ne _ _ (by decide), findKey_orInsertAll,
      mergedOtherOf_excluded _ (Or.inr (Or.inr rfl)), orElseO_none_right,
      findKey_eraseKey_self]
  · intro hprops k
    have hbase := findKey_base_props m branches
    rw [hm, propLookup_applyMergedReq,
      propLookup_applyMergedProps _ _ _ (by
        rcases hprops with hp | ⟨p, hp⟩
        · exact Or.inl (hbase.trans hp)
        · exact Or.inr ⟨p, hbase.trans hp⟩),
      propLookup_congr _ _ _ hbase, lastBranchProp_eq]
  · intro k hk1 hk2 hk3
    rw [hm, findKey_applyMergedReq_ne _ _ hk2, findKey_applyMergedProps_ne _ _ hk1,
      findKey_orInsertAll, findKey_eraseKey_ne _ _ _ hk3,
      firstBranchField_eq k hk1 hk2 hk3]
  · intro hmr
    rw [hm, hmr]
    have hA : applyMergedReq []
        (applyMergedProps (mergedPropsOf branches)
          (orInsertAll (eraseKey "allOf" m) (mergedOtherOf branches))) =
        applyMergedProps (mergedPropsOf branches)
          (orInsertAll (eraseKey "allOf" m) (mergedOtherOf branches)) := by
      simp [applyMergedReq]
    rw [hA, hreqM2]
  · intro own hown hne
    have hne' : (mergedReqOf branches).isEmpty = false := by
      cases hmr2 : mergedReqOf branches with
      | nil => exact absurd hmr2 hne
      | cons a b => rfl
    rcases hown with harr | ⟨hnone, hempty⟩
    · have heq : findKey "required"
          (applyMergedProps (mergedPropsOf branches)
            (orInsertAll (eraseKey "allOf" m) (mergedOtherOf branches))) =
          some (.arr own) := hreqM2.trans harr
      have hstep : applyMergedReq (mergedReqOf branches)
          (applyMergedProps (mergedPropsOf branches)
            (orInsertAll (eraseKey "allOf" m) (mergedOtherOf branches))) =
          insertKey "required"
            (.arr (appendRequired (mergedReqOf branches) (strListOf own) own))
            (applyMergedProps (mergedPropsOf branches)
              (orInsertAll (eraseKey "allOf" m) (mergedOtherOf branches))) := by
        simp [applyMergedReq, hne', heq, strListOf]
      refine ⟨?_, fun x hx => appendTail_mem _ _ x hx,
        fun s hs hcs => appendTail_complete _ _ s hs hcs⟩
      rw [hm, hstep, findKey_insertKey_self, appendRequired_eq_appendTail]
    · subst hempty
      have heq : findKey "required"
          (applyMergedProps (mergedPropsOf branches)
            (orInsertAll (eraseKey "allOf" m) (mergedOtherOf branches))) =
          none := hreqM2.trans hnone
      have hstep : applyMergedReq (mergedReqOf branches)
          (applyMergedProps (mergedPropsOf branches)
            (orInsertAll (eraseKey "allOf" m) (mergedOtherOf branches))) =
          insertKey "required"
            (.arr (appendRequired (mergedReqOf branches) [] []))
            (applyMergedProps (mergedPropsOf branches)
              (orInsertAll (eraseKey "allOf" m) (mergedOtherOf branches))) := by
        simp [applyMergedReq, hne', heq]
      refine ⟨?_, fun x hx => appendTail_mem _ _ x hx,
        fun s hs hcs => appendTail_complete _ _ s hs hcs⟩
      rw [hm, hstep, findKey_insertKey_self, appendRequired_eq_appendTail]
      rfl

theorem C7_witness :
    findKey "allOf" c7m = some (.arr [c7b1, c7b2]) ∧
    findKey "allOf" (mergeAllOf c7m) = none ∧
    propLookup (mergeAllOf c7m) "a" =
      orElseO (propLookup c7m "a") (lastBranchProp [c7b1, c7b2] "a") ∧
    findKey "x" (mergeAllOf c7m) =
      orElseO (findKey "x" c7m) (firstBranchField [c7b1, c7b2] "x") ∧
    findKey "required" (mergeAllOf c7m) =
      some (.arr ([JValue.str "a"] ++
        appendTail (mergedReqOf [c7b1, c7b2]) (strListOf [JValue.str "a"]))) := by
  have h := C7_theorem c7m [c7b1, c7b2] rfl
  exact ⟨rfl, h.1, h.2.1 (Or.inl rfl) "a",
    h.2.2.1 "x" (by decide) (by decide) (by decide),
    (h.2.2.2.2 [JValue.str "a"] (Or.inl rfl) (by decide)).1⟩

/-! ## The visited-node invariant machinery (claims C1 and C2): the pass
visits the root, the elements of arrays, and — properties-priority — the
property values of an object that has a `properties` object, else all of
its values.  `visitedOkB p` checks `p` on exactly the nodes the pass
visits, fuel-bounded like the pass itself. -/

theorem visitedOkB_zero (p : JObj → Bool) (v : JValue) :
    visitedOkB p 0 v = true := rfl

theorem visitedOkB_arr (p : JObj → Bool) (f : Nat) (xs : List JValue) :
    visitedOkB p (f + 1) (.arr xs) = xs.all (fun x => visitedOkB p f x) := rfl

theorem visitedOkB_obj (p : JObj → Bool) (f : Nat) (m : JObj) :
    visitedOkB p (f + 1) (.obj m) =
      (p m &&
        (match findKey "properties" m with
         | some (.obj props) => props.all (fun kv => visitedOkB p f kv.2)
         | _ => m.all (fun kv => visitedOkB p f kv.2))) := rfl

theorem visitedOkB_str (p : JObj → Bool) (f : Nat) (s : String) :
    visitedOkB p f (.str s) = true := by
  cases f <;> rfl

theorem visitedOkB_arr_of_str (p : JObj → Bool) (f : Nat) (l : List JValue)
    (h : ∀ x ∈ l, ∃ s, x = JValue.str s) : visitedOkB p f (.arr l) = true := by
  cases f with
  | zero => rfl
  | succ n =>
    rw [visitedOkB_arr, List.all_eq_true]
    intro x hx
    obtain ⟨s, hs⟩ := h x hx
    subst hs
    exact visitedOkB_str p n s

theorem visitedOkB_arr_sub (p : JObj → Bool) (f : Nat) {l l' : List JValue}
    (h : visitedOkB p f (.arr l) = true) (hsub : ∀ x ∈ l', x ∈ l) :
    visitedOkB p f (.arr l') = true := by
  cases f with
  | zero => rfl
  | succ n =>
    rw [visitedOkB_arr, List.all_eq_true]
    rw [visitedOkB_arr, List.all_eq_true] at h
    intro x hx
    exact h x (hsub x hx)

theorem findKey_mem {k : String} {v : JValue} {m : JObj}
    (h : findKey k m = some v) : (k, v) ∈ m := by
  induction m with
  | nil => cases h
  | cons hd tl ih =>
    obtain ⟨k', v'⟩ := hd
    by_cases hk : k' = k
    · subst hk
      rw [show findKey k' ((k', v') :: tl) = some v' by simp [findKey]] at h
      cases h
      exact List.mem_cons_self _ _
    · rw [show findKey k ((k', v') :: tl) = findKey k tl by simp [findKey, hk]] at h
      exact List.mem_cons_of_mem _ (ih h)

theorem visitedOk_reason (p : JObj → Bool) (hreason : p reasonProp = true) :
    ∀ f, visitedOkB p f (.obj reasonProp) = true := by
  intro f
  cases f with
  | zero => rfl
  | succ n =>
    have he : visitedOkB p (n + 1) (.obj reasonProp) =
        (p reasonProp && reasonProp.all (fun kv => visitedOkB p n kv.2)) := rfl
    rw [he, hreason, Bool.true_and]
    simp [reasonProp, visitedOkB_str]

theorem visitedOk_reasonWrap (p : JObj → Bool)
    (hreason : p reasonProp = true)
    (hwrap : p [("reason", .obj reasonProp)] = true) :
    ∀ f, visitedOkB p f (.obj [("reason", .obj reasonProp)]) = true := by
  intro f
  cases f with
  | zero => rfl
  | succ n =>
    have he : visitedOkB p (n + 1) (.obj [("reason", .obj reasonProp)]) =
        (p [("reason", .obj reasonProp)] &&
          [("reason", JValue.obj reasonProp)].all (fun kv => visitedOkB p n kv.2)) := rfl
    rw [he, hwrap, Bool.true_and]
    show (visitedOkB p n (.obj reasonProp) && true) = true
    rw [visitedOk_reason p hreason n]
    rfl

theorem migrateStep_vals (p : JObj → Bool) (f : Nat) (acc : JObj × List String)
    (fl : String × String) (h : ∀ kv ∈ acc.1, visitedOkB p f kv.2 = true) :
    ∀ kv ∈ (migrateStep acc fl).1, visitedOkB p f kv.2 = true := by
  cases hfk : findKey fl.1 acc.1 with
  | none =>
    have he : (migrateStep acc fl).1 = acc.1 := by simp [migrateStep, hfk]
    rw [he]
    exact h
  | some val =>
    cases hsh : scalarHint fl.2 val with
    | some hint =>
      have he : (migrateStep acc fl).1 = eraseKey fl.1 acc.1 := by
        simp [migrateStep, hfk, hsh]
      rw [he]
      intro kv hkv
      exact h kv (mem_eraseKey hkv).1
    | none =>
      have he : (migrateStep acc fl).1 = insertKey fl.1 val (eraseKey fl.1 acc.1) := by
        simp [migrateStep, hfk, hsh]
      rw [he]
      intro kv hkv
      rcases mem_insertKey hkv with hkv | hkv
      · subst hkv
        exact h (fl.1, val) (findKey_mem hfk)
      · exact h kv (mem_eraseKey hkv).1

theorem migrateScan_vals (p : JObj → Bool) (f : Nat)
    (fields : List (String × String)) : ∀ (acc : JObj × List String),
    (∀ kv ∈ acc.1, visitedOkB p f kv.2 = true) →
    ∀ kv ∈ (migrateScan fields acc).1, visitedOkB p f kv.2 = true := by
  induction fields with
  | nil => intro acc h; exact h
  | cons fl tl ih =>
    intro acc h
    exact ih (migrateStep acc fl) (migrateStep_vals p f acc fl h)

theorem applyHints_vals (p : JObj → Bool) (f : Nat) (hints : List String) (m : JObj)
    (h : ∀ kv ∈ m, visitedOkB p f kv.2 = true) :
    ∀ kv ∈ applyHints hints m, visitedOkB p f kv.2 = true := by
  by_cases hh : hints.isEmpty = true
  · have he : applyHints hints m = m := by simp [applyHints, hh]
    rw [he]
    exact h
  · have hh' : hints.isEmpty = false := by
      cases h2 : hints.isEmpty
      · rfl
      · exact absurd h2 hh
    cases hd : findKey "description" m with
    | none =>
      have he : applyHints hints m =
          insertKey "description" (.str (constraintSuffix hints)) m := by
        simp [applyHints, hh', hd]
      rw [he]
      intro kv hkv
      rcases mem_insertKey hkv with hkv | hkv
      · subst hkv
        exact visitedOkB_str p f _
      · exact h kv hkv
    | some w =>
      cases w with
      | str s =>
        have he : applyHints hints m =
            insertKey "description" (.str (s ++ constraintSuffix hints)) m := by
          simp [applyHints, hh', hd]
        rw [he]
        intro kv hkv
        rcases mem_insertKey hkv with hkv | hkv
        · subst hkv
          exact visitedOkB_str p f _
        · exact h kv hkv
      | null =>
        have he : applyHints hints m = m := by simp [applyHints, hh', hd]
        rw [he]; exact h
      | bool x =>
        have he : applyHints hints m = m := by simp [applyHints, hh', hd]
        rw [he]; exact h
      | num x =>
        have he : applyHints hints m = m := by simp [applyHints, hh', hd]
        rw [he]; exact h
      | arr x =>
        have he : applyHints hints m = m := by simp [applyHints, hh', hd]
        rw [he]; exact h
      | obj x =>
        have he : applyHints hints m = m := by simp [applyHints, hh', hd]
        rw [he]; exact h

theorem migrate_vals (p : JObj → Bool) (f : Nat) (m : JObj)
    (h : ∀ kv ∈ m, visitedOkB p f kv.2 = true) :
    ∀ kv ∈ migrateConstraints m, visitedOkB p f kv.2 = true := by
  unfold migrateConstraints
  exact applyHints_vals p f _ _ (migrateScan_vals p f validationFields (m, []) h)

theorem unionAssign_vals (p : JObj → Bool) (f : Nat) (key : String) (m : JObj)
    (h : ∀ kv ∈ m, visitedOkB p f kv.2 = true) :
    ∀ kv ∈ unionAssign key m, visitedOkB p f kv.2 = true := by
  cases hfk : findKey key m with
  | none =>
    have he : unionAssign key m = m := by simp [unionAssign, hfk]
    rw [he]; exact h
  | some w =>
    cases w with
    | arr l =>
      cases hx : extractTypeFromUnion l with
      | none =>
        have he : unionAssign key m = m := by simp [unionAssign, hfk, hx]
        rw [he]; exact h
      | some t =>
        have he : unionAssign key m = insertKey "type" (.str t) m := by
          simp [unionAssign, hfk, hx]
        rw [he]
        intro kv hkv
        rcases mem_insertKey hkv with hkv | hkv
        · subst hkv
          exact visitedOkB_str p f _
        · exact h kv hkv
    | null =>
      have he : unionAssign key m = m := by simp [unionAssign, hfk]
      rw [he]; exact h
    | bool x =>
      have he : unionAssign key m = m := by simp [unionAssign, hfk]
      rw [he]; exact h
    | num x =>
      have he : unionAssign key m = m := by simp [unionAssign, hfk]
      rw [he]; exact h
    | str x =>
      have he : unionAssign key m = m := by simp [unionAssign, hfk]
      rw [he]; exact h
    | obj x =>
      have he : unionAssign key m = m := by simp [unionAssign, hfk]
      rw [he]; exact h

theorem resolveUnion_vals (p : JObj → Bool) (f : Nat) (m : JObj)
    (h : ∀ kv ∈ m, visitedOkB p f kv.2 = true) :
    ∀ kv ∈ resolveUnion m, visitedOkB p f kv.2 = true := by
  by_cases h1 : (findKey "type" m).isNone = true
  · by_cases h2 : (findKey "type" (unionAssign "anyOf" m)).isNone = true
    · have he : resolveUnion m = unionAssign "oneOf" (unionAssign "anyOf" m) := by
        simp [resolveUnion, h1, h2]
      rw [he]
      exact unionAssign_vals p f _ _ (unionAssign_vals p f _ _ h)
    · have he : resolveUnion m = unionAssign "anyOf" m := by
        simp [resolveUnion, h1, h2]
      rw [he]
      exact unionAssign_vals p f _ _ h
  · have he : resolveUnion m = m := by simp [resolveUnion, h1]
    rw [he]
    exact h

theorem eraseFold_vals (p : JObj → Bool) (f : Nat) (fs : List String) :
    ∀ m : JObj, (∀ kv ∈ m, visitedOkB p f kv.2 = true) →
    ∀ kv ∈ fs.foldl (fun a g => eraseKey g a) m, visitedOkB p f kv.2 = true := by
  induction fs with
  | nil => intro m h; exact h
  | cons g tl ih =>
    intro m h
    exact ih (eraseKey g m) (fun kv hkv => h kv (mem_eraseKey hkv).1)

theorem hardRemove_vals (p : JObj → Bool) (f : Nat) (m : JObj)
    (h : ∀ kv ∈ m, visitedOkB p f kv.2 = true) :
    ∀ kv ∈ hardRemoveStep m, visitedOkB p f kv.2 = true :=
  eraseFold_vals p f hardRemoveFields m h

theorem placeholderStep_vals (p : JObj → Bool) (f : Nat) (m : JObj)
    (hreason : p reasonProp = true)
    (hwrap : p [("reason", .obj reasonProp)] = true)
    (h : ∀ kv ∈ m, visitedOkB p f kv.2 = true) :
    ∀ kv ∈ placeholderStep m, visitedOkB p f kv.2 = true := by
  cases ht : findKey "type" m with
  | none =>
    have he : placeholderStep m = m := by simp [placeholderStep, ht]
    rw [he]; exact h
  | some w =>
    cases w with
    | str t =>
      by_cases hobj : t = "object"
      · cases hne : hasNonEmptyProps m with
        | true =>
          have he : placeholderStep m = m := by simp [placeholderStep, ht, hobj, hne]
          rw [he]; exact h
        | false =>
          have he : placeholderStep m =
              insertKey "required" (.arr [.str "reason"])
                (insertKey "properties" (.obj [("reason", .obj reasonProp)]) m) := by
            simp [placeholderStep, ht, hobj, hne]
          rw [he]
          intro kv hkv
          rcases mem_insertKey hkv with hkv | hkv
          · subst hkv
            exact visitedOkB_arr_of_str p f _ (by
              intro x hx
              rcases List.mem_singleton.mp hx with h
              exact ⟨"reason", h⟩)
          · rcases mem_insertKey hkv with hkv | hkv
            · subst hkv
              exact visitedOk_reasonWrap p hreason hwrap f
            · exact h kv hkv
      · have he : placeholderStep m = m := by simp [placeholderStep, ht, hobj]
        rw [he]; exact h
    | null =>
      have he : placeholderStep m = m := by simp [placeholderStep, ht]
      rw [he]; exact h
    | bool x =>
      have he : placeholderStep m = m := by simp [placeholderStep, ht]
      rw [he]; exact h
    | num x =>
      have he : placeholderStep m = m := by simp [placeholderStep, ht]
      rw [he]; exact h
    | arr x =>
      have he : placeholderStep m = m := by simp [placeholderStep, ht]
      rw [he]; exact h
    | obj x =>
      have he : placeholderStep m = m := by simp [placeholderStep, ht]
      rw [he]; exact h

theorem filterRequired_sub (vk : Option (List String)) (req : List JValue) :
    ∀ x ∈ filterRequired vk req, x ∈ req := by
  cases vk with
  | none => intro x hx; exact absurd hx (List.not_mem_nil x)
  | some keys =>
    intro x hx
    exact (List.mem_filter.mp hx).1

theorem requiredFilterStep_vals (p : JObj → Bool) (f : Nat) (m : JObj)
    (h : ∀ kv ∈ m, visitedOkB p f kv.2 = true) :
    ∀ kv ∈ requiredFilterStep m, visitedOkB p f kv.2 = true := by
  cases hr : findKey "required" m with
  | none =>
    have he : requiredFilterStep m = m := by simp [requiredFilterStep, hr]
    rw [he]; exact h
  | some w =>
    cases w with
    | arr req =>
      have he : requiredFilterStep m =
          insertKey "required" (.arr (filterRequired (validPropKeys m) req)) m := by
        simp [requiredFilterStep, hr]
      rw [he]
      intro kv hkv
      rcases mem_insertKey hkv with hkv | hkv
      · subst hkv
        exact visitedOkB_arr_sub p f (h ("required", .arr req) (findKey_mem hr))
          (filterRequired_sub _ _)
      · exact h kv hkv
    | null =>
      have he : requiredFilterStep m = m := by simp [requiredFilterStep, hr]
      rw [he]; exact h
    | bool x =>
      have he : requiredFilterStep m = m := by simp [requiredFilterStep, hr]
      rw [he]; exact h
    | num x =>
      have he : requiredFilterStep m = m := by simp [requiredFilterStep, hr]
      rw [he]; exact h
    | str x =>
      have he : requiredFilterStep m = m := by simp [requiredFilterStep, hr]
      rw [he]; exact h
    | obj x =>
      have he : requiredFilterStep m = m := by simp [requiredFilterStep, hr]
      rw [he]; exact h

theorem typeStep_vals (p : JObj → Bool) (f : Nat) (m : JObj)
    (h : ∀ kv ∈ m, visitedOkB p f kv.2 = true) :
    ∀ kv ∈ (typeStep m).1, visitedOkB p f kv.2 = true := by
  cases ht : findKey "type" m with
  | none =>
    have he : (typeStep m).1 = m := by simp [typeStep, ht]
    rw [he]; exact h
  | some w =>
    cases w with
    | str s =>
      have he : (typeStep m).1 = insertKey "type" (.str (lowerStr s)) m := by
        simp [typeStep, ht]
      rw [he]
      intro kv hkv
      rcases mem_insertKey hkv with hkv | hkv
      · subst hkv
        exact visitedOkB_str p f _
      · exact h kv hkv
    | arr items =>
      have he : (typeStep m).1 =
          insertKey "type" (.str (selectFromTypeArray items).1) m := by
        simp [typeStep, ht]
      rw [he]
      intro kv hkv
      rcases mem_insertKey hkv with hkv | hkv
      · subst hkv
        exact visitedOkB_str p f _
      · exact h kv hkv
    | null =>
      have he : (typeStep m).1 = m := by simp [typeStep, ht]
      rw [he]; exact h
    | bool x =>
      have he : (typeStep m).1 = m := by simp [typeStep, ht]
      rw [he]; exact h
    | num x =>
      have he : (typeStep m).1 = m := by simp [typeStep, ht]
      rw [he]; exact h
    | obj x =>
      have he : (typeStep m).1 = m := by simp [typeStep, ht]
      rw [he]; exact h

theorem nullableDescStep_vals (p : JObj → Bool) (f : Nat) (b : Bool) (m : JObj)
    (h : ∀ kv ∈ m, visitedOkB p f kv.2 = true) :
    ∀ kv ∈ nullableDescStep b m, visitedOkB p f kv.2 = true := by
  cases b with
  | false =>
    have he : nullableDescStep false m = m := by simp [nullableDescStep]
    rw [he]; exact h
  | true =>
    cases hd : findKey "description" m with
    | none =>
      have he : nullableDescStep true m =
          insertKey "description" (.str "(nullable)") m := by
        simp [nullableDescStep, hd]
      rw [he]
      intro kv hkv
      rcases mem_insertKey hkv with hkv | hkv
      · subst hkv
        exact visitedOkB_str p f _
      · exact h kv hkv
    | some w =>
      cases w with
      | str s =>
        by_cases hc : strContains s "nullable" = true
        · have he : nullableDescStep true m = m := by simp [nullableDescStep, hd, hc]
          rw [he]; exact h
        · by_cases hem : s.data.isEmpty = true
          · have he : nullableDescStep true m =
                insertKey "description" (.str "(nullable)") m := by
              simp [nullableDescStep, hd, hc, hem]
            rw [he]
            intro kv hkv
            rcases mem_insertKey hkv with hkv | hkv
            · subst hkv
              exact visitedOkB_str p f _
            · exact h kv hkv
          · have he : nullableDescStep true m =
                insertKey "description" (.str (s ++ " (nullable)")) m := by
              simp [nullableDescStep, hd, hc, hem]
            rw [he]
            intro kv hkv
            rcases mem_insertKey hkv with hkv | hkv
            · subst hkv
              exact visitedOkB_str p f _
            · exact h kv hkv
      | null =>
        have he : nullableDescStep true m = m := by simp [nullableDescStep, hd]
        rw [he]; exact h
      | bool x =>
        have he : nullableDescStep true m = m := by simp [nullableDescStep, hd]
        rw [he]; exact h
      | num x =>
        have he : nullableDescStep true m = m := by simp [nullableDescStep, hd]
        rw [he]; exact h
      | arr x =>
        have he : nullableDescStep true m = m := by simp [nullableDescStep, hd]
        rw [he]; exact h
      | obj x =>
        have he : nullableDescStep true m = m := by simp [nullableDescStep, hd]
        rw [he]; exact h

theorem enumElemToString_shape (fu : Nat) (v : JValue) :
    ∃ s, enumElemToString fu v = .str s := by
  cases v <;> exact ⟨_, rfl⟩

theorem enumStep_vals (p : JObj → Bool) (f fu : Nat) (m : JObj)
    (h : ∀ kv ∈ m, visitedOkB p f kv.2 = true) :
    ∀ kv ∈ enumStep fu m, visitedOkB p f kv.2 = true := by
  cases he' : findKey "enum" m with
  | none =>
    have he : enumStep fu m = m := by simp [enumStep, he']
    rw [he]; exact h
  | some w =>
    cases w with
    | arr items =>
      have he : enumStep fu m =
          insertKey "enum" (.arr (items.map (enumElemToString fu))) m := by
        simp [enumStep, he']
      rw [he]
      intro kv hkv
      rcases mem_insertKey hkv with hkv | hkv
      · subst hkv
        refine visitedOkB_arr_of_str p f _ ?_
        intro x hx
        obtain ⟨y, _, hy⟩ := List.mem_map.mp hx
        obtain ⟨s, hs⟩ := enumElemToString_shape fu y
        exact ⟨s, by rw [← hy, hs]⟩
      · exact h kv hkv
    | null =>
      have he : enumStep fu m = m := by simp [enumStep, he']
      rw [he]; exact h
    | bool x =>
      have he : enumStep fu m = m := by simp [enumStep, he']
      rw [he]; exact h
    | num x =>
      have he : enumStep fu m = m := by simp [enumStep, he']
      rw [he]; exact h
    | str x =>
      have he : enumStep fu m = m := by simp [enumStep, he']
      rw [he]; exact h
    | obj x =>
      have he : enumStep fu m = m := by simp [enumStep, he']
      rw [he]; exact h

theorem finishNode_vals (p : JObj → Bool) (f : Nat) (m2 : JObj)
    (hreason : p reasonProp = true)
    (hwrap : p [("reason", .obj reasonProp)] = true)
    (h : ∀ kv ∈ m2, visitedOkB p f kv.2 = true) :
    ∀ kv ∈ (finishNode f m2).1, visitedOkB p f kv.2 = true := by
  have h1 := migrate_vals p f m2 h
  have h2 := resolveUnion_vals p f (migrateConstraints m2) h1
  have h3 := hardRemove_vals p f (resolveUnion (migrateConstraints m2)) h2
  have h4 := placeholderStep_vals p f
    (hardRemoveStep (resolveUnion (migrateConstraints m2))) hreason hwrap h3
  have h5 := requiredFilterStep_vals p f
    (placeholderStep (hardRemoveStep (resolveUnion (migrateConstraints m2)))) h4
  have h6 := typeStep_vals p f
    (requiredFilterStep (placeholderStep (hardRemoveStep
      (resolveUnion (migrateConstraints m2))))) h5
  have h7 := nullableDescStep_vals p f
    (typeStep (requiredFilterStep (placeholderStep (hardRemoveStep
      (resolveUnion (migrateConstraints m2)))))).2
    (typeStep (requiredFilterStep (placeholderStep (hardRemoveStep
      (resolveUnion (migrateConstraints m2)))))).1 h6
  have hfe : (finishNode f m2).1 =
      enumStep f
        (nullableDescStep
          (typeStep (requiredFilterStep (placeholderStep (hardRemoveStep
            (resolveUnion (migrateConstraints m2)))))).2
          (typeStep (requiredFilterStep (placeholderStep (hardRemoveStep
            (resolveUnion (migrateConstraints m2)))))).1) := by
    simp only [finishNode]
  rw [hfe]
  exact enumStep_vals p f f
    (nullableDescStep
      (typeStep (requiredFilterStep (placeholderStep (hardRemoveStep
        (resolveUnion (migrateConstraints m2)))))).2
      (typeStep (requiredFilterStep (placeholderStep (hardRemoveStep
        (resolveUnion (migrateConstraints m2)))))).1) h7

theorem placeholder_props_cases (m5 : JObj) :
    findKey "properties" (placeholderStep m5) = findKey "properties" m5 ∨
    findKey "properties" (placeholderStep m5) =
      some (.obj [("reason", .obj reasonProp)]) := by
  cases ht : findKey "type" m5 with
  | none =>
    left
    have he : placeholderStep m5 = m5 := by simp [placeholderStep, ht]
    rw [he]
  | some w =>
    cases w with
    | str t =>
      by_cases hobj : t = "object"
      · cases hne : hasNonEmptyProps m5 with
        | true =>
          left
          have he : placeholderStep m5 = m5 := by simp [placeholderStep, ht, hobj, hne]
          rw [he]
        | false =>
          right
          have he : placeholderStep m5 =
              insertKey "required" (.arr [.str "reason"])
                (insertKey "properties" (.obj [("reason", .obj reasonProp)]) m5) := by
            simp [placeholderStep, ht, hobj, hne]
          rw [he, findKey_insertKey_ne _ _ _ _ (by decide), findKey_insertKey_self]
      · left
        have he : placeholderStep m5 = m5 := by simp [placeholderStep, ht, hobj]
        rw [he]
    | null =>
      left
      have he : placeholderStep m5 = m5 := by simp [placeholderStep, ht]
      rw [he]
    | bool x =>
      left
      have he : placeholderStep m5 = m5 := by simp [placeholderStep, ht]
      rw [he]
    | num x =>
      left
      have he : placeholderStep m5 = m5 := by simp [placeholderStep, ht]
      rw [he]
    | arr x =>
      left
      have he : placeholderStep m5 = m5 := by simp [placeholderStep, ht]
      rw [he]
    | obj x =>
      left
      have he : placeholderStep m5 = m5 := by simp [placeholderStep, ht]
      rw [he]

theorem finishNode_props_cases (f : Nat) (m2 : JObj) :
    findKey "properties" (finishNode f m2).1 = findKey "properties" m2 ∨
    findKey "properties" (finishNode f m2).1 =
      some (.obj [("reason", .obj reasonProp)]) := by
  have hchain : findKey "properties" (finishNode f m2).1 =
      findKey "properties" (placeholderStep (hardRemoveStep
        (resolveUnion (migrateConstraints m2)))) := by
    have hfe : (finishNode f m2).1 =
        enumStep f
          (nullableDescStep
            (typeStep (requiredFilterStep (placeholderStep (hardRemoveStep
              (resolveUnion (migrateConstraints m2)))))).2
            (typeStep (requiredFilterStep (placeholderStep (hardRemoveStep
              (resolveUnion (migrateConstraints m2)))))).1) := by
      simp only [finishNode]
    rw [hfe, findKey_enumStep_ne _ _ (by decide), findKey_nullableDesc_ne _ _ (by decide),
      findKey_typeStep_ne _ (by decide), findKey_requiredFilter_ne _ (by decide)]
  have hm5 : findKey "properties" (hardRemoveStep (resolveUnion (migrateConstraints m2))) =
      findKey "properties" m2 := by
    rw [findKey_hardRemove_ne _ (by decide), findKey_resolveUnion_ne _ (by decide),
      findKey_migrate_ne _ (by decide) (by decide)]
  rcases placeholder_props_cases (hardRemoveStep (resolveUnion (migrateConstraints m2)))
    with hc | hc
  · left
    rw [hchain, hc, hm5]
  · right
    rw [hchain, hc]

theorem cleanFuel_shape_not_obj (f : Nat) (w : JValue) (h : ∀ q, w ≠ .obj q) :
    ∀ q, (cleanFuel f w).1 ≠ .obj q := by
  cases f with
  | zero => exact h
  | succ n =>
    cases w with
    | obj m => exact absurd rfl (h m)
    | null => intro q hq; cases hq
    | bool x => intro q hq; cases hq
    | num x => intro q hq; cases hq
    | str x => intro q hq; cases hq
    | arr xs => intro q hq; cases hq

theorem visitedOkB_obj_props (p : JObj → Bool) (f : Nat) (m props : JObj)
    (hp' : p m = true)
    (hpp : findKey "properties" m = some (.obj props))
    (hprops : ∀ kv ∈ props, visitedOkB p f kv.2 = true) :
    visitedOkB p (f + 1) (.obj m) = true := by
  rw [visitedOkB_obj, hp', Bool.true_and]
  have hm : (match findKey "properties" m with
      | some (.obj pr) => pr.all (fun kv => visitedOkB p f kv.2)
      | _ => m.all (fun kv => visitedOkB p f kv.2)) =
      props.all (fun kv => visitedOkB p f kv.2) := by
    split
    · rename_i pr heq
      rw [hpp] at heq
      cases heq
      rfl
    · rename_i hne
      exact absurd hpp (hne _)
  rw [hm, List.all_eq_true]
  exact hprops

theorem visitedOkB_obj_else (p : JObj → Bool) (f : Nat) (m : JObj)
    (hp' : p m = true)
    (hnz : ∀ q, findKey "properties" m ≠ some (.obj q))
    (hchild : ∀ kv ∈ m, visitedOkB p f kv.2 = true) :
    visitedOkB p (f + 1) (.obj m) = true := by
  rw [visitedOkB_obj, hp', Bool.true_and]
  have hm : (match findKey "properties" m with
      | some (.obj pr) => pr.all (fun kv => visitedOkB p f kv.2)
      | _ => m.all (fun kv => visitedOkB p f kv.2)) =
      m.all (fun kv => visitedOkB p f kv.2) := by
    split
    · rename_i pr heq
      exact absurd heq (hnz pr)
    · rfl
  rw [hm, List.all_eq_true]
  exact hchild

theorem visited_obj_else_main (p : JObj → Bool) (f : Nat)
    (hreason : p reasonProp = true)
    (hwrap : p [("reason", .obj reasonProp)] = true)
    (hfin : ∀ g m2, p (finishNode g m2).1 = true) (m : JObj)
    (hstep : childStage f (mergeAllOf m) =
      (mergeAllOf m).map (fun kv => (kv.1, (cleanFuel f kv.2).1)))
    (hnz : ∀ q, findKey "properties" (childStage f (mergeAllOf m)) ≠ some (.obj q))
    (ih : ∀ y, visitedOkB p f (cleanFuel f y).1 = true) :
    visitedOkB p (f + 1) (.obj (finishNode f (childStage f (mergeAllOf m))).1) = true := by
  have hm2v : ∀ kv ∈ childStage f (mergeAllOf m), visitedOkB p f kv.2 = true := by
    rw [hstep]
    intro kv hkv
    obtain ⟨y, hy, hxy⟩ := List.mem_map.mp hkv
    rw [← hxy]
    exact ih y.2
  have hvout := finishNode_vals p f _ hreason hwrap hm2v
  rcases finishNode_props_cases f (childStage f (mergeAllOf m)) with hfp | hfp
  · refine visitedOkB_obj_else p f _ (hfin f _) ?_ hvout
    rw [hfp]
    exact hnz
  · refine visitedOkB_obj_props p f _ _ (hfin f _) hfp ?_
    intro kv hkv
    rw [List.mem_singleton.mp hkv]
    exact visitedOk_reason p hreason f

theorem findKey_map_clean (f : Nat) (k : String) (m : JObj) :
    findKey k (m.map (fun kv => (kv.1, (cleanFuel f kv.2).1))) =
      (findKey k m).map (fun v => (cleanFuel f v).1) :=
  findKey_map_values k (fun v => (cleanFuel f v).1) m

/-- The traversal invariant: if `p` holds at every node the per-node pass
produces (and at the synthetic placeholder objects), then after
`clean_json_schema_recursive` every visited object node satisfies `p`. -/
theorem visitedOkB_cleanFuel (p : JObj → Bool)
    (hreason : p reasonProp = true)
    (hwrap : p [("reason", .obj reasonProp)] = true)
    (hfin : ∀ g m2, p (finishNode g m2).1 = true) :
    ∀ fuel v, visitedOkB p fuel (cleanFuel fuel v).1 = true := by
  intro fuel
  induction fuel with
  | zero => intro v; rfl
  | succ f ih =>
    intro v
    cases v with
    | null => rfl
    | bool b => rfl
    | num n => rfl
    | str s => rfl
    | arr xs =>
      rw [cleanFuel_arr_eq]
      show visitedOkB p (f + 1) (.arr (xs.map (fun x => (cleanFuel f x).1))) = true
      rw [visitedOkB_arr, List.all_eq_true]
      intro x hx
      obtain ⟨y, hy, hxy⟩ := List.mem_map.mp hx
      rw [← hxy]
      exact ih y
    | obj m =>
      rw [cleanFuel_obj_eq]
      show visitedOkB p (f + 1)
        (.obj (finishNode f (childStage f (mergeAllOf m))).1) = true
      cases hp : findKey "properties" (mergeAllOf m) with
      | none =>
        have hstep : childStage f (mergeAllOf m) =
            (mergeAllOf m).map (fun kv => (kv.1, (cleanFuel f kv.2).1)) := by
          simp [childStage, hp]
        refine visited_obj_else_main p f hreason hwrap hfin m hstep ?_ ih
        intro q hq
        rw [hstep, findKey_map_clean, hp] at hq
        exact Option.noConfusion hq
      | some w =>
        cases w with
        | obj props =>
          have hstep : childStage f (mergeAllOf m) =
              retractRequired
                (nullableKeysOf (props.map (fun kv => (kv.1, cleanFuel f kv.2))))
                (insertKey "properties"
                  (.obj ((props.map (fun kv => (kv.1, cleanFuel f kv.2))).map
                    (fun kv => (kv.1, kv.2.1)))) (mergeAllOf m)) := by
            simp [childStage, hp]
          have hcs : findKey "properties" (childStage f (mergeAllOf m)) =
              some (.obj ((props.map (fun kv => (kv.1, cleanFuel f kv.2))).map
                (fun kv => (kv.1, kv.2.1)))) := by
            rw [hstep, findKey_retractRequired_ne _ _ (by decide), findKey_insertKey_self]
          rcases finishNode_props_cases f (childStage f (mergeAllOf m)) with hfp | hfp
          · refine visitedOkB_obj_props p f _ _ (hfin f _) (hfp.trans hcs) ?_
            intro kv hkv
            rw [List.map_map] at hkv
            obtain ⟨y, hy, hxy⟩ := List.mem_map.mp hkv
            rw [← hxy]
            exact ih y.2
          · refine visitedOkB_obj_props p f _ _ (hfin f _) hfp ?_
            intro kv hkv
            rw [List.mem_singleton.mp hkv]
            exact visitedOk_reason p hreason f
        | null =>
          have hstep : childStage f (mergeAllOf m) =
              (mergeAllOf m).map (fun kv => (kv.1, (cleanFuel f kv.2).1)) := by
            simp [childStage, hp]
          refine visited_obj_else_main p f hreason hwrap hfin m hstep ?_ ih
          intro q hq
          rw [hstep, findKey_map_clean, hp, Option.map_some'] at hq
          exact cleanFuel_shape_not_obj f JValue.null (fun r hr => JValue.noConfusion hr) q
            (Option.some.inj hq)
        | bool x =>
          have hstep : childStage f (mergeAllOf m) =
              (mergeAllOf m).map (fun kv => (kv.1, (cleanFuel f kv.2).1)) := by
            simp [childStage, hp]
          refine visited_obj_else_main p f hreason hwrap hfin m hstep ?_ ih
          intro q hq
          rw [hstep, findKey_map_clean, hp, Option.map_some'] at hq
          exact cleanFuel_shape_not_obj f (JValue.bool x) (fun r hr => JValue.noConfusion hr) q
            (Option.some.inj hq)
        | num x =>
          have hstep : childStage f (mergeAllOf m) =
              (mergeAllOf m).map (fun kv => (kv.1, (cleanFuel f kv.2).1)) := by
            simp [childStage, hp]
          refine visited_obj_else_main p f hreason hwrap hfin m hstep ?_ ih
          intro q hq
          rw [hstep, findKey_map_clean, hp, Option.map_some'] at hq
          exact cleanFuel_shape_not_obj f (JValue.num x) (fun r hr => JValue.noConfusion hr) q
            (Option.some.inj hq)
        | str x =>
          have hstep : childStage f (mergeAllOf m) =
              (mergeAllOf m).map (fun kv => (kv.1, (cleanFuel f kv.2).1)) := by
            simp [childStage, hp]
          refine visited_obj_else_main p f hreason hwrap hfin m hstep ?_ ih
          intro q hq
          rw [hstep, findKey_map_clean, hp, Option.map_some'] at hq
          exact cleanFuel_shape_not_obj f (JValue.str x) (fun r hr => JValue.noConfusion hr) q
            (Option.some.inj hq)
        | arr xs =>
          have hstep : childStage f (mergeAllOf m) =
              (mergeAllOf m).map (fun kv => (kv.1, (cleanFuel f kv.2).1)) := by
            simp [childStage, hp]
          refine visited_obj_else_main p f hreason hwrap hfin m hstep ?_ ih
          intro q hq
          rw [hstep, findKey_map_clean, hp, Option.map_some'] at hq
          exact cleanFuel_shape_not_obj f (.arr xs) (fun r hr => JValue.noConfusion hr) q
            (Option.some.inj hq)

theorem mem_eraseFold {kv : String × JValue} (fs : List String) :
    ∀ {m : JObj}, kv ∈ fs.foldl (fun a g => eraseKey g a) m → kv ∈ m ∧ ¬ kv.1 ∈ fs := by
  induction fs with
  | nil => intro m h; exact ⟨h, List.not_mem_nil _⟩
  | cons g tl ih =>
    intro m h
    obtain ⟨h1, h2⟩ := ih h
    obtain ⟨h3, h4⟩ := mem_eraseKey h1
    refine ⟨h3, ?_⟩
    intro hc
    rcases List.mem_cons.mp hc with hc | hc
    · exact h4 hc
    · exact h2 hc

theorem placeholder_cases (m : JObj) :
    placeholderStep m = m ∨
    placeholderStep m = insertKey "required" (.arr [.str "reason"])
      (insertKey "properties" (.obj [("reason", .obj reasonProp)]) m) := by
  cases ht : findKey "type" m with
  | none => left; simp [placeholderStep, ht]
  | some w =>
    cases w with
    | str t =>
      by_cases hobj : t = "object"
      · cases hne : hasNonEmptyProps m with
        | true => left; simp [placeholderStep, ht, hobj, hne]
        | false => right; simp [placeholderStep, ht, hobj, hne]
      · left; simp [placeholderStep, ht, hobj]
    | null => left; simp [placeholderStep, ht]
    | bool x => left; simp [placeholderStep, ht]
    | num x => left; simp [placeholderStep, ht]
    | arr x => left; simp [placeholderStep, ht]
    | obj x => left; simp [placeholderStep, ht]

theorem requiredFilter_cases (m : JObj) :
    requiredFilterStep m = m ∨ ∃ v, requiredFilterStep m = insertKey "required" v m := by
  cases hr : findKey "required" m with
  | none => left; simp [requiredFilterStep, hr]
  | some w =>
    cases w with
    | arr req =>
      right
      exact ⟨.arr (filterRequired (validPropKeys m) req), by simp [requiredFilterStep, hr]⟩
    | null => left; simp [requiredFilterStep, hr]
    | bool x => left; simp [requiredFilterStep, hr]
    | num x => left; simp [requiredFilterStep, hr]
    | str x => left; simp [requiredFilterStep, hr]
    | obj x => left; simp [requiredFilterStep, hr]

theorem typeStep_cases (m : JObj) :
    (typeStep m).1 = m ∨ ∃ v, (typeStep m).1 = insertKey "type" v m := by
  cases ht : findKey "type" m with
  | none => left; simp [typeStep, ht]
  | some w =>
    cases w with
    | str s => right; exact ⟨.str (lowerStr s), by simp [typeStep, ht]⟩
    | arr items => right; exact ⟨.str (selectFromTypeArray items).1, by simp [typeStep, ht]⟩
    | null => left; simp [typeStep, ht]
    | bool x => left; simp [typeStep, ht]
    | num x => left; simp [typeStep, ht]
    | obj x => left; simp [typeStep, ht]

theorem nullableDesc_cases (b : Bool) (m : JObj) :
    nullableDescStep b m = m ∨ ∃ v, nullableDescStep b m = insertKey "description" v m := by
  cases b with
  | false => left; simp [nullableDescStep]
  | true =>
    cases hd : findKey "description" m with
    | none => right; exact ⟨.str "(nullable)", by simp [nullableDescStep, hd]⟩
    | some w =>
      cases w with
      | str s =>
        by_cases hc : strContains s "nullable" = true
        · left; simp [nullableDescStep, hd, hc]
        · by_cases hem : s.data.isEmpty = true
          · right; exact ⟨.str "(nullable)", by simp [nullableDescStep, hd, hc, hem]⟩
          · right
            exact ⟨.str (s ++ " (nullable)"), by simp [nullableDescStep, hd, hc, hem]⟩
      | null => left; simp [nullableDescStep, hd]
      | bool x => left; simp [nullableDescStep, hd]
      | num x => left; simp [nullableDescStep, hd]
      | arr x => left; simp [nullableDescStep, hd]
      | obj x => left; simp [nullableDescStep, hd]

theorem enumStep_cases (fu : Nat) (m : JObj) :
    enumStep fu m = m ∨ ∃ v, enumStep fu m = insertKey "enum" v m := by
  cases he : findKey "enum" m with
  | none => left; simp [enumStep, he]
  | some w =>
    cases w with
    | arr items => right; exact ⟨.arr (items.map (enumElemToString fu)), by simp [enumStep, he]⟩
    | null => left; simp [enumStep, he]
    | bool x => left; simp [enumStep, he]
    | num x => left; simp [enumStep, he]
    | str x => left; simp [enumStep, he]
    | obj x => left; simp [enumStep, he]

theorem mem_placeholderStep {kv : String × JValue} {m : JObj}
    (h : kv ∈ placeholderStep m) : kv ∈ m ∨ kv.1 = "required" ∨ kv.1 = "properties" := by
  rcases placeholder_cases m with he | he
  · rw [he] at h
    exact Or.inl h
  · rw [he] at h
    rcases mem_insertKey h with h | h
    · right; left; rw [h]
    · rcases mem_insertKey h with h | h
      · right; right; rw [h]
      · exact Or.inl h

theorem mem_requiredFilterStep {kv : String × JValue} {m : JObj}
    (h : kv ∈ requiredFilterStep m) : kv ∈ m ∨ kv.1 = "required" := by
  rcases requiredFilter_cases m with he | ⟨req, he⟩
  · rw [he] at h
    exact Or.inl h
  · rw [he] at h
    rcases mem_insertKey h with h | h
    · right; rw [h]
    · exact Or.inl h

theorem mem_typeStep {kv : String × JValue} {m : JObj}
    (h : kv ∈ (typeStep m).1) : kv ∈ m ∨ kv.1 = "type" := by
  rcases typeStep_cases m with he | ⟨t, he⟩
  · rw [he] at h
    exact Or.inl h
  · rw [he] at h
    rcases mem_insertKey h with h | h
    · right; rw [h]
    · exact Or.inl h

theorem mem_nullableDescStep {kv : String × JValue} {b : Bool} {m : JObj}
    (h : kv ∈ nullableDescStep b m) : kv ∈ m ∨ kv.1 = "description" := by
  rcases nullableDesc_cases b m with he | ⟨s, he⟩
  · rw [he] at h
    exact Or.inl h
  · rw [he] at h
    rcases mem_insertKey h with h | h
    · right; rw [h]
    · exact Or.inl h

theorem mem_enumStep {kv : String × JValue} {fu : Nat} {m : JObj}
    (h : kv ∈ enumStep fu m) : kv ∈ m ∨ kv.1 = "enum" := by
  rcases enumStep_cases fu m with he | ⟨l, he⟩
  · rw [he] at h
    exact Or.inl h
  · rw [he] at h
    rcases mem_insertKey h with h | h
    · right; rw [h]
    · exact Or.inl h
theorem noHard_finish : ∀ f m2, noHardKeysB (finishNode f m2).1 = true := by
  intro f m2
  have hfe : (finishNode f m2).1 =
      enumStep f
        (nullableDescStep
          (typeStep (requiredFilterStep (placeholderStep (hardRemoveStep
            (resolveUnion (migrateConstraints m2)))))).2
          (typeStep (requiredFilterStep (placeholderStep (hardRemoveStep
            (resolveUnion (migrateConstraints m2)))))).1) := by
    simp only [finishNode]
  unfold noHardKeysB
  rw [List.all_eq_true]
  intro kv hkv
  rw [hfe] at hkv
  rcases mem_enumStep hkv with hkv | hk
  · rcases mem_nullableDescStep hkv with hkv | hk
    · rcases mem_typeStep hkv with hkv | hk
      · rcases mem_requiredFilterStep hkv with hkv | hk
        · rcases mem_placeholderStep hkv with hkv | hk | hk
          · have h2 := (mem_eraseFold hardRemoveFields hkv).2
            simp [h2]
          · rw [hk]; decide
          · rw [hk]; decide
        · rw [hk]; decide
      · rw [hk]; decide
    · rw [hk]; decide
  · rw [hk]; decide

/-- C1 (amended): after the pass, every object node the cleaner actually
visits — the root, array elements, and (properties-priority) the property
values of objects whose `properties` is an object, else all object values —
contains none of the 26 hard-removed keys; subtrees the properties-priority
traversal skips, and the `$ref`/validation keys outside the hard-remove
list, are not covered. -/
theorem C1_theorem :
    (∀ fuel v, visitedOkB noHardKeysB fuel (cleanFuel fuel v).1 = true) ∧
    (∀ v, visitedOkB noHardKeysB (rootFuelOf v) (cleanRoot v) = true) := by
  have h := visitedOkB_cleanFuel noHardKeysB (by decide) (by decide) noHard_finish
  refine ⟨h, ?_⟩
  intro v
  cases v with
  | obj m => exact h _ _
  | null => exact h _ _
  | bool b => exact h _ _
  | num n => exact h _ _
  | str s => exact h _ _
  | arr xs => exact h _ _
theorem reqConsistentB_congr (a b : JObj)
    (h1 : findKey "required" a = findKey "required" b)
    (h2 : findKey "properties" a = findKey "properties" b) :
    reqConsistentB a = reqConsistentB b := by
  unfold reqConsistentB validPropKeys
  rw [h1, h2]

theorem reqFilter_consistent (m6 : JObj) :
    reqConsistentB (requiredFilterStep m6) = true := by
  cases hr : findKey "required" m6 with
  | none =>
    have he : requiredFilterStep m6 = m6 := by simp [requiredFilterStep, hr]
    rw [he]
    simp [reqConsistentB, hr]
  | some w =>
    cases w with
    | arr req =>
      cases hvp : validPropKeys m6 with
      | some keys =>
        have he : requiredFilterStep m6 =
            insertKey "required" (.arr (req.filter (fun r =>
              match r with
              | .str s => keys.contains s
              | _ => false))) m6 := by
          simp [requiredFilterStep, hr, filterRequired, hvp]
        rw [he]
        have hv2 : validPropKeys (insertKey "required" (.arr (req.filter (fun r =>
            match r with
            | .str s => keys.contains s
            | _ => false))) m6) = some keys := by
          unfold validPropKeys
          unfold validPropKeys at hvp
          rw [findKey_insertKey_ne _ _ _ _ (by decide)]
          exact hvp
        unfold reqConsistentB
        rw [findKey_insertKey_self, hv2]
        show (req.filter (fun r =>
          match r with
          | .str s => keys.contains s
          | _ => false)).all (fun r =>
            match r with
            | .str s => keys.contains s
            | _ => false) = true
        rw [List.all_eq_true]
        intro x hx
        exact (List.mem_filter.mp hx).2
      | none =>
        have he : requiredFilterStep m6 = insertKey "required" (.arr []) m6 := by
          simp [requiredFilterStep, hr, filterRequired, hvp]
        rw [he]
        have hv2 : validPropKeys (insertKey "required" (.arr []) m6) = none := by
          unfold validPropKeys
          unfold validPropKeys at hvp
          rw [findKey_insertKey_ne _ _ _ _ (by decide)]
          exact hvp
        unfold reqConsistentB
        rw [findKey_insertKey_self, hv2]
        rfl
    | null =>
      have he : requiredFilterStep m6 = m6 := by simp [requiredFilterStep, hr]
      rw [he]
      simp [reqConsistentB, hr]
    | bool x =>
      have he : requiredFilterStep m6 = m6 := by simp [requiredFilterStep, hr]
      rw [he]
      simp [reqConsistentB, hr]
    | num x =>
      have he : requiredFilterStep m6 = m6 := by simp [requiredFilterStep, hr]
      rw [he]
      simp [reqConsistentB, hr]
    | str x =>
      have he : requiredFilterStep m6 = m6 := by simp [requiredFilterStep, hr]
      rw [he]
      simp [reqConsistentB, hr]
    | obj x =>
      have he : requiredFilterStep m6 = m6 := by simp [requiredFilterStep, hr]
      rw [he]
      simp [reqConsistentB, hr]

theorem reqConsistent_finish : ∀ f m2, reqConsistentB (finishNode f m2).1 = true := by
  intro f m2
  have hfe : (finishNode f m2).1 =
      enumStep f
        (nullableDescStep
          (typeStep (requiredFilterStep (placeholderStep (hardRemoveStep
            (resolveUnion (migrateConstraints m2)))))).2
          (typeStep (requiredFilterStep (placeholderStep (hardRemoveStep
            (resolveUnion (migrateConstraints m2)))))).1) := by
    simp only [finishNode]
  rw [hfe]
  have hc : reqConsistentB
      (enumStep f
        (nullableDescStep
          (typeStep (requiredFilterStep (placeholderStep (hardRemoveStep
            (resolveUnion (migrateConstraints m2)))))).2
          (typeStep (requiredFilterStep (placeholderStep (hardRemoveStep
            (resolveUnion (migrateConstraints m2)))))).1)) =
      reqConsistentB (requiredFilterStep (placeholderStep (hardRemoveStep
        (resolveUnion (migrateConstraints m2))))) := by
    apply reqConsistentB_congr
    · rw [findKey_enumStep_ne _ _ (by decide), findKey_nullableDesc_ne _ _ (by decide),
        findKey_typeStep_ne _ (by decide)]
    · rw [findKey_enumStep_ne _ _ (by decide), findKey_nullableDesc_ne _ _ (by decide),
        findKey_typeStep_ne _ (by decide)]
  rw [hc]
  exact reqFilter_consistent _


/-- C2 (amended): after the pass, every object node the cleaner actually
visits satisfies the required/properties consistency — when `required` is
an array its elements are strings naming keys of the node's `properties`
object, and without a `properties` object the array is empty; and for the
claim's scenario input the output `required` is exactly `["existing"]`.
Nodes the properties-priority traversal skips are not covered. -/
theorem C2_theorem :
    (∀ fuel v, visitedOkB reqConsistentB fuel (cleanFuel fuel v).1 = true) ∧
    (∀ v, visitedOkB reqConsistentB (rootFuelOf v) (cleanRoot v) = true) ∧
    getKey (cleanRoot c2scenario) "required" = some (.arr [.str "existing"]) := by
  have h := visitedOkB_cleanFuel reqConsistentB (by decide) (by decide)
    reqConsistent_finish
  refine ⟨h, ?_, ?_⟩
  · intro v
    cases v with
    | obj m => exact h _ _
    | null => exact h _ _
    | bool b => exact h _ _
    | num n => exact h _ _
    | str s => exact h _ _
    | arr xs => exact h _ _
  · rfl

/-! ## Normal forms and conditional idempotence (claim C4) -/

theorem charListLt_trans : ∀ a b c : List Char, charListLt a b = true →
    charListLt b c = true → charListLt a c = true := by
  intro a
  induction a with
  | nil =>
    intro b c hab hbc
    cases b with
    | nil => exact absurd hab (by simp [charListLt])
    | cons b1 bs =>
      cases c with
      | nil => exact absurd hbc (by simp [charListLt])
      | cons c1 cs => rfl
  | cons a1 as ih =>
    intro b c hab hbc
    cases b with
    | nil => exact absurd hab (by simp [charListLt])
    | cons b1 bs =>
      cases c with
      | nil => exact absurd hbc (by simp [charListLt])
      | cons c1 cs =>
        simp only [charListLt] at hab hbc ⊢
        by_cases h1 : a1.toNat < b1.toNat
        · by_cases h3 : b1.toNat < c1.toNat
          · rw [if_pos (Nat.lt_trans h1 h3)]
          · by_cases h4 : c1.toNat < b1.toNat
            · rw [if_neg h3, if_pos h4] at hbc
              exact absurd hbc (by simp)
            · rw [if_pos (by omega : a1.toNat < c1.toNat)]
        · by_cases h2 : b1.toNat < a1.toNat
          · rw [if_neg h1, if_pos h2] at hab
            exact absurd hab (by simp)
          · rw [if_neg h1, if_neg h2] at hab
            by_cases h3 : b1.toNat < c1.toNat
            · rw [if_pos (by omega : a1.toNat < c1.toNat)]
            · by_cases h4 : c1.toNat < b1.toNat
              · rw [if_neg h3, if_pos h4] at hbc
                exact absurd hbc (by simp)
              · rw [if_neg h3, if_neg h4] at hbc
                rw [if_neg (by omega : ¬ a1.toNat < c1.toNat),
                  if_neg (by omega : ¬ c1.toNat < a1.toNat)]
                exact ih bs cs hab hbc

theorem charListLt_asymm : ∀ a b : List Char, charListLt a b = true →
    charListLt b a = false := by
  intro a
  induction a with
  | nil =>
    intro b hab
    cases b with
    | nil => exact absurd hab (by simp [charListLt])
    | cons b1 bs => rfl
  | cons a1 as ih =>
    intro b hab
    cases b with
    | nil => exact absurd hab (by simp [charListLt])
    | cons b1 bs =>
      simp only [charListLt] at hab ⊢
      by_cases h1 : a1.toNat < b1.toNat
      · rw [if_neg (by omega : ¬ b1.toNat < a1.toNat), if_pos h1]
      · by_cases h2 : b1.toNat < a1.toNat
        · rw [if_neg h1, if_pos h2] at hab
          exact absurd hab (by simp)
        · rw [if_neg h1, if_neg h2] at hab
          rw [if_neg h2, if_neg h1]
          exact ih bs hab

theorem strLtB_trans {a b c : String} (h1 : strLtB a b = true)
    (h2 : strLtB b c = true) : strLtB a c = true :=
  charListLt_trans _ _ _ h1 h2

theorem strLtB_asymm {a b : String} (h : strLtB a b = true) :
    strLtB b a = false :=
  charListLt_asymm _ _ h
theorem bool_and_split {a b : Bool} (h : (a && b) = true) : a = true ∧ b = true := by
  cases a <;> cases b <;> simp_all

theorem sorted_tail {hd : String × JValue} {rest : JObj}
    (h : sortedKeysB (hd :: rest) = true) : sortedKeysB rest = true := by
  cases rest with
  | nil => rfl
  | cons hd2 rest2 =>
    obtain ⟨k1, v1⟩ := hd
    obtain ⟨k2, v2⟩ := hd2
    exact (bool_and_split h).2

theorem sorted_head_lt {k1 : String} {v1 : JValue} : ∀ {rest : JObj},
    sortedKeysB ((k1, v1) :: rest) = true → ∀ kv ∈ rest, strLtB k1 kv.1 = true := by
  intro rest
  induction rest generalizing k1 v1 with
  | nil => intro _ kv hkv; exact absurd hkv (List.not_mem_nil kv)
  | cons hd2 rest2 ih =>
    intro h kv hkv
    obtain ⟨k2, v2⟩ := hd2
    have h12 : strLtB k1 k2 = true := (bool_and_split h).1
    rcases List.mem_cons.mp hkv with hkv | hkv
    · rw [hkv]
      exact h12
    · exact strLtB_trans h12 (ih (bool_and_split h).2 kv hkv)

theorem insertKey_same : ∀ (m : JObj), sortedKeysB m = true →
    ∀ (k : String) (v : JValue), findKey k m = some v → insertKey k v m = m := by
  intro m
  induction m with
  | nil => intro _ k v h; cases h
  | cons hd rest ih =>
    intro hs k v hf
    obtain ⟨k', v'⟩ := hd
    by_cases hk : k' = k
    · subst hk
      have hv : v' = v := by
        rw [show findKey k' ((k', v') :: rest) = some v' by simp [findKey]] at hf
        exact (Option.some.inj hf)
      subst hv
      simp [insertKey, strLtB_irrefl]
    · have hf2 : findKey k rest = some v := by
        rw [show findKey k ((k', v') :: rest) = findKey k rest by
          simp [findKey, hk]] at hf
        exact hf
      have hmem : (k, v) ∈ rest := findKey_mem hf2
      have hlt : strLtB k' k = true := sorted_head_lt hs (k, v) hmem
      have hnlt : strLtB k k' = false := strLtB_asymm hlt
      have hne : ¬ (k = k') := fun he => hk he.symm
      simp [insertKey, hnlt, hne, ih (sorted_tail hs) k v hf2]

theorem map_id_of {α : Type} (g : α → α) :
    ∀ l : List α, (∀ x ∈ l, g x = x) → l.map g = l := by
  intro l
  induction l with
  | nil => intro _; rfl
  | cons x xs ih =>
    intro h
    rw [List.map_cons, h x (List.mem_cons_self _ _),
      ih (fun y hy => h y (List.mem_cons_of_mem _ hy))]

theorem map_kv_congr {β γ : Type} (g1 g2 : β → γ) :
    ∀ l : List (String × β), (∀ kv ∈ l, g1 kv.2 = g2 kv.2) →
    l.map (fun kv => (kv.1, g1 kv.2)) = l.map (fun kv => (kv.1, g2 kv.2)) := by
  intro l
  induction l with
  | nil => intro _; rfl
  | cons x xs ih =>
    intro h
    rw [List.map_cons, List.map_cons, h x (List.mem_cons_self _ _),
      ih (fun y hy => h y (List.mem_cons_of_mem _ hy))]

theorem map_entries_id {β : Type} (g : β → β) :
    ∀ l : List (String × β), (∀ kv ∈ l, g kv.2 = kv.2) →
    l.map (fun kv => (kv.1, g kv.2)) = l := by
  intro l
  induction l with
  | nil => intro _; rfl
  | cons x xs ih =>
    intro h
    rw [List.map_cons, h x (List.mem_cons_self _ _),
      ih (fun y hy => h y (List.mem_cons_of_mem _ hy))]

theorem filter_of_all {α : Type} (p : α → Bool) :
    ∀ l : List α, (∀ x ∈ l, p x = true) → l.filter p = l := by
  intro l
  induction l with
  | nil => intro _; rfl
  | cons x xs ih =>
    intro h
    rw [List.filter_cons, if_pos (h x (List.mem_cons_self _ _)),
      ih (fun y hy => h y (List.mem_cons_of_mem _ hy))]

theorem nullableKeysOf_false (l : List (String × JValue)) :
    nullableKeysOf (l.map (fun kv => (kv.1, (kv.2, false)))) = [] := by
  induction l with
  | nil => rfl
  | cons x xs ih =>
    simp only [List.map_cons, nullableKeysOf, List.filter_cons] at ih ⊢
    exact ih

theorem jsizeO_mem {kv : String × JValue} : ∀ {m : JObj}, kv ∈ m →
    jsize kv.2 ≤ jsizeO m := by
  intro m
  induction m with
  | nil => intro h; exact absurd h (List.not_mem_nil kv)
  | cons hd rest ih =>
    intro h
    rcases List.mem_cons.mp h with h | h
    · subst h
      simp [jsizeO, Nat.le_add_right]
    · have := ih h
      simp only [jsizeO]
      omega

theorem jsizeL_mem {x : JValue} : ∀ {xs : List JValue}, x ∈ xs →
    jsize x ≤ jsizeL xs := by
  intro xs
  induction xs with
  | nil => intro h; exact absurd h (List.not_mem_nil x)
  | cons y ys ih =>
    intro h
    rcases List.mem_cons.mp h with h | h
    · subst h
      simp [jsizeL, Nat.le_add_right]
    · have := ih h
      simp only [jsizeL]
      omega

theorem stableB_obj (f : Nat) (m : JObj) :
    stableB (f + 1) (.obj m) =
      (stableNode m &&
        (match findKey "properties" m with
         | some (.obj props) => props.all (fun kv => stableB f kv.2)
         | _ => m.all (fun kv => stableB f kv.2))) := rfl

theorem stableB_arr (f : Nat) (xs : List JValue) :
    stableB (f + 1) (.arr xs) = xs.all (fun x => stableB f x) := rfl

theorem stableNode_split {m : JObj} (h : stableNode m = true) :
    sortedKeysB m = true ∧ stableKeysAbsentB m = true ∧ stableTypeB m = true ∧
      reqConsistentB m = true ∧ stableEnumB m = true := by
  unfold stableNode at h
  obtain ⟨h14, h5⟩ := bool_and_split h
  obtain ⟨h13, h4⟩ := bool_and_split h14
  obtain ⟨h12, h3⟩ := bool_and_split h13
  obtain ⟨h1, h2⟩ := bool_and_split h12
  exact ⟨h1, h2, h3, h4, h5⟩

theorem absent_key {m : JObj} (h : stableKeysAbsentB m = true) {k : String}
    (hk : k ∈ hardRemoveFields ++ validationFields.map (·.1)) :
    findKey k m = none := by
  unfold stableKeysAbsentB at h
  have := List.all_eq_true.mp h k hk
  exact Option.isNone_iff_eq_none.mp this

theorem eraseKey_of_none {k : String} : ∀ {m : JObj}, findKey k m = none →
    eraseKey k m = m := by
  intro m
  induction m with
  | nil => intro _; rfl
  | cons hd rest ih =>
    intro h
    obtain ⟨k', v'⟩ := hd
    by_cases hk : k' = k
    · rw [show findKey k ((k', v') :: rest) = some v' by simp [findKey, hk]] at h
      cases h
    · rw [show findKey k ((k', v') :: rest) = findKey k rest by simp [findKey, hk]] at h
      simp [eraseKey, hk, ih h]

theorem eraseFold_of_none : ∀ (fs : List String) (m : JObj),
    (∀ k ∈ fs, findKey k m = none) →
    fs.foldl (fun a g => eraseKey g a) m = m := by
  intro fs
  induction fs with
  | nil => intro m _; rfl
  | cons g tl ih =>
    intro m h
    have hg : eraseKey g m = m := eraseKey_of_none (h g (List.mem_cons_self _ _))
    show tl.foldl (fun a g => eraseKey g a) (eraseKey g m) = m
    rw [hg]
    exact ih m (fun k hk => h k (List.mem_cons_of_mem _ hk))

theorem migrateScan_of_none : ∀ (fields : List (String × String))
    (acc : JObj × List String),
    (∀ fl ∈ fields, findKey fl.1 acc.1 = none) → migrateScan fields acc = acc := by
  intro fields
  induction fields with
  | nil => intro acc _; rfl
  | cons fl tl ih =>
    intro acc h
    have hfl : migrateStep acc fl = acc := by
      simp [migrateStep, h fl (List.mem_cons_self _ _)]
    show migrateScan tl (migrateStep acc fl) = acc
    rw [hfl]
    exact ih acc (fun g hg => h g (List.mem_cons_of_mem _ hg))

theorem migrate_noop {m : JObj}
    (h : ∀ fl ∈ validationFields, findKey fl.1 m = none) :
    migrateConstraints m = m := by
  unfold migrateConstraints
  rw [migrateScan_of_none validationFields (m, []) h]
  show applyHints [] m = m
  simp [applyHints]

theorem resolveUnion_noop {m : JObj} (ha : findKey "anyOf" m = none)
    (ho : findKey "oneOf" m = none) : resolveUnion m = m := by
  by_cases ht : (findKey "type" m).isNone = true
  · have h1 : unionAssign "anyOf" m = m := by simp [unionAssign, ha]
    have h2 : unionAssign "oneOf" m = m := by simp [unionAssign, ho]
    simp [resolveUnion, ht, h1, h2]
  · simp [resolveUnion, ht]

theorem hardRemove_noop {m : JObj} (h : stableKeysAbsentB m = true) :
    hardRemoveStep m = m :=
  eraseFold_of_none hardRemoveFields m
    (fun k hk => absent_key h (List.mem_append_left _ hk))

theorem placeholder_noop {m : JObj} (hT : stableTypeB m = true) :
    placeholderStep m = m := by
  cases ht : findKey "type" m with
  | none => simp [placeholderStep, ht]
  | some w =>
    cases w with
    | str s =>
      by_cases hobj : s = "object"
      · simp only [stableTypeB, ht] at hT
        obtain ⟨_, h3⟩ := bool_and_split hT
        rw [if_pos hobj] at h3
        simp [placeholderStep, ht, hobj, h3]
      · simp [placeholderStep, ht, hobj]
    | arr x =>
      simp only [stableTypeB, ht] at hT
      cases hT
    | null => simp [placeholderStep, ht]
    | bool x => simp [placeholderStep, ht]
    | num x => simp [placeholderStep, ht]
    | obj x => simp [placeholderStep, ht]

theorem requiredFilter_noop {m : JObj} (hs : sortedKeysB m = true)
    (hr : reqConsistentB m = true) : requiredFilterStep m = m := by
  cases hq : findKey "required" m with
  | none => simp [requiredFilterStep, hq]
  | some w =>
    cases w with
    | arr req =>
      have hfilt : filterRequired (validPropKeys m) req = req := by
        cases hvp : validPropKeys m with
        | some keys =>
          simp only [reqConsistentB, hq, hvp] at hr
          exact filter_of_all _ req (List.all_eq_true.mp hr)
        | none =>
          simp only [reqConsistentB, hq, hvp] at hr
          have : req = [] := by
            cases req with
            | nil => rfl
            | cons x xs => cases hr
          rw [this]
          rfl
      have he : requiredFilterStep m = insertKey "required" (.arr req) m := by
        simp [requiredFilterStep, hq, hfilt]
      rw [he]
      exact insertKey_same m hs _ _ hq
    | null => simp [requiredFilterStep, hq]
    | bool x => simp [requiredFilterStep, hq]
    | num x => simp [requiredFilterStep, hq]
    | str x => simp [requiredFilterStep, hq]
    | obj x => simp [requiredFilterStep, hq]

theorem typeStep_noop {m : JObj} (hs : sortedKeysB m = true)
    (hT : stableTypeB m = true) : typeStep m = (m, false) := by
  cases ht : findKey "type" m with
  | none => simp [typeStep, ht]
  | some w =>
    cases w with
    | str s =>
      simp only [stableTypeB, ht] at hT
      obtain ⟨h12, _⟩ := bool_and_split hT
      obtain ⟨h1, h2⟩ := bool_and_split h12
      have hls : lowerStr s = s := of_decide_eq_true h1
      have hnn : ¬ (s = "null") := by
        intro hc
        rw [hc] at h2
        simp at h2
      have he : typeStep m = (insertKey "type" (.str (lowerStr s)) m,
          decide (lowerStr s = "null")) := by
        simp [typeStep, ht]
      rw [he, hls, insertKey_same m hs _ _ ht, decide_eq_false hnn]
    | arr x =>
      simp only [stableTypeB, ht] at hT
      cases hT
    | null => simp [typeStep, ht]
    | bool x => simp [typeStep, ht]
    | num x => simp [typeStep, ht]
    | obj x => simp [typeStep, ht]

theorem enumStep_noop {m : JObj} (hs : sortedKeysB m = true)
    (hE : stableEnumB m = true) (fu : Nat) : enumStep fu m = m := by
  cases hq : findKey "enum" m with
  | none => simp [enumStep, hq]
  | some w =>
    cases w with
    | arr items =>
      simp only [stableEnumB, hq] at hE
      have hmap : items.map (enumElemToString fu) = items := by
        apply map_id_of
        intro x hx
        have := List.all_eq_true.mp hE x hx
        cases x with
        | str s => rfl
        | null => cases this
        | bool b => cases this
        | num n => cases this
        | arr l => cases this
        | obj o => cases this
      have he : enumStep fu m = insertKey "enum" (.arr items) m := by
        simp [enumStep, hq, hmap]
      rw [he]
      exact insertKey_same m hs _ _ hq
    | null => simp [enumStep, hq]
    | bool x => simp [enumStep, hq]
    | num x => simp [enumStep, hq]
    | str x => simp [enumStep, hq]
    | obj x => simp [enumStep, hq]

theorem finishNode_noop {m : JObj} (h : stableNode m = true) (f : Nat) :
    finishNode f m = (m, false) := by
  obtain ⟨hs, habs, hT, hreq, hE⟩ := stableNode_split h
  have h3 : migrateConstraints m = m :=
    migrate_noop (fun fl hfl => absent_key habs
      (List.mem_append_right _ (List.mem_map_of_mem _ hfl)))
  have h4 : resolveUnion m = m :=
    resolveUnion_noop (absent_key habs (by decide)) (absent_key habs (by decide))
  have h5 : hardRemoveStep m = m := hardRemove_noop habs
  have h6 : placeholderStep m = m := placeholder_noop hT
  have h7 : requiredFilterStep m = m := requiredFilter_noop hs hreq
  have h8 : typeStep m = (m, false) := typeStep_noop hs hT
  have h10 : enumStep f m = m := enumStep_noop hs hE f
  have hfe : finishNode f m =
      (enumStep f
        (nullableDescStep (typeStep (requiredFilterStep (placeholderStep
          (hardRemoveStep (resolveUnion (migrateConstraints m)))))).2
          (typeStep (requiredFilterStep (placeholderStep (hardRemoveStep
            (resolveUnion (migrateConstraints m)))))).1),
       (typeStep (requiredFilterStep (placeholderStep (hardRemoveStep
         (resolveUnion (migrateConstraints m)))))).2) := by
    simp only [finishNode]
  rw [hfe, h3, h4, h5, h6, h7, h8]
  show (enumStep f (nullableDescStep false m), false) = (m, false)
  rw [show nullableDescStep false m = m from rfl, h10]

/-- A value in normal form is a fixed point of the recursive pass, with
the nullable flag clear. -/
theorem stable_cleanFuel : ∀ (fuel : Nat) (v : JValue), stableB fuel v = true →
    jsize v < fuel → cleanFuel fuel v = (v, false) := by
  intro fuel
  induction fuel with
  | zero => intro v _ hsz; exact absurd hsz (Nat.not_lt_zero _)
  | succ f ih =>
    intro v hst hsz
    cases v with
    | null => rfl
    | bool b => rfl
    | num n => rfl
    | str s => rfl
    | arr xs =>
      rw [cleanFuel_arr_eq]
      rw [stableB_arr] at hst
      have hmap : xs.map (fun x => (cleanFuel f x).1) = xs := by
        apply map_id_of
        intro x hx
        have h1 := List.all_eq_true.mp hst x hx
        have h2 : jsize x < f := by
          have := jsizeL_mem hx
          simp only [jsize] at hsz
          omega
        rw [ih x h1 h2]
      rw [hmap]
    | obj m =>
      rw [cleanFuel_obj_eq]
      rw [stableB_obj] at hst
      obtain ⟨hnode, hchild⟩ := bool_and_split hst
      obtain ⟨hsorted, habs, hT, hreq, hE⟩ := stableNode_split hnode
      have hallOf : findKey "allOf" m = none := absent_key habs (by decide)
      have hmerge : mergeAllOf m = m := by simp [mergeAllOf, hallOf]
      have hszm : jsizeO m < f := by
        simp only [jsize] at hsz
        omega
      have hfin := finishNode_noop hnode f
      have hcs : childStage f m = m := by
        cases hp : findKey "properties" m with
        | some w =>
          cases w with
          | obj props =>
            have hpm : ("properties", JValue.obj props) ∈ m := findKey_mem hp
            have hpr : (match findKey "properties" m with
                | some (.obj pr) => pr.all (fun kv => stableB f kv.2)
                | _ => m.all (fun kv => stableB f kv.2)) =
                props.all (fun kv => stableB f kv.2) := by
              split
              · rename_i pr heq
                rw [hp] at heq
                cases heq
                rfl
              · rename_i hne
                exact absurd hp (hne _)
            rw [hpr] at hchild
            have hchildren : ∀ kv ∈ props, cleanFuel f kv.2 = (kv.2, false) := by
              intro kv hkv
              apply ih kv.2 (List.all_eq_true.mp hchild kv hkv)
              have h1 := jsizeO_mem hkv
              have h2 := jsizeO_mem hpm
              simp only [jsize] at h2
              omega
            have hstep : childStage f m =
                retractRequired
                  (nullableKeysOf (props.map (fun kv => (kv.1, cleanFuel f kv.2))))
                  (insertKey "properties"
                    (.obj ((props.map (fun kv => (kv.1, cleanFuel f kv.2))).map
                      (fun kv => (kv.1, kv.2.1)))) m) := by
              simp [childStage, hp]
            have hclean : props.map (fun kv => (kv.1, cleanFuel f kv.2)) =
                props.map (fun kv => (kv.1, (kv.2, false))) :=
              map_kv_congr (cleanFuel f) (fun v => (v, false)) props
                (fun kv hkv => hchildren kv hkv)
            have hnew : (props.map (fun kv => (kv.1, (kv.2, false)))).map
                (fun kv => (kv.1, kv.2.1)) = props := by
              rw [List.map_map]
              exact map_entries_id (fun v => v) props (fun kv _ => rfl)
            rw [hstep, hclean, nullableKeysOf_false, hnew]
            have hret : retractRequired []
                (insertKey "properties" (.obj props) m) =
                insertKey "properties" (.obj props) m := by
              simp [retractRequired]
            rw [hret]
            exact insertKey_same m hsorted _ _ hp
          | null =>
            have hstep : childStage f m =
                m.map (fun kv => (kv.1, (cleanFuel f kv.2).1)) := by
              simp [childStage, hp]
            rw [hstep]
            refine map_entries_id (fun v => (cleanFuel f v).1) m ?_
            intro kv hkv
            have hpr : (match findKey "properties" m with
                | some (.obj pr) => pr.all (fun kv => stableB f kv.2)
                | _ => m.all (fun kv => stableB f kv.2)) =
                m.all (fun kv => stableB f kv.2) := by
              split
              · rename_i pr heq
                rw [hp] at heq
                cases heq
              · rfl
            rw [hpr] at hchild
            have h2 : jsize kv.2 < f := by
              have := jsizeO_mem hkv
              omega
            show (cleanFuel f kv.2).1 = kv.2
            rw [ih kv.2 (List.all_eq_true.mp hchild kv hkv) h2]
          | bool x =>
            have hstep : childStage f m =
                m.map (fun kv => (kv.1, (cleanFuel f kv.2).1)) := by
              simp [childStage, hp]
            rw [hstep]
            refine map_entries_id (fun v => (cleanFuel f v).1) m ?_
            intro kv hkv
            have hpr : (match findKey "properties" m with
                | some (.obj pr) => pr.all (fun kv => stableB f kv.2)
                | _ => m.all (fun kv => stableB f kv.2)) =
                m.all (fun kv => stableB f kv.2) := by
              split
              · rename_i pr heq
                rw [hp] at heq
                cases heq
              · rfl
            rw [hpr] at hchild
            have h2 : jsize kv.2 < f := by
              have := jsizeO_mem hkv
              omega
            show (cleanFuel f kv.2).1 = kv.2
            rw [ih kv.2 (List.all_eq_true.mp hchild kv hkv) h2]
          | num x =>
            have hstep : childStage f m =
                m.map (fun kv => (kv.1, (cleanFuel f kv.2).1)) := by
              simp [childStage, hp]
            rw [hstep]
            refine map_entries_id (fun v => (cleanFuel f v).1) m ?_
            intro kv hkv
            have hpr : (match findKey "properties" m with
                | some (.obj pr) => pr.all (fun kv => stableB f kv.2)
                | _ => m.all (fun kv => stableB f kv.2)) =
                m.all (fun kv => stableB f kv.2) := by
              split
              · rename_i pr heq
                rw [hp] at heq
                cases heq
              · rfl
            rw [hpr] at hchild
            have h2 : jsize kv.2 < f := by
              have := jsizeO_mem hkv
              omega
            show (cleanFuel f kv.2).1 = kv.2
            rw [ih kv.2 (List.all_eq_true.mp hchild kv hkv) h2]
          | str x =>
            have hstep : childStage f m =
                m.map (fun kv => (kv.1, (cleanFuel f kv.2).1)) := by
              simp [childStage, hp]
            rw [hstep]
            refine map_entries_id (fun v => (cleanFuel f v).1) m ?_
            intro kv hkv
            have hpr : (match findKey "properties" m with
                | some (.obj pr) => pr.all (fun kv => stableB f kv.2)
                | _ => m.all (fun kv => stableB f kv.2)) =
                m.all (fun kv => stableB f kv.2) := by
              split
              · rename_i pr heq
                rw [hp] at heq
                cases heq
              · rfl
            rw [hpr] at hchild
            have h2 : jsize kv.2 < f := by
              have := jsizeO_mem hkv
              omega
            show (cleanFuel f kv.2).1 = kv.2
            rw [ih kv.2 (List.all_eq_true.mp hchild kv hkv) h2]
          | arr x =>
            have hstep : childStage f m =
                m.map (fun kv => (kv.1, (cleanFuel f kv.2).1)) := by
              simp [childStage, hp]
            rw [hstep]
            refine map_entries_id (fun v => (cleanFuel f v).1) m ?_
            intro kv hkv
            have hpr : (match findKey "properties" m with
                | some (.obj pr) => pr.all (fun kv => stableB f kv.2)
                | _ => m.all (fun kv => stableB f kv.2)) =
                m.all (fun kv => stableB f kv.2) := by
              split
              · rename_i pr heq
                rw [hp] at heq
                cases heq
              · rfl
            rw [hpr] at hchild
            have h2 : jsize kv.2 < f := by
              have := jsizeO_mem hkv
              omega
            show (cleanFuel f kv.2).1 = kv.2
            rw [ih kv.2 (List.all_eq_true.mp hchild kv hkv) h2]
        | none =>
          have hstep : childStage f m =
              m.map (fun kv => (kv.1, (cleanFuel f kv.2).1)) := by
            simp [childStage, hp]
          rw [hstep]
          refine map_entries_id (fun v => (cleanFuel f v).1) m ?_
          intro kv hkv
          have hpr : (match findKey "properties" m with
              | some (.obj pr) => pr.all (fun kv => stableB f kv.2)
              | _ => m.all (fun kv => stableB f kv.2)) =
              m.all (fun kv => stableB f kv.2) := by
            split
            · rename_i pr heq
              rw [hp] at heq
              cases heq
            · rfl
          rw [hpr] at hchild
          have h2 : jsize kv.2 < f := by
            have := jsizeO_mem hkv
            omega
          show (cleanFuel f kv.2).1 = kv.2
          rw [ih kv.2 (List.all_eq_true.mp hchild kv hkv) h2]
      rw [hmerge, hcs, hfin]
theorem stable_cleanRoot (w : JValue) (h1 : stableRootB w = true)
    (h2 : stableB (rootFuelOf w) w = true) : cleanRoot w = w := by
  cases w with
  | null => rfl
  | bool b => rfl
  | num n => rfl
  | str s => rfl
  | arr xs =>
    show (cleanFuel (jsize (JValue.arr xs) + 1) (.arr xs)).1 = .arr xs
    have h' : stableB (jsize (JValue.arr xs) + 1) (.arr xs) = true := h2
    rw [stable_cleanFuel _ _ h' (Nat.lt_succ_self _)]
  | obj m =>
    obtain ⟨hd1, hd2⟩ := bool_and_split h1
    have hdefs : findKey "$defs" m = none := Option.isNone_iff_eq_none.mp hd1
    have hdefn : findKey "definitions" m = none := Option.isNone_iff_eq_none.mp hd2
    have hstrip : rootStripped m = m := by
      unfold rootStripped
      rw [eraseKey_of_none hdefs, eraseKey_of_none hdefn]
    have hrd1 : rootDefs1 m = [] := by simp [rootDefs1, hdefs]
    have hrd : rootDefs m = [] := by
      unfold rootDefs
      rw [eraseKey_of_none hdefs, hdefn]
      exact hrd1
    have hflat : rootFlattened m = m := by
      simp [rootFlattened, hrd, hstrip]
    show (cleanFuel (jsize (JValue.obj (rootFlattened m)) + 1)
      (.obj (rootFlattened m))).1 = .obj m
    rw [hflat]
    have h3 : stableB (jsize (JValue.obj m) + 1) (.obj m) = true := by
      have h' : stableB (jsize (JValue.obj (rootFlattened m)) + 1) (.obj m) = true := h2
      rw [hflat] at h'
      exact h'
    rw [stable_cleanFuel _ _ h3 (Nat.lt_succ_self _)]

/-- C4 (amended): the pass is idempotent on normal forms — whenever the
first application's output is in the normal form `stableRootB`/`stableB`
(sorted keys, no removable or validation keys, normalized non-`"null"`
string `type`, consistent `required`, string `enum` members, no
definitions table), a second application returns it unchanged; it is not
idempotent on all inputs. -/
theorem C4_theorem (v : JValue)
    (h1 : stableRootB (cleanRoot v) = true)
    (h2 : stableB (rootFuelOf (cleanRoot v)) (cleanRoot v) = true) :
    cleanRoot (cleanRoot v) = cleanRoot v :=
  stable_cleanRoot (cleanRoot v) h1 h2

theorem C4_witness :
    stableRootB (cleanRoot c4in) = true ∧
    stableB (rootFuelOf (cleanRoot c4in)) (cleanRoot c4in) = true ∧
    cleanRoot (cleanRoot c4in) = cleanRoot c4in :=
  ⟨rfl, rfl, C4_theorem c4in rfl rfl⟩
